import Mathlib

/-!
Verification development for the account/session/credential lifecycle core of
the gateway repository (`backend/core/account_pool.py`, `backend/core/jwt_manager.py`,
`gemini-enterprise-business/backend/core/session_manager.py`,
`gemini-enterprise-business/backend/core/config.py`,
`gemini-enterprise-business/backend/services/chat_handler.py`).

Modelling conventions:
* Timestamps (`time.time()`) are modelled as integers (`Int`); all cooldown
  arithmetic in the source uses integral numbers of seconds.
* Python byte strings are `List Nat` (each entry a byte value), Python `str`
  is Lean `String` or `List Char`.
* `async`/`await` and the `asyncio.Lock` serialization are elided: each locked
  operation is modelled as one atomic state transition, which is exactly the
  behaviour the lock enforces for sequential histories.
* Network calls are modelled by passing the upstream response as an explicit
  argument to the operation.
-/

namespace Gateway

/-! ### Configuration (`gemini-enterprise-business/backend/core/config.py`)

Environment overrides are not modelled; the values below are the defaults in
the source (`os.getenv(..., "300")` etc.). -/

namespace Config

def ACCOUNT_COOLDOWN_SECONDS : Int := 300

def AUTH_ERROR_COOLDOWN_SECONDS : Int := 900

def RATE_LIMIT_COOLDOWN_SECONDS : Int := 300

def JWT_TTL_SECONDS : Int := 270

end Config

/-! ### Account (`backend/core/account_pool.py`, class `Account`)

`jwt_mgr` (an object handle), `last_used_at` and `cookie_expires_at`
(`datetime` values used for observability only) are modelled as plain data;
none of them takes part in the operations the claims are about. -/

structure Account where
  name : String
  secure_c_ses : String
  csesidx : String
  config_id : String
  host_c_oses : Option String := none
  disabled_until : Int := 0
  fail_count : Nat := 0
  last_used_at : Option Int := none
  last_error : Option String := none
  cookie_status : String := "unknown"
  cookie_expires_at : Option Int := none
deriving DecidableEq, Repr

namespace Account

/-- `Account.is_available`: `time.time() >= self.disabled_until and self.fail_count < 3`. -/
def is_available (now : Int) (a : Account) : Bool :=
  decide (a.disabled_until ≤ now) && decide (a.fail_count < 3)

/-- `Account.mark_quota_error(status_code, detail)`. -/
def mark_quota_error (now : Int) (status_code : Nat) (detail : String) (a : Account) : Account :=
  let cooldown : Int :=
    if status_code = 401 ∨ status_code = 403 then Config.AUTH_ERROR_COOLDOWN_SECONDS
    else if status_code = 429 then Config.RATE_LIMIT_COOLDOWN_SECONDS
    else Config.ACCOUNT_COOLDOWN_SECONDS
  { a with
    disabled_until := max a.disabled_until (now + cooldown)
    fail_count := a.fail_count + 1
    last_error := some (if detail ≠ "" then
        "HTTP " ++ toString status_code ++ ": " ++ (detail.take 200)
      else "HTTP " ++ toString status_code) }

/-- `Account.mark_success()`. -/
def mark_success (now : Int) (a : Account) : Account :=
  { a with fail_count := 0, last_error := none, last_used_at := some now }

/-- `Account.reset_cooldown()`. -/
def reset_cooldown (a : Account) : Account :=
  { a with disabled_until := 0, fail_count := 0, last_error := none }

/-- `Account.get_remaining_cooldown()`: `max(0, int(disabled_until - time.time()))`. -/
def get_remaining_cooldown (now : Int) (a : Account) : Int :=
  max 0 (a.disabled_until - now)

end Account

/-! ### Account pool (`backend/core/account_pool.py`, class `AccountPool`)

The `http_client` handle and the conversation-affinity `_session_cache` play
no part in the claims below and are omitted from the state. -/

structure AccountPool where
  accounts : List Account
  rr_index : Nat
deriving Repr

/-- A placeholder account used only to give `List.getD` a default; every use
is guarded by an in-bounds index. -/
def dfltAccount : Account :=
  { name := "", secure_c_ses := "", csesidx := "", config_id := "" }

/-- The round-robin scan loop inside `AccountPool.get_next_available`:
`for _ in range(n): acc = accounts[rr_index % n]; rr_index = (rr_index+1) % n;
if acc.is_available(): return acc`.  `fuel` is the number of remaining loop
iterations (`n` at the top-level call); the returned `Nat` is the value of
`self._rr_index` when the loop stops. -/
def scanRR (now : Int) (accounts : List Account) : Nat → Nat → Option Account × Nat
  | 0, idx => (none, idx)
  | fuel + 1, idx =>
      let n := accounts.length
      let acc := accounts.getD (idx % n) dfltAccount
      let idx' := (idx + 1) % n
      if acc.is_available now then (some acc, idx')
      else scanRR now accounts fuel idx'

/-- `min(self.accounts, key=lambda a: a.disabled_until)`: Python `min` keeps
the first element among ties, replacing the current minimum only on a strictly
smaller key. -/
def minByDisabledUntil : List Account → Option Account
  | [] => none
  | a :: rest =>
      some (rest.foldl (fun b x => if x.disabled_until < b.disabled_until then x else b) a)

/-- `AccountPool.get_next_available()` (the body guarded by `self._lock`). -/
def get_next_available (now : Int) (p : AccountPool) : Option Account × AccountPool :=
  if p.accounts.length = 0 then (none, p)
  else
    match scanRR now p.accounts p.accounts.length p.rr_index with
    | (some acc, idx') => (some acc, { p with rr_index := idx' })
    | (none, idx') =>
        (minByDisabledUntil p.accounts, { p with rr_index := idx' })

/-- `AccountPool.add_account(account)` (the `jwt_mgr` attachment is I/O-free
object wiring and is not modelled). -/
def add_account (a : Account) (p : AccountPool) : AccountPool :=
  { p with accounts := p.accounts ++ [a] }

/-- Removal of the first account with a matching name
(`AccountPool.remove_account`); returns the new list and whether a removal
happened. -/
def removeFirstByName (name : String) : List Account → List Account × Bool
  | [] => ([], false)
  | a :: rest =>
      if a.name = name then (rest, true)
      else
        let (rest', b) := removeFirstByName name rest
        (a :: rest', b)

/-- `AccountPool.remove_account(name)`: pops the first account with that name;
`self._rr_index` is not adjusted. -/
def remove_account (name : String) (p : AccountPool) : AccountPool × Bool :=
  let (accs, b) := removeFirstByName name p.accounts
  ({ p with accounts := accs }, b)

/-- `AccountPool.get_alternative(exclude_name)`. -/
def get_alternative (now : Int) (exclude_name : String) (p : AccountPool) : Option Account :=
  p.accounts.find? (fun acc => acc.name ≠ exclude_name && acc.is_available now)

/-- Repeated calls to `get_next_available` on the same pool, collecting the
returned accounts in order. -/
def selectList (now : Int) : Nat → AccountPool → List Account × AccountPool
  | 0, p => ([], p)
  | n + 1, p =>
      let step := get_next_available now p
      let rest := selectList now n step.2
      (step.1.toList ++ rest.1, rest.2)

/-! ### Claim C2: cooldown tier selection in `mark_quota_error` -/

/-- Claim C2 (counterexample): the claim requires the 429 cooldown to lie
strictly between the auth tier and the default tier, and the default tier to
be strictly shorter than the 429 tier.  With the source's default
configuration `RATE_LIMIT_COOLDOWN_SECONDS = 300 = ACCOUNT_COOLDOWN_SECONDS`,
so a 429 and a 500 produce exactly the same `disabled_until`. -/
theorem mark_quota_error_strict_tiers_cex :
    (dfltAccount.mark_quota_error 0 429 "").disabled_until
      = (dfltAccount.mark_quota_error 0 500 "").disabled_until
    ∧ ¬ (Config.ACCOUNT_COOLDOWN_SECONDS < Config.RATE_LIMIT_COOLDOWN_SECONDS) := by
  constructor
  · rfl
  · decide

/-- Claim C2 (amended): `mark_quota_error(status, detail)` picks the cooldown
by status class — 401/403 get `AUTH_ERROR_COOLDOWN_SECONDS` (the strictly
longest tier), 429 gets `RATE_LIMIT_COOLDOWN_SECONDS`, and every other status
gets `ACCOUNT_COOLDOWN_SECONDS`, which under the default configuration equals
(rather than being strictly shorter than) the 429 tier; in all cases
`disabled_until = max(disabled_until, now + cooldown)` (never shortened) and
`fail_count` is incremented by 1. -/
theorem mark_quota_error_tiers (now : Int) (status : Nat) (detail : String) (a : Account) :
    ((status = 401 ∨ status = 403) →
      (a.mark_quota_error now status detail).disabled_until
        = max a.disabled_until (now + Config.AUTH_ERROR_COOLDOWN_SECONDS))
    ∧ (status = 429 →
      (a.mark_quota_error now status detail).disabled_until
        = max a.disabled_until (now + Config.RATE_LIMIT_COOLDOWN_SECONDS))
    ∧ (¬ (status = 401 ∨ status = 403 ∨ status = 429) →
      (a.mark_quota_error now status detail).disabled_until
        = max a.disabled_until (now + Config.ACCOUNT_COOLDOWN_SECONDS))
    ∧ (a.mark_quota_error now status detail).fail_count = a.fail_count + 1
    ∧ a.disabled_until ≤ (a.mark_quota_error now status detail).disabled_until
    ∧ Config.RATE_LIMIT_COOLDOWN_SECONDS < Config.AUTH_ERROR_COOLDOWN_SECONDS
    ∧ Config.ACCOUNT_COOLDOWN_SECONDS = Config.RATE_LIMIT_COOLDOWN_SECONDS := by
  refine ⟨?_, ?_, ?_, ?_, ?_, by decide, by decide⟩
  · intro h
    simp only [Account.mark_quota_error, if_pos h]
  · intro h
    have h' : ¬ (status = 401 ∨ status = 403) := by omega
    simp only [Account.mark_quota_error, if_neg h', if_pos h]
  · intro h
    have h1 : ¬ (status = 401 ∨ status = 403) := by tauto
    have h2 : ¬ (status = 429) := by tauto
    simp only [Account.mark_quota_error, if_neg h1, if_neg h2]
  · simp only [Account.mark_quota_error]
  · simp only [Account.mark_quota_error]
    exact le_max_left _ _

/-- Witness for `mark_quota_error_tiers` at concrete inputs. -/
theorem mark_quota_error_tiers_witness :
    (dfltAccount.mark_quota_error 7 401 "x").disabled_until
      = max dfltAccount.disabled_until (7 + Config.AUTH_ERROR_COOLDOWN_SECONDS)
    ∧ (dfltAccount.mark_quota_error 7 429 "x").disabled_until
      = max dfltAccount.disabled_until (7 + Config.RATE_LIMIT_COOLDOWN_SECONDS)
    ∧ (dfltAccount.mark_quota_error 7 500 "x").disabled_until
      = max dfltAccount.disabled_until (7 + Config.ACCOUNT_COOLDOWN_SECONDS) :=
  ⟨(mark_quota_error_tiers 7 401 "x" dfltAccount).1 (Or.inl rfl),
   (mark_quota_error_tiers 7 429 "x" dfltAccount).2.1 rfl,
   (mark_quota_error_tiers 7 500 "x" dfltAccount).2.2.1 (by omega)⟩

/-! ### Modular-arithmetic helpers for the round-robin analysis -/

/-- `(N+1) / K` and `(N+1) % K` in terms of `N / K` and `N % K`. -/
lemma succ_div_mod (K N : Nat) (hK : 0 < K) :
    ((N + 1) % K = if N % K + 1 = K then 0 else N % K + 1)
    ∧ ((N + 1) / K = if N % K + 1 = K then N / K + 1 else N / K) := by
  have hdm : K * (N / K) + N % K = N := Nat.div_add_mod N K
  have hlt : N % K < K := Nat.mod_lt _ hK
  by_cases h : N % K + 1 = K
  · have hN : N + 1 = K * (N / K + 1) := by
      conv_lhs => rw [← hdm]
      rw [Nat.mul_succ, Nat.add_assoc, h]
    refine ⟨?_, ?_⟩
    · rw [if_pos h, hN, Nat.mul_mod_right]
    · rw [if_pos h, hN, Nat.mul_div_cancel_left _ hK]
  · have hN : N + 1 = K * (N / K) + (N % K + 1) := by
      conv_lhs => rw [← hdm]
      rw [Nat.add_assoc]
    have hlt2 : N % K + 1 < K := by omega
    refine ⟨?_, ?_⟩
    · rw [if_neg h, hN, Nat.mul_add_mod, Nat.mod_eq_of_lt hlt2]
    · rw [if_neg h, hN, Nat.mul_add_div hK, Nat.div_eq_of_lt hlt2, Nat.add_zero]

/-- Adding the "complement to the next multiple of `K`" of `r0` in front of
`i` does not change `i`'s residue. -/
lemma add_compl_mod (K r0 i : Nat) (hK : 0 < K) :
    (r0 + (K - r0 % K) + i) % K = i % K := by
  have hs : r0 % K < K := Nat.mod_lt _ hK
  have hdm : K * (r0 / K) + r0 % K = r0 := Nat.div_add_mod r0 K
  have e1 : r0 + (K - r0 % K) + i = i + K * (r0 / K) + K := by omega
  rw [e1, Nat.add_assoc, ← Nat.mul_succ, Nat.add_mul_mod_self_left]

/-- Residues of `r0 + i` against shifted residues of `i`. -/
lemma shift_mod_iff (K r0 j i : Nat) (hK : 0 < K) (hj : j < K) :
    ((r0 + i) % K = j) ↔ (i % K = (j + (K - r0 % K)) % K) := by
  constructor
  · intro h
    calc i % K = (r0 + (K - r0 % K) + i) % K := (add_compl_mod K r0 i hK).symm
    _ = ((r0 + i) + (K - r0 % K)) % K := congrArg (· % K) (by omega)
    _ = ((r0 + i) % K + (K - r0 % K)) % K := (Nat.mod_add_mod _ _ _).symm
    _ = (j + (K - r0 % K)) % K := by rw [h]
  · intro h
    calc (r0 + i) % K = (r0 + i % K) % K := (Nat.add_mod_mod _ _ _).symm
    _ = (r0 + (j + (K - r0 % K)) % K) % K := by rw [h]
    _ = (r0 + (j + (K - r0 % K))) % K := Nat.add_mod_mod _ _ _
    _ = (r0 + (K - r0 % K) + j) % K := congrArg (· % K) (by omega)
    _ = j % K := add_compl_mod K r0 j hK
    _ = j := Nat.mod_eq_of_lt hj

/-- Number of `i < N` with `i % K = m`. -/
lemma filter_mod_count (K m : Nat) (hK : 0 < K) (hm : m < K) :
    ∀ N, ((List.range N).filter (fun i => decide (i % K = m))).length
      = N / K + (if m < N % K then 1 else 0) := by
  intro N
  induction N with
  | zero => simp
  | succ N ih =>
      have hsd := succ_div_mod K N hK
      have hlt : N % K < K := Nat.mod_lt _ hK
      have hsing : (List.filter (fun i => decide (i % K = m)) [N]).length
          = (if N % K = m then 1 else 0) := by
        by_cases h : N % K = m <;> simp [h]
      rw [show List.range (N + 1) = List.range N ++ [N] from List.range_succ N,
        List.filter_append, List.length_append, ih, hsd.1, hsd.2, hsing]
      split_ifs <;> omega

/-- Number of `i < N` with `(r0 + i) % K = j`. -/
lemma count_shifted (K r0 j N : Nat) (hK : 0 < K) (hj : j < K) :
    ((List.range N).filter (fun i => decide ((r0 + i) % K = j))).length
      = N / K + (if (j + (K - r0 % K)) % K < N % K then 1 else 0) := by
  have hm : (j + (K - r0 % K)) % K < K := Nat.mod_lt _ hK
  rw [← filter_mod_count K _ hK hm N]
  congr 1
  apply List.filter_congr
  intro i _
  simp only [decide_eq_decide]
  exact shift_mod_iff K r0 j i hK hj

/-- When `N` is not a multiple of `K`, `⌈N/K⌉ = ⌊N/K⌋ + 1`. -/
lemma ceil_bound (K N : Nat) (hK : 0 < K) (h1 : 1 ≤ N % K) :
    N / K + 1 ≤ (N + K - 1) / K := by
  rw [Nat.le_div_iff_mul_le hK]
  have hdm : K * (N / K) + N % K = N := Nat.div_add_mod N K
  have hKq : K * (N / K) = N - N % K := by omega
  calc (N / K + 1) * K = K * (N / K) + K := by ring
  _ = (N - N % K) + K := by rw [hKq]
  _ ≤ N + K - 1 := by omega

lemma getD_mem_of_lt (l : List Account) (k : Nat) (hk : k < l.length) :
    l.getD k dfltAccount ∈ l := by
  rw [List.getD_eq_getElem l dfltAccount hk]
  exact List.getElem_mem hk

/-- One unfolding of `scanRR` when the account under the cursor is available. -/
lemma scanRR_avail_head (now : Int) (accs : List Account) (fuel idx : Nat)
    (h : (accs.getD (idx % accs.length) dfltAccount).is_available now = true) :
    scanRR now accs (fuel + 1) idx
      = (some (accs.getD (idx % accs.length) dfltAccount), (idx + 1) % accs.length) := by
  simp only [scanRR, h, if_true]

/-- With every account available, `get_next_available` returns the account at
the cursor (mod pool size) and advances the cursor by one (mod pool size). -/
lemma get_next_available_all_avail (now : Int) (accs : List Account) (r0 : Nat)
    (hK : 0 < accs.length)
    (hav : ∀ a ∈ accs, a.is_available now = true) :
    get_next_available now ⟨accs, r0⟩
      = (some (accs.getD (r0 % accs.length) dfltAccount),
         ⟨accs, (r0 + 1) % accs.length⟩) := by
  have hne : accs.length ≠ 0 := by omega
  have havx := hav _ (getD_mem_of_lt accs (r0 % accs.length) (Nat.mod_lt _ hK))
  obtain ⟨m, hm⟩ : ∃ m, accs.length = m + 1 := ⟨accs.length - 1, by omega⟩
  rw [get_next_available, if_neg hne]
  have hscan := scanRR_avail_head now accs m r0 havx
  rw [← hm] at hscan
  rw [hscan]

/-- With every account available, `N` selections return the accounts at
cursor positions `r0, r0+1, …, r0+N-1` (mod pool size), in order. -/
lemma selectList_all_avail (now : Int) (accs : List Account)
    (hK : 0 < accs.length) (hav : ∀ a ∈ accs, a.is_available now = true) :
    ∀ (N r0 : Nat),
      (selectList now N ⟨accs, r0⟩).1
        = (List.range N).map (fun i => accs.getD ((r0 + i) % accs.length) dfltAccount) := by
  intro N
  induction N with
  | zero => intro r0; simp [selectList]
  | succ N ih =>
      intro r0
      simp only [selectList]
      rw [get_next_available_all_avail now accs r0 hK hav]
      simp only [Option.toList_some]
      rw [ih ((r0 + 1) % accs.length), List.range_succ_eq_map, List.map_cons, List.map_map]
      refine congrArg₂ List.cons ?_ ?_
      · simp
      · apply List.map_congr_left
        intro i _
        simp only [Function.comp_apply, Nat.succ_eq_add_one, Nat.mod_add_mod]
        have he : r0 + 1 + i = r0 + (i + 1) := by omega
        rw [he]

/-! ### Claim C1: round-robin fairness and order -/

/-- Claim C1: on a pool whose `K` accounts are all available, `N` consecutive
`get_next_available()` calls return the accounts in insertion order starting
at the round-robin cursor and wrapping modulo `K` (the `i`-th call returns
`accounts[(r0 + i) % K]`), and each account is returned at least
`⌊N/K⌋ = N / K` and at most `⌈N/K⌉ = (N + K - 1) / K` times. -/
theorem round_robin_fairness (now : Int) (accs : List Account) (r0 N : Nat)
    (hK : 0 < accs.length) (hr0 : r0 < accs.length) (hnd : accs.Nodup)
    (hav : ∀ a ∈ accs, a.is_available now = true) :
    (∀ i, i < N →
      (selectList now N ⟨accs, r0⟩).1.getD i dfltAccount
        = accs.getD ((r0 + i) % accs.length) dfltAccount)
    ∧ (∀ j, j < accs.length →
        N / accs.length
            ≤ (selectList now N ⟨accs, r0⟩).1.count (accs.getD j dfltAccount)
        ∧ (selectList now N ⟨accs, r0⟩).1.count (accs.getD j dfltAccount)
            ≤ (N + accs.length - 1) / accs.length) := by
  have hsel := selectList_all_avail now accs hK hav N r0
  constructor
  · intro i hi
    rw [hsel]
    have hlen : i < ((List.range N).map
        (fun i => accs.getD ((r0 + i) % accs.length) dfltAccount)).length := by
      simpa using hi
    rw [List.getD_eq_getElem _ _ hlen, List.getElem_map, List.getElem_range]
  · intro j hj
    rw [hsel]
    have hcount : ((List.range N).map
          (fun i => accs.getD ((r0 + i) % accs.length) dfltAccount)).count
            (accs.getD j dfltAccount)
        = ((List.range N).filter
            (fun i => decide ((r0 + i) % accs.length = j))).length := by
      have h1 : ∀ (l : List Account) (a : Account), l.count a = l.countP (· == a) :=
        fun _ _ => rfl
      rw [h1, List.countP_map, List.countP_eq_length_filter]
      apply congrArg List.length
      apply List.filter_congr
      intro i _
      simp only [Function.comp_apply]
      by_cases hc : (r0 + i) % accs.length = j
      · rw [decide_eq_true hc]
        exact beq_iff_eq.mpr (by rw [hc])
      · have hne : accs.getD ((r0 + i) % accs.length) dfltAccount
            ≠ accs.getD j dfltAccount := by
          intro he
          apply hc
          have hiL : (r0 + i) % accs.length < accs.length := Nat.mod_lt _ hK
          rw [List.getD_eq_getElem _ _ hiL, List.getD_eq_getElem _ _ hj] at he
          exact (List.Nodup.getElem_inj_iff hnd).mp he
        rw [decide_eq_false hc]
        exact beq_eq_false_iff_ne.mpr hne
    rw [hcount, count_shifted accs.length r0 j N hK hj]
    refine ⟨Nat.le_add_right _ _, ?_⟩
    by_cases hc : (j + (accs.length - r0 % accs.length)) % accs.length < N % accs.length
    · rw [if_pos hc]
      exact ceil_bound _ _ hK (by omega)
    · rw [if_neg hc, Nat.add_zero]
      exact Nat.div_le_div_right (by omega)

/-- Convenience constructor for concrete test accounts. -/
def mkAcct (n : String) : Account :=
  { name := n, secure_c_ses := "", csesidx := "", config_id := "" }

/-- Witness for `round_robin_fairness`: pool `[a, b, c]`, cursor 0, 4 calls. -/
theorem round_robin_fairness_witness :
    (∀ i, i < 4 →
      (selectList 0 4 ⟨[mkAcct "a", mkAcct "b", mkAcct "c"], 0⟩).1.getD i dfltAccount
        = [mkAcct "a", mkAcct "b", mkAcct "c"].getD
            ((0 + i) % [mkAcct "a", mkAcct "b", mkAcct "c"].length) dfltAccount)
    ∧ (∀ j, j < [mkAcct "a", mkAcct "b", mkAcct "c"].length →
        4 / [mkAcct "a", mkAcct "b", mkAcct "c"].length
            ≤ (selectList 0 4 ⟨[mkAcct "a", mkAcct "b", mkAcct "c"], 0⟩).1.count
                ([mkAcct "a", mkAcct "b", mkAcct "c"].getD j dfltAccount)
        ∧ (selectList 0 4 ⟨[mkAcct "a", mkAcct "b", mkAcct "c"], 0⟩).1.count
              ([mkAcct "a", mkAcct "b", mkAcct "c"].getD j dfltAccount)
            ≤ (4 + [mkAcct "a", mkAcct "b", mkAcct "c"].length - 1)
                / [mkAcct "a", mkAcct "b", mkAcct "c"].length) :=
  round_robin_fairness 0 [mkAcct "a", mkAcct "b", mkAcct "c"] 0 4
    (by decide) (by decide) (by decide) (by decide)

/-- A successful scan returns a pool member that is available, and leaves the
cursor in range. -/
lemma scanRR_some (now : Int) (accs : List Account) (hK : 0 < accs.length) :
    ∀ fuel idx acc idx2, scanRR now accs fuel idx = (some acc, idx2) →
      acc ∈ accs ∧ acc.is_available now = true ∧ idx2 < accs.length := by
  intro fuel
  induction fuel with
  | zero => intro idx acc idx2 h; simp [scanRR] at h
  | succ fuel ih =>
      intro idx acc idx2 h
      simp only [scanRR] at h
      by_cases hav : (accs.getD (idx % accs.length) dfltAccount).is_available now = true
      · rw [if_pos hav] at h
        injection h with h1 h2
        injection h1 with h1
        rw [← h1]
        exact ⟨getD_mem_of_lt accs _ (Nat.mod_lt _ hK), hav, h2 ▸ Nat.mod_lt _ hK⟩
      · rw [if_neg hav] at h
        exact ih _ _ _ h

/-- A failed scan means every position probed was unavailable. -/
lemma scanRR_none_unavail (now : Int) (accs : List Account) (hK : 0 < accs.length) :
    ∀ fuel idx idx2, scanRR now accs fuel idx = (none, idx2) →
      ∀ i, i < fuel →
        (accs.getD ((idx + i) % accs.length) dfltAccount).is_available now = false := by
  intro fuel
  induction fuel with
  | zero => intro idx idx2 h i hi; omega
  | succ fuel ih =>
      intro idx idx2 h i hi
      simp only [scanRR] at h
      by_cases hav : (accs.getD (idx % accs.length) dfltAccount).is_available now = true
      · rw [if_pos hav] at h
        exact absurd h (by simp)
      · rw [if_neg hav] at h
        cases i with
        | zero =>
            rw [Nat.add_zero]
            exact Bool.eq_false_iff.mpr hav
        | succ i' =>
            have hrec := ih ((idx + 1) % accs.length) idx2 h i' (by omega)
            rw [Nat.mod_add_mod] at hrec
            have he : idx + 1 + i' = idx + (i' + 1) := by omega
            rw [he] at hrec
            exact hrec

/-- After a failed scan of positive fuel, the returned cursor is in range. -/
lemma scanRR_none_idx (now : Int) (accs : List Account) (hK : 0 < accs.length) :
    ∀ fuel idx idx2, 1 ≤ fuel → scanRR now accs fuel idx = (none, idx2) →
      idx2 < accs.length := by
  intro fuel
  induction fuel with
  | zero => intro idx idx2 h; omega
  | succ fuel ih =>
      intro idx idx2 _ h
      simp only [scanRR] at h
      by_cases hav : (accs.getD (idx % accs.length) dfltAccount).is_available now = true
      · rw [if_pos hav] at h
        exact absurd h (by simp)
      · rw [if_neg hav] at h
        cases fuel with
        | zero =>
            simp only [scanRR] at h
            injection h with _ h2
            rw [← h2]
            exact Nat.mod_lt _ hK
        | succ fuel' => exact ih _ _ (by omega) h

/-- Scanning a full cycle of length `L` starting anywhere probes every index. -/
lemma exists_scan_index (L idx j : Nat) (hL : 0 < L) (hj : j < L) :
    ∃ i, i < L ∧ (idx + i) % L = j := by
  refine ⟨(j + (L - idx % L)) % L, Nat.mod_lt _ hL, ?_⟩
  exact (shift_mod_iff L idx j _ hL hj).mpr (Nat.mod_eq_of_lt (Nat.mod_lt _ hL))

/-- The Python `min(..., key=lambda a: a.disabled_until)` fold: the result is
the start or a list member, and its key is minimal. -/
lemma foldl_min_mem_le :
    ∀ (l : List Account) (a : Account),
      (l.foldl (fun b x => if x.disabled_until < b.disabled_until then x else b) a = a
        ∨ l.foldl (fun b x => if x.disabled_until < b.disabled_until then x else b) a ∈ l)
      ∧ (l.foldl (fun b x => if x.disabled_until < b.disabled_until then x else b)
            a).disabled_until ≤ a.disabled_until
      ∧ ∀ x ∈ l,
          (l.foldl (fun b x => if x.disabled_until < b.disabled_until then x else b)
              a).disabled_until ≤ x.disabled_until := by
  intro l
  induction l with
  | nil => intro a; simp
  | cons y l ih =>
      intro a
      simp only [List.foldl_cons]
      by_cases hY : y.disabled_until < a.disabled_until
      · rw [if_pos hY]
        obtain ⟨h1, h2, h3⟩ := ih y
        refine ⟨?_, le_trans h2 (le_of_lt hY), ?_⟩
        · rcases h1 with h | h
          · right; rw [h]; exact List.mem_cons_self _ _
          · right; exact List.mem_cons_of_mem _ h
        · intro x hx
          rcases List.mem_cons.mp hx with hx | hx
          · rw [hx]; exact h2
          · exact h3 x hx
      · rw [if_neg hY]
        obtain ⟨h1, h2, h3⟩ := ih a
        refine ⟨?_, h2, ?_⟩
        · rcases h1 with h | h
          · left; exact h
          · right; exact List.mem_cons_of_mem _ h
        · intro x hx
          rcases List.mem_cons.mp hx with hx | hx
          · rw [hx]; exact le_trans h2 (le_of_not_lt hY)
          · exact h3 x hx

/-- Characterization of the fallback pick. -/
lemma minByDisabledUntil_spec (accs : List Account) (hne : accs ≠ []) :
    ∃ a, minByDisabledUntil accs = some a ∧ a ∈ accs
      ∧ ∀ b ∈ accs, a.disabled_until ≤ b.disabled_until := by
  match accs, hne with
  | y :: l, _ =>
      obtain ⟨h1, h2, h3⟩ := foldl_min_mem_le l y
      refine ⟨_, rfl, ?_, ?_⟩
      · rcases h1 with h | h
        · rw [h]; exact List.mem_cons_self _ _
        · exact List.mem_cons_of_mem _ h
      · intro b hb
        rcases List.mem_cons.mp hb with hb | hb
        · rw [hb]; exact h2
        · exact h3 b hb

lemma gna_eq_scan_some (now : Int) (accs : List Account) (r0 : Nat) (acc : Account)
    (idx2 : Nat) (hne : accs.length ≠ 0)
    (hsc : scanRR now accs accs.length r0 = (some acc, idx2)) :
    get_next_available now ⟨accs, r0⟩ = (some acc, ⟨accs, idx2⟩) := by
  unfold get_next_available
  rw [if_neg hne, hsc]

lemma gna_eq_scan_none (now : Int) (accs : List Account) (r0 : Nat)
    (idx2 : Nat) (hne : accs.length ≠ 0)
    (hsc : scanRR now accs accs.length r0 = (none, idx2)) :
    get_next_available now ⟨accs, r0⟩ = (minByDisabledUntil accs, ⟨accs, idx2⟩) := by
  unfold get_next_available
  rw [if_neg hne, hsc]

/-! ### Claim C4: selection only fails on an empty pool, with degraded fallback -/

/-- Claim C4: `get_next_available()` returns no account only when the pool is
empty; on a non-empty pool with at least one available account it returns an
available pool member, and on a non-empty pool with no available account it
returns a pool member with minimal `disabled_until`. -/
theorem get_next_available_spec (now : Int) (p : AccountPool) :
    ((get_next_available now p).1 = none ↔ p.accounts = [])
    ∧ (p.accounts ≠ [] → (∃ x ∈ p.accounts, x.is_available now = true) →
        ∃ a, (get_next_available now p).1 = some a ∧ a.is_available now = true
          ∧ a ∈ p.accounts)
    ∧ (p.accounts ≠ [] → (∀ x ∈ p.accounts, x.is_available now = false) →
        ∃ a, (get_next_available now p).1 = some a ∧ a ∈ p.accounts
          ∧ ∀ b ∈ p.accounts, a.disabled_until ≤ b.disabled_until) := by
  obtain ⟨accs, r0⟩ := p
  by_cases hemp : accs = []
  · subst hemp
    refine ⟨by simp [get_next_available], ?_, ?_⟩
    · intro h; exact absurd rfl h
    · intro h; exact absurd rfl h
  · have hK : 0 < accs.length := List.length_pos.mpr hemp
    have hne : accs.length ≠ 0 := by omega
    cases hsc : scanRR now accs accs.length r0 with
    | mk o idx2 =>
      cases o with
      | some acc =>
          obtain ⟨hmem, havail, _⟩ := scanRR_some now accs hK _ _ _ _ hsc
          rw [gna_eq_scan_some now accs r0 acc idx2 hne hsc]
          refine ⟨⟨fun h => by simp at h, fun h => absurd h hemp⟩, ?_, ?_⟩
          · intro _ _; exact ⟨acc, rfl, havail, hmem⟩
          · intro _ hall
            exact absurd (hall acc hmem) (by rw [havail]; simp)
      | none =>
          obtain ⟨a, hmin, hmema, hlea⟩ := minByDisabledUntil_spec accs hemp
          rw [gna_eq_scan_none now accs r0 idx2 hne hsc]
          refine ⟨⟨fun h => by rw [hmin] at h; simp at h, fun h => absurd h hemp⟩, ?_, ?_⟩
          · rintro _ ⟨x, hx, hxa⟩
            obtain ⟨⟨j, hjlt⟩, hix⟩ := List.mem_iff_get.mp hx
            obtain ⟨i, hi, hij⟩ := exists_scan_index accs.length r0 j hK hjlt
            have hfalse := scanRR_none_unavail now accs hK accs.length r0 idx2 hsc i hi
            rw [hij, List.getD_eq_getElem _ _ hjlt] at hfalse
            have : x.is_available now = false := by
              rw [← hix]; exact hfalse
            rw [hxa] at this
            exact absurd this (by simp)
          · intro _ _
            exact ⟨a, hmin, hmema, hlea⟩

/-- A concrete cooling-down account for witnesses. -/
def coolAcct (n : String) : Account :=
  { name := n, secure_c_ses := "", csesidx := "", config_id := "",
    disabled_until := 50, fail_count := 3 }

/-- Witness for `get_next_available_spec`: a two-account pool, once with all
accounts available and once with none available. -/
theorem get_next_available_spec_witness :
    (∃ a, (get_next_available 0 ⟨[mkAcct "a", mkAcct "b"], 0⟩).1 = some a
      ∧ a.is_available 0 = true ∧ a ∈ [mkAcct "a", mkAcct "b"])
    ∧ (∃ a, (get_next_available 0 ⟨[coolAcct "a", coolAcct "b"], 0⟩).1 = some a
      ∧ a ∈ [coolAcct "a", coolAcct "b"]
      ∧ ∀ b ∈ [coolAcct "a", coolAcct "b"], a.disabled_until ≤ b.disabled_until) :=
  ⟨(get_next_available_spec 0 ⟨[mkAcct "a", mkAcct "b"], 0⟩).2.1 (by decide)
      ⟨mkAcct "a", by decide⟩,
   (get_next_available_spec 0 ⟨[coolAcct "a", coolAcct "b"], 0⟩).2.2 (by decide)
      (by decide)⟩

/-! ### Claim C5: the round-robin cursor invariant -/

/-- Claim C5 (counterexample): two selections move the cursor to 2 on a
three-account pool; removing an account then leaves the cursor at 2 on a
two-account pool, outside `[0, len(accounts))` while the pool is non-empty. -/
theorem rr_cursor_cex :
    ¬ ((remove_account "a" (get_next_available 0 (get_next_available 0
          ⟨[mkAcct "a", mkAcct "b", mkAcct "c"], 0⟩).2).2).1.rr_index
        < (remove_account "a" (get_next_available 0 (get_next_available 0
          ⟨[mkAcct "a", mkAcct "b", mkAcct "c"], 0⟩).2).2).1.accounts.length)
    ∧ (remove_account "a" (get_next_available 0 (get_next_available 0
          ⟨[mkAcct "a", mkAcct "b", mkAcct "c"], 0⟩).2).2).1.accounts ≠ [] := by
  constructor
  · decide
  · decide

/-- Claim C5 (amended): each `get_next_available()` call on a non-empty pool
leaves the cursor in `[0, len(accounts))` (wrapping modulo the pool size) and
does not change the account list, and selection on an empty pool fails with
no account rather than indexing out of range; a `remove_account` immediately
after a selection can leave the stored cursor at `len(accounts)` or beyond,
but the next selection indexes modulo the pool size and restores the bound. -/
theorem rr_cursor_invariant (now : Int) (p : AccountPool) :
    (p.accounts ≠ [] →
      (get_next_available now p).2.rr_index
        < (get_next_available now p).2.accounts.length)
    ∧ (get_next_available now p).2.accounts = p.accounts
    ∧ (p.accounts = [] → get_next_available now p = (none, p)) := by
  obtain ⟨accs, r0⟩ := p
  by_cases hemp : accs = []
  · subst hemp
    refine ⟨fun h => absurd rfl h, ?_, fun _ => ?_⟩
    · simp [get_next_available]
    · simp [get_next_available]
  · have hK : 0 < accs.length := List.length_pos.mpr hemp
    have hne : accs.length ≠ 0 := by omega
    cases hsc : scanRR now accs accs.length r0 with
    | mk o idx2 =>
      cases o with
      | some acc =>
          rw [gna_eq_scan_some now accs r0 acc idx2 hne hsc]
          obtain ⟨_, _, hidx⟩ := scanRR_some now accs hK _ _ _ _ hsc
          exact ⟨fun _ => hidx, rfl, fun h => absurd h hemp⟩
      | none =>
          rw [gna_eq_scan_none now accs r0 idx2 hne hsc]
          have hidx := scanRR_none_idx now accs hK accs.length r0 idx2 (by omega) hsc
          exact ⟨fun _ => hidx, rfl, fun h => absurd h hemp⟩

/-- Witness for `rr_cursor_invariant` on a concrete two-account pool. -/
theorem rr_cursor_invariant_witness :
    (get_next_available 0 ⟨[mkAcct "a", mkAcct "b"], 5⟩).2.rr_index
      < (get_next_available 0 ⟨[mkAcct "a", mkAcct "b"], 5⟩).2.accounts.length :=
  (rr_cursor_invariant 0 ⟨[mkAcct "a", mkAcct "b"], 5⟩).1 (by decide)

/-! ### Session registry
(`gemini-enterprise-business/backend/core/session_manager.py`)

The `SessionManager._sessions` dict is modelled as a function
`String → Option Session`; upstream HTTP responses are passed explicitly.
The JWT fetch (`await account.jwt_mgr.get()`) that precedes each request is a
network step and is not part of the state transition modelled here. -/

structure Session where
  name : String
  account_name : String
  config_id : String
  created_at : Int
  last_used_at : Int
  file_ids : List String
deriving DecidableEq, Repr

/-- `Session.is_expired(max_age_seconds=3600)`:
`time.time() - self.last_used_at > max_age_seconds`. -/
def Session.is_expired (now : Int) (s : Session) (max_age_seconds : Int := 3600) : Bool :=
  decide (now - s.last_used_at > max_age_seconds)

/-- Upstream response to `widgetCreateSession`: HTTP status, the
`data["session"]["name"]` payload on success, and the raw body text used in
error details. -/
structure CreateSessionResp where
  status : Nat
  session_name : String
  body : String := ""

/-- The session object built by `SessionManager.create_session` on HTTP 200. -/
def freshSession (now : Int) (acct : Account) (resp : CreateSessionResp) : Session :=
  { name := resp.session_name, account_name := acct.name, config_id := acct.config_id,
    created_at := now, last_used_at := now, file_ids := [] }

/-- `SessionManager.create_session(account)`: on a non-200 status, penalize
the account when the status is 401/403/429 and raise; on 200, build a fresh
session bound to the account. -/
def create_session (now : Int) (acct : Account) (resp : CreateSessionResp) :
    Account × Except String Session :=
  if resp.status ≠ 200 then
    let acct' :=
      if resp.status = 401 ∨ resp.status = 403 ∨ resp.status = 429 then
        acct.mark_quota_error now resp.status resp.body
      else acct
    (acct', Except.error ("createSession failed: " ++ toString resp.status))
  else
    (acct, Except.ok (freshSession now acct resp))

/-- `SessionManager.get_or_create_session(account, conversation_key)`:
return the cached session (bumping `last_used_at`) when it exists, is not
expired and belongs to the requested account; otherwise delete the stale
entry, create a fresh session and cache it. -/
def get_or_create_session (now : Int) (sessions : String → Option Session)
    (acct : Account) (conversation_key : String) (resp : CreateSessionResp) :
    Account × Except String Session × (String → Option Session) :=
  match sessions conversation_key with
  | some s =>
      if (s.is_expired now) = false ∧ s.account_name = acct.name then
        let s' := { s with last_used_at := now }
        (acct, Except.ok s', fun k => if k = conversation_key then some s' else sessions k)
      else
        let evicted := fun k => if k = conversation_key then none else sessions k
        match create_session now acct resp with
        | (acct', Except.ok snew) =>
            (acct', Except.ok snew,
             fun k => if k = conversation_key then some snew else evicted k)
        | (acct', Except.error e) => (acct', Except.error e, evicted)
  | none =>
      match create_session now acct resp with
      | (acct', Except.ok snew) =>
          (acct', Except.ok snew,
           fun k => if k = conversation_key then some snew else sessions k)
      | (acct', Except.error e) => (acct', Except.error e, sessions)

/-- Upstream response to `widgetAddContextFile`: HTTP status and the optional
`data["addContextFileResponse"]["fileId"]` (absent field modelled as `none`). -/
structure UploadResp where
  status : Nat
  fileId : Option String
  body : String := ""

/-- `SessionManager.upload_file(...)`: on a non-200 status, penalize on
401/403/429 and raise; on 200, append the file id to `session.file_ids` only
when it is truthy (`if file_id:`), and return it as-is. -/
def upload_file (now : Int) (acct : Account) (sess : Session) (resp : UploadResp) :
    Account × Except String (Option String) × Session :=
  if resp.status ≠ 200 then
    let acct' :=
      if resp.status = 401 ∨ resp.status = 403 ∨ resp.status = 429 then
        acct.mark_quota_error now resp.status resp.body
      else acct
    (acct', Except.error ("Upload failed: " ++ toString resp.status), sess)
  else
    let sess' :=
      match resp.fileId with
      | some fid =>
          if fid ≠ "" then { sess with file_ids := sess.file_ids ++ [fid] } else sess
      | none => sess
    (acct, Except.ok resp.fileId, sess')

/-- Upstream response to `widgetListSessionFileMetadata`: HTTP status and the
file-metadata entries (opaque here). -/
structure ListFilesResp where
  status : Nat
  files : List String
  body : String := ""

/-- `SessionManager.list_session_files(...)`: on a non-200 status it logs and
returns an empty list — it neither penalizes the account nor raises. -/
def list_session_files (now : Int) (acct : Account) (sess : Session)
    (resp : ListFilesResp) : Account × List String :=
  if resp.status ≠ 200 then (acct, [])
  else (acct, resp.files)

lemma create_session_ok (now : Int) (acct : Account) (resp : CreateSessionResp)
    (h200 : resp.status = 200) :
    create_session now acct resp = (acct, Except.ok (freshSession now acct resp)) := by
  unfold create_session
  simp [h200]

/-- Any `get_or_create_session` call with a 200 upstream returns `ok` with a
session owned by the requested account, and caches that session. -/
lemma goc_ok (now : Int) (sessions : String → Option Session) (acct : Account)
    (key : String) (resp : CreateSessionResp) (h200 : resp.status = 200) :
    ∃ s, (get_or_create_session now sessions acct key resp).2.1 = Except.ok s
      ∧ s.account_name = acct.name
      ∧ (get_or_create_session now sessions acct key resp).2.2 key = some s := by
  unfold get_or_create_session
  cases hk : sessions key with
  | none =>
      rw [create_session_ok now acct resp h200]
      dsimp only
      exact ⟨freshSession now acct resp, rfl, rfl, by simp⟩
  | some s =>
      dsimp only
      by_cases hcond : (s.is_expired now) = false ∧ s.account_name = acct.name
      · rw [if_pos hcond]
        exact ⟨{ s with last_used_at := now }, rfl, hcond.2, by simp⟩
      · rw [if_neg hcond, create_session_ok now acct resp h200]
        dsimp only
        exact ⟨freshSession now acct resp, rfl, rfl, by simp⟩

/-- A cached session that is stale (expired or owned by a different account)
is evicted and replaced by a fresh session of the requested account. -/
lemma goc_stale (now : Int) (sessions : String → Option Session) (acct : Account)
    (key : String) (resp : CreateSessionResp) (s : Session)
    (hk : sessions key = some s)
    (hcond : ¬ ((s.is_expired now) = false ∧ s.account_name = acct.name))
    (h200 : resp.status = 200) :
    (get_or_create_session now sessions acct key resp).2.1
        = Except.ok (freshSession now acct resp)
      ∧ (get_or_create_session now sessions acct key resp).2.2 key
        = some (freshSession now acct resp) := by
  unfold get_or_create_session
  rw [hk]
  dsimp only
  rw [if_neg hcond, create_session_ok now acct resp h200]
  dsimp only
  exact ⟨rfl, by simp⟩

/-- The cache-hit path: not expired and same owner returns the cached session
with `last_used_at` bumped, re-caching it. -/
lemma goc_hit (now : Int) (sessions : String → Option Session) (acct : Account)
    (key : String) (resp : CreateSessionResp) (s : Session)
    (hk : sessions key = some s)
    (hcond : (s.is_expired now) = false ∧ s.account_name = acct.name) :
    get_or_create_session now sessions acct key resp
      = (acct, Except.ok { s with last_used_at := now },
         fun k => if k = key then some { s with last_used_at := now } else sessions k) := by
  unfold get_or_create_session
  rw [hk]
  dsimp only
  rw [if_pos hcond]

/-! ### Claim C3: session/account binding across consecutive calls -/

/-- Claim C3: a cached session is returned (with `last_used_at` bumped) only
when it is not expired and its owning account name equals the requested
account's name; in particular calling `get_or_create_session` for account `A`
and then for a different account `B` under the same conversation key never
hands `B` the session produced for `A` — the second call evicts the stale
entry and returns a fresh session bound to `B`. -/
theorem session_account_binding (now1 now2 : Int)
    (sessions : String → Option Session) (A B : Account) (key : String)
    (respA respB : CreateSessionResp)
    (hAB : A.name ≠ B.name) (hA : respA.status = 200) (hB : respB.status = 200) :
    (∀ c, sessions key = some c → (c.is_expired now1) = false → c.account_name = A.name →
      (get_or_create_session now1 sessions A key respA).2.1
        = Except.ok { c with last_used_at := now1 })
    ∧ ∃ s1 s2,
        (get_or_create_session now1 sessions A key respA).2.1 = Except.ok s1
        ∧ (get_or_create_session now2
              (get_or_create_session now1 sessions A key respA).2.2 B key respB).2.1
            = Except.ok s2
        ∧ s1.account_name = A.name
        ∧ s2.account_name = B.name
        ∧ s2 ≠ s1
        ∧ s2 = freshSession now2 B respB
        ∧ (get_or_create_session now2
              (get_or_create_session now1 sessions A key respA).2.2 B key respB).2.2 key
            = some s2 := by
  constructor
  · intro c hk hexp hname
    rw [goc_hit now1 sessions A key respA c hk ⟨hexp, hname⟩]
  · obtain ⟨s1, hres1, hname1, hmap1⟩ := goc_ok now1 sessions A key respA hA
    have hcond2 : ¬ ((s1.is_expired now2) = false ∧ s1.account_name = B.name) := by
      rintro ⟨_, hn⟩
      exact hAB (hname1 ▸ hn)
    obtain ⟨hres2, hmap2⟩ := goc_stale now2
      (get_or_create_session now1 sessions A key respA).2.2 B key respB s1 hmap1 hcond2 hB
    refine ⟨s1, freshSession now2 B respB, hres1, hres2, hname1, rfl, ?_, rfl, hmap2⟩
    intro he
    apply hAB
    have : (freshSession now2 B respB).account_name = s1.account_name := by rw [he]
    rw [hname1] at this
    exact this.symm

/-- Witness for `session_account_binding`: empty registry, accounts named
`"a"` and `"b"`, both upstream calls succeeding. -/
theorem session_account_binding_witness :
    ∃ s1 s2,
      (get_or_create_session 0 (fun _ => none) (mkAcct "a") "k" ⟨200, "s1", ""⟩).2.1
        = Except.ok s1
      ∧ (get_or_create_session 1
            (get_or_create_session 0 (fun _ => none) (mkAcct "a") "k"
              ⟨200, "s1", ""⟩).2.2 (mkAcct "b") "k" ⟨200, "s2", ""⟩).2.1
          = Except.ok s2
      ∧ s1.account_name = (mkAcct "a").name
      ∧ s2.account_name = (mkAcct "b").name
      ∧ s2 ≠ s1
      ∧ s2 = freshSession 1 (mkAcct "b") ⟨200, "s2", ""⟩
      ∧ (get_or_create_session 1
            (get_or_create_session 0 (fun _ => none) (mkAcct "a") "k"
              ⟨200, "s1", ""⟩).2.2 (mkAcct "b") "k" ⟨200, "s2", ""⟩).2.2 "k"
          = some s2 :=
  (session_account_binding 0 1 (fun _ => none) (mkAcct "a") (mkAcct "b") "k"
    ⟨200, "s1", ""⟩ ⟨200, "s2", ""⟩ (by decide) rfl rfl).2

/-! ### Claim C7: upstream failure classification -/

/-- A concrete session value for counterexamples and witnesses. -/
def dfltSession : Session :=
  { name := "sessions/s", account_name := "a", config_id := "", created_at := 0,
    last_used_at := 0, file_ids := [] }

/-- Claim C7 (counterexample): a 401 from file listing does not invoke
`mark_quota_error` (the account comes back unchanged, whereas penalization
would have changed it), and a 500 from listing is not raised to the caller —
`list_session_files` returns an empty list instead. -/
theorem list_files_no_penalty_cex :
    (list_session_files 0 (mkAcct "a") dfltSession ⟨401, ["f"], "x"⟩).1 = mkAcct "a"
    ∧ (list_session_files 0 (mkAcct "a") dfltSession ⟨500, ["f"], "x"⟩).2 = []
    ∧ (mkAcct "a").mark_quota_error 0 401 "x" ≠ mkAcct "a" := by
  refine ⟨rfl, rfl, ?_⟩
  decide

/-- Claim C7 (amended): for session creation and file upload, a non-200
status in {401, 403, 429} penalizes the account via `mark_quota_error` and
raises, any other non-200 raises without touching the account, and a 200
succeeds; file listing, by contrast, never penalizes and never raises — any
non-200 yields the unchanged account and an empty file list. -/
theorem upstream_error_handling (now : Int) (acct : Account) (sess : Session)
    (cresp : CreateSessionResp) (uresp : UploadResp) (lresp : ListFilesResp) :
    ((cresp.status ≠ 200 ∧ (cresp.status = 401 ∨ cresp.status = 403 ∨ cresp.status = 429)) →
      (create_session now acct cresp).1 = acct.mark_quota_error now cresp.status cresp.body
      ∧ ∃ e, (create_session now acct cresp).2 = Except.error e)
    ∧ ((cresp.status ≠ 200 ∧ ¬ (cresp.status = 401 ∨ cresp.status = 403 ∨ cresp.status = 429)) →
      (create_session now acct cresp).1 = acct
      ∧ ∃ e, (create_session now acct cresp).2 = Except.error e)
    ∧ (cresp.status = 200 → ∃ s, (create_session now acct cresp).2 = Except.ok s)
    ∧ ((uresp.status ≠ 200 ∧ (uresp.status = 401 ∨ uresp.status = 403 ∨ uresp.status = 429)) →
      (upload_file now acct sess uresp).1 = acct.mark_quota_error now uresp.status uresp.body
      ∧ ∃ e, (upload_file now acct sess uresp).2.1 = Except.error e)
    ∧ ((uresp.status ≠ 200 ∧ ¬ (uresp.status = 401 ∨ uresp.status = 403 ∨ uresp.status = 429)) →
      (upload_file now acct sess uresp).1 = acct
      ∧ ∃ e, (upload_file now acct sess uresp).2.1 = Except.error e)
    ∧ (uresp.status = 200 → ∃ r, (upload_file now acct sess uresp).2.1 = Except.ok r)
    ∧ (lresp.status ≠ 200 → list_session_files now acct sess lresp = (acct, []))
    ∧ (lresp.status = 200 → list_session_files now acct sess lresp = (acct, lresp.files)) := by
  refine ⟨?_, ?_, ?_, ?_, ?_, ?_, ?_, ?_⟩
  · rintro ⟨hne, hin⟩
    unfold create_session
    rw [if_pos hne, if_pos hin]
    exact ⟨rfl, _, rfl⟩
  · rintro ⟨hne, hnin⟩
    unfold create_session
    rw [if_pos hne, if_neg hnin]
    exact ⟨rfl, _, rfl⟩
  · intro h200
    rw [create_session_ok now acct cresp h200]
    exact ⟨_, rfl⟩
  · rintro ⟨hne, hin⟩
    unfold upload_file
    rw [if_pos hne, if_pos hin]
    exact ⟨rfl, _, rfl⟩
  · rintro ⟨hne, hnin⟩
    unfold upload_file
    rw [if_pos hne, if_neg hnin]
    exact ⟨rfl, _, rfl⟩
  · intro h200
    unfold upload_file
    rw [if_neg (by omega)]
    exact ⟨_, rfl⟩
  · intro hne
    unfold list_session_files
    rw [if_pos hne]
  · intro h200
    unfold list_session_files
    rw [if_neg (by omega)]

/-- Witness for `upstream_error_handling` at concrete statuses
(429 creation failure, 500 upload failure, 200 listing). -/
theorem upstream_error_handling_witness :
    ((create_session 0 (mkAcct "a") ⟨429, "", "x"⟩).1
        = (mkAcct "a").mark_quota_error 0 429 "x"
      ∧ ∃ e, (create_session 0 (mkAcct "a") ⟨429, "", "x"⟩).2 = Except.error e)
    ∧ ((upload_file 0 (mkAcct "a") dfltSession ⟨500, none, "y"⟩).1 = mkAcct "a"
      ∧ ∃ e, (upload_file 0 (mkAcct "a") dfltSession ⟨500, none, "y"⟩).2.1
          = Except.error e)
    ∧ list_session_files 0 (mkAcct "a") dfltSession ⟨200, ["f"], ""⟩
        = (mkAcct "a", ["f"]) :=
  ⟨(upstream_error_handling 0 (mkAcct "a") dfltSession ⟨429, "", "x"⟩ ⟨500, none, "y"⟩
      ⟨200, ["f"], ""⟩).1 (by decide),
   (upstream_error_handling 0 (mkAcct "a") dfltSession ⟨429, "", "x"⟩ ⟨500, none, "y"⟩
      ⟨200, ["f"], ""⟩).2.2.2.2.1 (by decide),
   (upstream_error_handling 0 (mkAcct "a") dfltSession ⟨429, "", "x"⟩ ⟨500, none, "y"⟩
      ⟨200, ["f"], ""⟩).2.2.2.2.2.2.2 rfl⟩

/-! ### Claim C10: upload result vs. `file_ids` bookkeeping -/

/-- Claim C10: on an HTTP 200 upload whose body carries no
`addContextFileResponse.fileId`, `upload_file` returns `None` and leaves
`session.file_ids` unchanged; a returned file id is appended to
`session.file_ids` exactly when it is truthy (present and non-empty). -/
theorem upload_file_id_append (now : Int) (acct : Account) (sess : Session)
    (resp : UploadResp) (h200 : resp.status = 200) :
    (resp.fileId = none →
      (upload_file now acct sess resp).2.1 = Except.ok none
      ∧ (upload_file now acct sess resp).2.2.file_ids = sess.file_ids)
    ∧ (∀ fid, resp.fileId = some fid →
      (upload_file now acct sess resp).2.1 = Except.ok (some fid)
      ∧ (fid ≠ "" →
          (upload_file now acct sess resp).2.2.file_ids = sess.file_ids ++ [fid])
      ∧ (fid = "" →
          (upload_file now acct sess resp).2.2.file_ids = sess.file_ids)) := by
  unfold upload_file
  rw [if_neg (by omega)]
  dsimp only
  constructor
  · intro hnone
    rw [hnone]
    exact ⟨rfl, rfl⟩
  · intro fid hfid
    rw [hfid]
    dsimp only
    refine ⟨rfl, ?_, ?_⟩
    · intro hne
      rw [if_pos hne]
    · intro hemp
      rw [if_neg (by simp [hemp])]

/-- Witness for `upload_file_id_append`: a 200 upload with no file id and a
200 upload with file id `"f1"`. -/
theorem upload_file_id_append_witness :
    ((upload_file 0 (mkAcct "a") dfltSession ⟨200, none, ""⟩).2.1 = Except.ok none
      ∧ (upload_file 0 (mkAcct "a") dfltSession ⟨200, none, ""⟩).2.2.file_ids
          = dfltSession.file_ids)
    ∧ ((upload_file 0 (mkAcct "a") dfltSession ⟨200, some "f1", ""⟩).2.1
          = Except.ok (some "f1")
      ∧ (upload_file 0 (mkAcct "a") dfltSession ⟨200, some "f1", ""⟩).2.2.file_ids
          = dfltSession.file_ids ++ ["f1"]) :=
  ⟨(upload_file_id_append 0 (mkAcct "a") dfltSession ⟨200, none, ""⟩ rfl).1 rfl,
   ((upload_file_id_append 0 (mkAcct "a") dfltSession ⟨200, some "f1", ""⟩ rfl).2
      "f1" rfl).1,
   ((upload_file_id_append 0 (mkAcct "a") dfltSession ⟨200, some "f1", ""⟩ rfl).2
      "f1" rfl).2.1 (by decide)⟩

/-! ### Token minting (`backend/core/jwt_manager.py`)

Python `bytes` values are `List Nat` with entries below 256.  The pieces of
the Python standard library used by `create_jwt` (`base64.urlsafe_b64encode`
with the trailing `=` stripped, `json.dumps(..., separators=(",", ":"))` with
its default `ensure_ascii=True` escaping, `hmac`/`hashlib.sha256`) are
modelled as executable functions below. -/

/-- The base64url alphabet. -/
def b64chars : List Char :=
  ("ABCDEFGHIJKLMNOPQRSTUVWXYZabcdefghijklmnopqrstuvwxyz0123456789-_").data

/-- The base64url character of a 6-bit value. -/
def b64char (i : Nat) : Char := b64chars.getD i 'A'

/-- `base64.urlsafe_b64encode` with the `=` padding already stripped
(`kq_encode` and `urlsafe_b64encode` in the source always strip it). -/
def encodeB64 : List Nat → List Char
  | [] => []
  | [a] => [b64char (a / 4), b64char (a % 4 * 16)]
  | [a, b] =>
      [b64char (a / 4), b64char (a % 4 * 16 + b / 16), b64char (b % 16 * 4)]
  | a :: b :: c :: rest =>
      b64char (a / 4) :: b64char (a % 4 * 16 + b / 16)
        :: b64char (b % 16 * 4 + c / 64) :: b64char (c % 64) :: encodeB64 rest

/-- Partial inverse of `b64char`. -/
def b64inv (c : Char) : Option Nat :=
  (List.range 64).find? (fun i => b64char i == c)

/-- Unpadded base64url decoding (the reading direction of the wire format;
groups of 4 characters give 3 bytes, a final group of 2 or 3 characters gives
1 or 2 bytes). -/
def decodeB64 : List Char → Option (List Nat)
  | [] => some []
  | [c1, c2] =>
      match b64inv c1, b64inv c2 with
      | some v1, some v2 => some [v1 * 4 + v2 / 16]
      | _, _ => none
  | [c1, c2, c3] =>
      match b64inv c1, b64inv c2, b64inv c3 with
      | some v1, some v2, some v3 =>
          some [v1 * 4 + v2 / 16, v2 % 16 * 16 + v3 / 4]
      | _, _, _ => none
  | [_] => none
  | c1 :: c2 :: c3 :: c4 :: rest =>
      match b64inv c1, b64inv c2, b64inv c3, b64inv c4, decodeB64 rest with
      | some v1, some v2, some v3, some v4, some tail =>
          some ((v1 * 4 + v2 / 16) :: (v2 % 16 * 16 + v3 / 4)
            :: (v3 % 4 * 64 + v4) :: tail)
      | _, _, _, _, _ => none

lemma b64char_mem (i : Nat) : b64char i ∈ b64chars := by
  unfold b64char
  by_cases h : i < b64chars.length
  · rw [List.getD_eq_getElem _ _ h]
    exact List.getElem_mem h
  · rw [List.getD_eq_default _ _ (by omega)]
    decide

lemma b64char_ne_dot (i : Nat) : b64char i ≠ '.' := by
  intro h
  have hm := b64char_mem i
  rw [h] at hm
  revert hm
  decide

lemma b64char_ne_eq (i : Nat) : b64char i ≠ '=' := by
  intro h
  have hm := b64char_mem i
  rw [h] at hm
  revert hm
  decide

/-- Every character emitted by `encodeB64` is from the base64url alphabet. -/
lemma encodeB64_mem : ∀ bs : List Nat, ∀ c ∈ encodeB64 bs, c ∈ b64chars
  | [] => by intro c hc; simp [encodeB64] at hc
  | [a] => by
      intro c hc
      simp only [encodeB64, List.mem_cons, List.not_mem_nil, or_false] at hc
      rcases hc with h | h <;> (subst h; exact b64char_mem _)
  | [a, b] => by
      intro c hc
      simp only [encodeB64, List.mem_cons, List.not_mem_nil, or_false] at hc
      rcases hc with h | h | h <;> (subst h; exact b64char_mem _)
  | a :: b :: cc :: rest => by
      intro c hc
      simp only [encodeB64, List.mem_cons] at hc
      rcases hc with h | h | h | h | h
      · subst h; exact b64char_mem _
      · subst h; exact b64char_mem _
      · subst h; exact b64char_mem _
      · subst h; exact b64char_mem _
      · exact encodeB64_mem rest c h

lemma b64inv_b64char (v : Nat) (hv : v < 64) : b64inv (b64char v) = some v := by
  revert v
  decide

/-- Decoding inverts encoding on byte lists. -/
lemma decode_encode : ∀ bs : List Nat, (∀ x ∈ bs, x < 256) →
    decodeB64 (encodeB64 bs) = some bs
  | [], _ => rfl
  | [a], hb => by
      have ha : a < 256 := hb a (by simp)
      simp only [encodeB64, decodeB64]
      rw [b64inv_b64char _ (by omega), b64inv_b64char _ (by omega)]
      dsimp only
      refine congrArg some ?_
      have e1 : a / 4 * 4 + (a % 4 * 16) / 16 = a := by omega
      rw [e1]
  | [a, b], hb => by
      have ha : a < 256 := hb a (by simp)
      have hbb : b < 256 := hb b (by simp)
      simp only [encodeB64, decodeB64]
      rw [b64inv_b64char _ (by omega), b64inv_b64char _ (by omega),
        b64inv_b64char _ (by omega)]
      dsimp only
      refine congrArg some ?_
      have e1 : a / 4 * 4 + (a % 4 * 16 + b / 16) / 16 = a := by omega
      have e2 : (a % 4 * 16 + b / 16) % 16 * 16 + (b % 16 * 4) / 4 = b := by omega
      rw [e1, e2]
  | a :: b :: c :: rest, hb => by
      have ha : a < 256 := hb a (by simp)
      have hbb : b < 256 := hb b (by simp)
      have hc : c < 256 := hb c (by simp)
      have ih := decode_encode rest (fun x hx => hb x (by simp [hx]))
      simp only [encodeB64, decodeB64]
      rw [b64inv_b64char _ (by omega), b64inv_b64char _ (by omega),
        b64inv_b64char _ (by omega), b64inv_b64char _ (by omega), ih]
      dsimp only
      refine congrArg some ?_
      have e1 : a / 4 * 4 + (a % 4 * 16 + b / 16) / 16 = a := by omega
      have e2 : (a % 4 * 16 + b / 16) % 16 * 16 + (b % 16 * 4 + c / 64) / 4 = b := by
        omega
      have e3 : (b % 16 * 4 + c / 64) % 4 * 64 + c % 64 = c := by omega
      rw [e1, e2, e3]

/-- The byte extraction loop of `kq_encode`: code points above 255 are split
into low byte then high byte (`v & 255`, `v >> 8`), everything else is one
byte. -/
def kqBytes : List Char → List Nat
  | [] => []
  | ch :: rest =>
      let v := ch.toNat
      if v > 255 then (v &&& 255) :: (v >>> 8) :: kqBytes rest
      else v :: kqBytes rest

/-- `kq_encode(s)`: byte-extract then base64url-encode without padding. -/
def kq_encode (s : String) : String := String.mk (encodeB64 (kqBytes s.data))

/-- `str.encode()` for ASCII strings: the UTF-8 bytes are the code points. -/
def strBytesAscii (cs : List Char) : List Nat := cs.map Char.toNat

lemma kqBytes_ascii : ∀ cs : List Char, (∀ c ∈ cs, c.toNat < 256) →
    kqBytes cs = strBytesAscii cs
  | [], _ => rfl
  | ch :: rest, h => by
      have hch : ch.toNat < 256 := h ch (by simp)
      have ih := kqBytes_ascii rest (fun c hc => h c (by simp [hc]))
      simp only [kqBytes, strBytesAscii, List.map_cons]
      rw [if_neg (by omega), ih]
      rfl

/-- Lowercase hex digit (also used for decimal digits below 10), as in
Python's `"%04x"` / `int.__str__` rendering. -/
def hexDigit (n : Nat) : Char := ("0123456789abcdef").data.getD n '0'

lemma hexDigit_ascii (n : Nat) : (hexDigit n).toNat < 128 := by
  unfold hexDigit
  by_cases h : n < ("0123456789abcdef").data.length
  · rw [List.getD_eq_getElem _ _ h]
    have hall : ∀ c ∈ ("0123456789abcdef").data, c.toNat < 128 := by decide
    exact hall _ (List.getElem_mem h)
  · rw [List.getD_eq_default _ _ (by omega)]
    decide

/-- The `'\\u%04x'` escape of a 16-bit value. -/
def uEsc (n : Nat) : List Char :=
  ['\\', 'u', hexDigit (n / 4096 % 16), hexDigit (n / 256 % 16),
   hexDigit (n / 16 % 16), hexDigit (n % 16)]

/-- `json.dumps` escaping of one character with the default
`ensure_ascii=True` (`ESCAPE_ASCII`): backslash, quote and everything outside
`0x20..0x7e` is escaped, with the usual two-character shortcuts and `\uXXXX`
(as a surrogate pair above `0xFFFF`). -/
def pyJsonEscapeChar (c : Char) : List Char :=
  if c = '"' then ['\\', '"']
  else if c = '\\' then ['\\', '\\']
  else if c = '\n' then ['\\', 'n']
  else if c = '\r' then ['\\', 'r']
  else if c = '\t' then ['\\', 't']
  else if c.toNat = 8 then ['\\', 'b']
  else if c.toNat = 12 then ['\\', 'f']
  else if c.toNat < 32 ∨ c.toNat > 126 then
    if c.toNat < 65536 then uEsc c.toNat
    else uEsc (55296 + (c.toNat - 65536) / 1024)
      ++ uEsc (56320 + (c.toNat - 65536) % 1024)
  else [c]

/-- A JSON string literal as `json.dumps` renders it. -/
def pyJsonStr (s : String) : List Char :=
  '"' :: (s.data.flatMap pyJsonEscapeChar ++ ['"'])

lemma uEsc_ascii (n : Nat) : ∀ x ∈ uEsc n, x.toNat < 128 := by
  intro x hx
  simp only [uEsc, List.mem_cons, List.not_mem_nil, or_false] at hx
  rcases hx with h | h | h | h | h | h
  · subst h; decide
  · subst h; decide
  · subst h; exact hexDigit_ascii _
  · subst h; exact hexDigit_ascii _
  · subst h; exact hexDigit_ascii _
  · subst h; exact hexDigit_ascii _

lemma pyJsonEscapeChar_ascii (c : Char) : ∀ x ∈ pyJsonEscapeChar c, x.toNat < 128 := by
  intro x hx
  unfold pyJsonEscapeChar at hx
  split_ifs at hx with h1 h2 h3 h4 h5 h6 h7 h8 h9
  · simp only [List.mem_cons, List.not_mem_nil, or_false] at hx
    rcases hx with h | h <;> (subst h; decide)
  · simp only [List.mem_cons, List.not_mem_nil, or_false] at hx
    rcases hx with h | h <;> (subst h; decide)
  · simp only [List.mem_cons, List.not_mem_nil, or_false] at hx
    rcases hx with h | h <;> (subst h; decide)
  · simp only [List.mem_cons, List.not_mem_nil, or_false] at hx
    rcases hx with h | h <;> (subst h; decide)
  · simp only [List.mem_cons, List.not_mem_nil, or_false] at hx
    rcases hx with h | h <;> (subst h; decide)
  · simp only [List.mem_cons, List.not_mem_nil, or_false] at hx
    rcases hx with h | h <;> (subst h; decide)
  · simp only [List.mem_cons, List.not_mem_nil, or_false] at hx
    rcases hx with h | h <;> (subst h; decide)
  · exact uEsc_ascii _ x hx
  · rcases List.mem_append.mp hx with h | h
    · exact uEsc_ascii _ x h
    · exact uEsc_ascii _ x h
  · simp only [List.mem_singleton] at hx
    subst hx
    push_neg at h8
    omega

lemma pyJsonStr_ascii (s : String) : ∀ x ∈ pyJsonStr s, x.toNat < 128 := by
  intro x hx
  unfold pyJsonStr at hx
  rcases List.mem_cons.mp hx with h | h
  · subst h; decide
  · rcases List.mem_append.mp h with h | h
    · obtain ⟨c, _, hmem⟩ := List.mem_flatMap.mp h
      exact pyJsonEscapeChar_ascii c x hmem
    · simp only [List.mem_singleton] at h
      subst h; decide

/-- Decimal rendering of a natural number, digit by digit (how `json.dumps`
renders a Python `int`). -/
def natDecAux : Nat → List Char → List Char
  | 0, acc => acc
  | n + 1, acc => natDecAux ((n + 1) / 10) (hexDigit ((n + 1) % 10) :: acc)
decreasing_by exact Nat.div_lt_self (Nat.succ_pos n) (by omega)

def natDec (n : Nat) : List Char := if n = 0 then ['0'] else natDecAux n []

lemma natDecAux_ascii : ∀ (n : Nat) (acc : List Char),
    (∀ x ∈ acc, x.toNat < 128) → ∀ x ∈ natDecAux n acc, x.toNat < 128
  | 0, acc, h => by
      intro x hx
      rw [natDecAux] at hx
      exact h x hx
  | n + 1, acc, h => by
      intro x hx
      rw [natDecAux] at hx
      refine natDecAux_ascii ((n + 1) / 10) _ ?_ x hx
      intro y hy
      rcases List.mem_cons.mp hy with h1 | h2
      · subst h1; exact hexDigit_ascii _
      · exact h y h2
decreasing_by exact Nat.div_lt_self (Nat.succ_pos n) (by omega)

lemma natDec_ascii (n : Nat) : ∀ x ∈ natDec n, x.toNat < 128 := by
  intro x hx
  unfold natDec at hx
  split_ifs at hx
  · simp only [List.mem_singleton] at hx
    subst hx; decide
  · exact natDecAux_ascii n [] (by simp) x hx

/-! ### SHA-256 and HMAC (`hashlib.sha256`, `hmac.new(..., digestmod=sha256)`) -/

/-- Truncation to a 32-bit word. -/
def w32 (x : Nat) : Nat := x % 4294967296

/-- Right rotation of a 32-bit word. -/
def rotr32 (x n : Nat) : Nat := w32 ((x >>> n) ||| (x <<< (32 - n)))

/-- The SHA-256 round constants. -/
def shaK : List Nat := [
  1116352408, 1899447441, 3049323471, 3921009573, 961987163, 1508970993,
  2453635748, 2870763221, 3624381080, 310598401, 607225278, 1426881987,
  1925078388, 2162078206, 2614888103, 3248222580, 3835390401, 4022224774,
  264347078, 604807628, 770255983, 1249150122, 1555081692, 1996064986,
  2554220882, 2821834349, 2952996808, 3210313671, 3336571891, 3584528711,
  113926993, 338241895, 666307205, 773529912, 1294757372, 1396182291,
  1695183700, 1986661051, 2177026350, 2456956037, 2730485921, 2820302411,
  3259730800, 3345764771, 3516065817, 3600352804, 4094571909, 275423344,
  430227734, 506948616, 659060556, 883997877, 958139571, 1322822218,
  1537002063, 1747873779, 1955562222, 2024104815, 2227730452, 2361852424,
  2428436474, 2756734187, 3204031479, 3329325298]

/-- The SHA-256 initial hash value. -/
def shaH0 : List Nat := [
  1779033703, 3144134277, 1013904242, 2773480762, 1359893119, 2600822924,
  528734635, 1541459225]

/-- Message-schedule extension: appends `k` more words to `ws`. -/
def shaScheduleAux (ws : List Nat) : Nat → List Nat
  | 0 => ws
  | k + 1 =>
      let i := ws.length
      let w15 := ws.getD (i - 15) 0
      let w2 := ws.getD (i - 2) 0
      let w16 := ws.getD (i - 16) 0
      let w7 := ws.getD (i - 7) 0
      let s0 := (rotr32 w15 7) ^^^ (rotr32 w15 18) ^^^ (w15 >>> 3)
      let s1 := (rotr32 w2 17) ^^^ (rotr32 w2 19) ^^^ (w2 >>> 10)
      shaScheduleAux (ws ++ [w32 (w16 + s0 + w7 + s1)]) k

/-- One SHA-256 compression round over the running 8-tuple. -/
def shaRound (st : Nat × Nat × Nat × Nat × Nat × Nat × Nat × Nat) (kw : Nat × Nat) :
    Nat × Nat × Nat × Nat × Nat × Nat × Nat × Nat :=
  match st, kw with
  | (a, b, c, d, e, f, g, hh), (k, w) =>
      let S1 := (rotr32 e 6) ^^^ (rotr32 e 11) ^^^ (rotr32 e 25)
      let ch := (e &&& f) ^^^ ((4294967295 ^^^ e) &&& g)
      let temp1 := w32 (hh + S1 + ch + k + w)
      let S0 := (rotr32 a 2) ^^^ (rotr32 a 13) ^^^ (rotr32 a 22)
      let maj := (a &&& b) ^^^ (a &&& c) ^^^ (b &&& c)
      let temp2 := w32 (S0 + maj)
      (w32 (temp1 + temp2), a, b, c, w32 (d + temp1), e, f, g)

/-- SHA-256 compression of one 16-word block into the running hash. -/
def shaCompress (h : List Nat) (block : List Nat) : List Nat :=
  let ws := shaScheduleAux block 48
  let init := (h.getD 0 0, h.getD 1 0, h.getD 2 0, h.getD 3 0,
               h.getD 4 0, h.getD 5 0, h.getD 6 0, h.getD 7 0)
  match (shaK.zip ws).foldl shaRound init with
  | (a, b, c, d, e, f, g, hh) =>
      [w32 (h.getD 0 0 + a), w32 (h.getD 1 0 + b), w32 (h.getD 2 0 + c),
       w32 (h.getD 3 0 + d), w32 (h.getD 4 0 + e), w32 (h.getD 5 0 + f),
       w32 (h.getD 6 0 + g), w32 (h.getD 7 0 + hh)]

/-- 64-bit big-endian byte rendering of the bit length. -/
def be64 (n : Nat) : List Nat :=
  [n / 72057594037927936 % 256, n / 281474976710656 % 256,
   n / 1099511627776 % 256, n / 4294967296 % 256,
   n / 16777216 % 256, n / 65536 % 256, n / 256 % 256, n % 256]

/-- SHA-256 padding: `0x80`, zeros to 56 mod 64, then the bit length. -/
def sha256Pad (msg : List Nat) : List Nat :=
  msg ++ 128 :: List.replicate ((64 - (msg.length + 9) % 64) % 64) 0
    ++ be64 (msg.length * 8)

/-- Split a byte list into 64-byte blocks. -/
def chunks64 : List Nat → List (List Nat)
  | [] => []
  | x :: rest => ((x :: rest).take 64) :: chunks64 ((x :: rest).drop 64)
termination_by l => l.length
decreasing_by simp only [List.length_drop, List.length_cons]; omega

/-- Big-endian 32-bit words from bytes. -/
def wordsOfBytes : List Nat → List Nat
  | b1 :: b2 :: b3 :: b4 :: rest =>
      (b1 * 16777216 + b2 * 65536 + b3 * 256 + b4) :: wordsOfBytes rest
  | _ => []

/-- Big-endian bytes of a 32-bit word. -/
def bytesOfWord (w : Nat) : List Nat :=
  [w / 16777216 % 256, w / 65536 % 256, w / 256 % 256, w % 256]

/-- `hashlib.sha256(msg).digest()`. -/
def sha256 (msg : List Nat) : List Nat :=
  let blocks := chunks64 (sha256Pad msg)
  let hfinal := blocks.foldl (fun h block => shaCompress h (wordsOfBytes block)) shaH0
  (hfinal.map bytesOfWord).flatten

/-- `hmac.new(key, msg, hashlib.sha256).digest()` (block size 64). -/
def hmacSha256 (key msg : List Nat) : List Nat :=
  let key' := if key.length > 64 then sha256 key else key
  let kpad := key' ++ List.replicate (64 - key'.length) 0
  let ipad := kpad.map (fun b => b ^^^ 54)
  let opad := kpad.map (fun b => b ^^^ 92)
  sha256 (opad ++ sha256 (ipad ++ msg))

lemma bytesOfWord_lt (w : Nat) : ∀ x ∈ bytesOfWord w, x < 256 := by
  intro x hx
  simp only [bytesOfWord, List.mem_cons, List.not_mem_nil, or_false] at hx
  rcases hx with h | h | h | h <;> (subst h; exact Nat.mod_lt _ (by omega))

lemma sha256_bytes_lt (msg : List Nat) : ∀ x ∈ sha256 msg, x < 256 := by
  intro x hx
  unfold sha256 at hx
  obtain ⟨l, hl, hxl⟩ := List.mem_flatten.mp hx
  obtain ⟨w, _, hw⟩ := List.mem_map.mp hl
  exact bytesOfWord_lt w x (hw ▸ hxl)

/-! ### The JWT payload and `create_jwt` -/

/-- The JWT claims dict built by `create_jwt` (insertion order preserved). -/
structure JwtClaims where
  iss : String
  aud : String
  sub : String
  iat : Nat
  exp : Nat
  nbf : Nat
deriving DecidableEq, Repr

/-- The payload dict of `create_jwt`: `sub = "csesidx/" + csesidx`,
`iat = now`, `exp = now + 300`, `nbf = now`. -/
def payloadClaims (csesidx : String) (now : Nat) : JwtClaims :=
  { iss := "https://business.gemini.google",
    aud := "https://biz-discoveryengine.googleapis.com",
    sub := "csesidx/" ++ csesidx, iat := now, exp := now + 300, nbf := now }

/-- `json.dumps(payload, separators=(",", ":"))` for the claims dict. -/
def renderClaims (c : JwtClaims) : List Char :=
  '{' :: (("\"iss\":").data ++ pyJsonStr c.iss
    ++ (",\"aud\":").data ++ pyJsonStr c.aud
    ++ (",\"sub\":").data ++ pyJsonStr c.sub
    ++ (",\"iat\":").data ++ natDec c.iat
    ++ (",\"exp\":").data ++ natDec c.exp
    ++ (",\"nbf\":").data ++ natDec c.nbf
    ++ ['}'])

/-- `json.dumps(header, separators=(",", ":"))` for
`{"alg": "HS256", "typ": "JWT", "kid": key_id}`. -/
def headerJson (key_id : String) : List Char :=
  '{' :: (("\"alg\":\"HS256\",\"typ\":\"JWT\",\"kid\":").data
    ++ pyJsonStr key_id ++ ['}'])

lemma ascii_append {l1 l2 : List Char} (h1 : ∀ c ∈ l1, c.toNat < 128)
    (h2 : ∀ c ∈ l2, c.toNat < 128) : ∀ c ∈ l1 ++ l2, c.toNat < 128 := by
  intro c hc
  rcases List.mem_append.mp hc with h | h
  · exact h1 c h
  · exact h2 c h

lemma headerJson_ascii (key_id : String) : ∀ c ∈ headerJson key_id, c.toNat < 128 := by
  have d0 : ∀ c ∈ ("\"alg\":\"HS256\",\"typ\":\"JWT\",\"kid\":").data, c.toNat < 128 := by
    decide
  have d7 : ∀ c ∈ ['}'], c.toNat < 128 := by decide
  intro c hc
  rcases List.mem_cons.mp hc with h | h
  · subst h; decide
  · exact ascii_append (ascii_append d0 (pyJsonStr_ascii key_id)) d7 c h

lemma renderClaims_ascii (cl : JwtClaims) : ∀ c ∈ renderClaims cl, c.toNat < 128 := by
  have d1 : ∀ c ∈ ("\"iss\":").data, c.toNat < 128 := by decide
  have d2 : ∀ c ∈ (",\"aud\":").data, c.toNat < 128 := by decide
  have d3 : ∀ c ∈ (",\"sub\":").data, c.toNat < 128 := by decide
  have d4 : ∀ c ∈ (",\"iat\":").data, c.toNat < 128 := by decide
  have d5 : ∀ c ∈ (",\"exp\":").data, c.toNat < 128 := by decide
  have d6 : ∀ c ∈ (",\"nbf\":").data, c.toNat < 128 := by decide
  have d7 : ∀ c ∈ ['}'], c.toNat < 128 := by decide
  intro c hc
  rcases List.mem_cons.mp hc with h | h
  · subst h; decide
  · exact ascii_append (ascii_append (ascii_append (ascii_append (ascii_append
      (ascii_append (ascii_append (ascii_append (ascii_append (ascii_append
      (ascii_append (ascii_append d1 (pyJsonStr_ascii cl.iss)) d2)
      (pyJsonStr_ascii cl.aud)) d3) (pyJsonStr_ascii cl.sub)) d4)
      (natDec_ascii cl.iat)) d5) (natDec_ascii cl.exp)) d6)
      (natDec_ascii cl.nbf)) d7 c h

/-- `create_jwt(key_bytes, key_id, csesidx)` with `now = int(time.time())`
passed explicitly: base64url-encode the header and payload JSON via
`kq_encode`, HMAC-SHA256-sign `"{header_b64}.{payload_b64}"` with the
exchanged key material, and join the three parts with dots. -/
def create_jwt (key_bytes : List Nat) (key_id csesidx : String) (now : Nat) : String :=
  let header_b64 := encodeB64 (kqBytes (headerJson key_id))
  let payload_b64 := encodeB64 (kqBytes (renderClaims (payloadClaims csesidx now)))
  let message := header_b64 ++ '.' :: payload_b64
  let sig := hmacSha256 key_bytes (strBytesAscii message)
  String.mk (message ++ '.' :: encodeB64 sig)

lemma not_dot_of_b64 (l : List Char) (hmem : ∀ c ∈ l, c ∈ b64chars) : '.' ∉ l := by
  intro hd
  have := hmem _ hd
  revert this
  decide

lemma not_eq_of_b64 (l : List Char) (hmem : ∀ c ∈ l, c ∈ b64chars) : '=' ∉ l := by
  intro hd
  have := hmem _ hd
  revert this
  decide

/-! ### Claim C6: structure of the minted token -/

/-- Claim C6: the token minted by `create_jwt` is a three-part dot-separated
string whose parts are base64url without padding (no `.` or `=` in any part,
every character from the base64url alphabet); base64url-decoding the payload
part recovers exactly the JSON text of a claims object whose `sub` is
`"csesidx/" + csesidx` and whose `exp - iat` is 300; and the third part is
the base64url encoding of the HMAC-SHA256 of `"{header_b64}.{payload_b64}"`
keyed by the exchanged key material. -/
theorem create_jwt_structure (key_bytes : List Nat) (key_id csesidx : String)
    (now : Nat) :
    ∃ h p s : List Char,
      create_jwt key_bytes key_id csesidx now = String.mk (h ++ '.' :: p ++ '.' :: s)
      ∧ ('.' ∉ h ∧ '.' ∉ p ∧ '.' ∉ s)
      ∧ ('=' ∉ h ∧ '=' ∉ p ∧ '=' ∉ s)
      ∧ (∀ c ∈ h, c ∈ b64chars) ∧ (∀ c ∈ p, c ∈ b64chars) ∧ (∀ c ∈ s, c ∈ b64chars)
      ∧ decodeB64 p = some (strBytesAscii (renderClaims (payloadClaims csesidx now)))
      ∧ (payloadClaims csesidx now).sub = "csesidx/" ++ csesidx
      ∧ (payloadClaims csesidx now).exp - (payloadClaims csesidx now).iat = 300
      ∧ s = encodeB64 (hmacSha256 key_bytes (strBytesAscii (h ++ '.' :: p))) := by
  have hasciiP : ∀ c ∈ renderClaims (payloadClaims csesidx now), c.toNat < 256 := by
    intro c hc
    have := renderClaims_ascii (payloadClaims csesidx now) c hc
    omega
  have hkqP : kqBytes (renderClaims (payloadClaims csesidx now))
      = strBytesAscii (renderClaims (payloadClaims csesidx now)) :=
    kqBytes_ascii _ hasciiP
  have hbytesP : ∀ x ∈ strBytesAscii (renderClaims (payloadClaims csesidx now)),
      x < 256 := by
    intro x hx
    obtain ⟨c, hc, hcx⟩ := List.mem_map.mp hx
    have := renderClaims_ascii (payloadClaims csesidx now) c hc
    omega
  refine ⟨encodeB64 (kqBytes (headerJson key_id)),
    encodeB64 (kqBytes (renderClaims (payloadClaims csesidx now))),
    encodeB64 (hmacSha256 key_bytes (strBytesAscii
      (encodeB64 (kqBytes (headerJson key_id)) ++ '.'
        :: encodeB64 (kqBytes (renderClaims (payloadClaims csesidx now)))))),
    ?_, ?_, ?_, ?_, ?_, ?_, ?_, ?_, ?_, ?_⟩
  · rfl
  · exact ⟨not_dot_of_b64 _ (encodeB64_mem _), not_dot_of_b64 _ (encodeB64_mem _),
      not_dot_of_b64 _ (encodeB64_mem _)⟩
  · exact ⟨not_eq_of_b64 _ (encodeB64_mem _), not_eq_of_b64 _ (encodeB64_mem _),
      not_eq_of_b64 _ (encodeB64_mem _)⟩
  · exact encodeB64_mem _
  · exact encodeB64_mem _
  · exact encodeB64_mem _
  · rw [hkqP]
    exact decode_encode _ hbytesP
  · rfl
  · simp [payloadClaims]
  · rfl

/-! ### Streaming JSON parser
(`gemini-enterprise-business/backend/services/chat_handler.py`,
class `JSONStreamParser`)

`JSONStreamParser.decode` buffers chunks and repeatedly applies
`json.JSONDecoder.raw_decode`.  The decoder from the standard library is
modelled below as a recursive-descent parser with explicit fuel (the Python
recursion is bounded by the input size, so any fuel of at least the input
length behaves identically): strings with the standard escapes (including
`\uXXXX`; a lone surrogate escape is rejected here since Lean's `Char`
cannot carry one, while Python would keep it), objects, arrays,
`true`/`false`/`null`, and numbers matched like `NUMBER_RE`
(`-?(0|[1-9]\d*)(\.\d+)?([eE][-+]?\d+)?`, kept as their lexeme).  The
`NaN`/`Infinity` constants are not modelled.  Both `str.lstrip()` and the
decoder's internal whitespace are modelled by the JSON whitespace set
(space, tab, newline, carriage return). -/

/-- One JSON value; numbers keep their matched lexeme. -/
inductive Json where
  | null
  | bool (b : Bool)
  | num (lex : List Char)
  | str (s : List Char)
  | arr (elems : List Json)
  | obj (members : List (List Char × Json))

/-- JSON whitespace (also used for `str.lstrip()`). -/
def isWs (c : Char) : Bool := c = ' ' || c = '\t' || c = '\n' || c = '\r'

def skipWs (cs : List Char) : List Char := cs.dropWhile isWs

def isDigit (c : Char) : Bool := '0' ≤ c && c ≤ '9'

/-- Hex digit value, as `int(..., 16)` accepts. -/
def hexVal (c : Char) : Option Nat :=
  if '0' ≤ c ∧ c ≤ '9' then some (c.toNat - 48)
  else if 'a' ≤ c ∧ c ≤ 'f' then some (c.toNat - 87)
  else if 'A' ≤ c ∧ c ≤ 'F' then some (c.toNat - 55)
  else none

/-- Four hex digits, as in a `\\uXXXX` escape. -/
def hex4 : List Char → Option (Nat × List Char)
  | h1 :: h2 :: h3 :: h4 :: rest =>
      match hexVal h1, hexVal h2, hexVal h3, hexVal h4 with
      | some v1, some v2, some v3, some v4 =>
          some (v1 * 4096 + v2 * 256 + v3 * 16 + v4, rest)
      | _, _, _, _ => none
  | _ => none

/-- The remainder of a `\\u` escape (after the `\\u`): a code unit, with a
high surrogate requiring an immediately following low-surrogate escape
(Python would keep a lone surrogate in the `str`; Lean's `Char` cannot carry
one, so a lone surrogate is rejected here). -/
def escSlashU (cs : List Char) : Option (Char × List Char) :=
  match hex4 cs with
  | none => none
  | some (v, rest3) =>
      if 55296 ≤ v ∧ v < 56320 then
        match rest3 with
        | b :: u :: rest3x =>
            if b = '\\' ∧ u = 'u' then
              match hex4 rest3x with
              | some (w, rest4) =>
                  if 56320 ≤ w ∧ w < 57344 then
                    some (Char.ofNat (65536 + (v - 55296) * 1024 + (w - 56320)), rest4)
                  else none
              | none => none
            else none
        | _ => none
      else if 56320 ≤ v ∧ v < 57344 then none
      else some (Char.ofNat v, rest3)

/-- The two-character escapes accepted by `py_scanstring` (`BACKSLASH`). -/
def escChar (e : Char) : Option Char :=
  if e = '"' then some '"'
  else if e = '\\' then some '\\'
  else if e = '/' then some '/'
  else if e = 'b' then some (Char.ofNat 8)
  else if e = 'f' then some (Char.ofNat 12)
  else if e = 'n' then some '\n'
  else if e = 'r' then some '\r'
  else if e = 't' then some '\t'
  else none

lemma hex4_len : ∀ {cs : List Char} {v : Nat} {rest : List Char},
    hex4 cs = some (v, rest) → rest.length + 4 = cs.length := by
  intro cs v rest h
  unfold hex4 at h
  split at h
  · split at h
    · injection h with h
      injection h with h1 h2
      subst h2
      simp
    · exact absurd h (by simp)
  · exact absurd h (by simp)

lemma escSlashU_len : ∀ {cs : List Char} {ch : Char} {rest : List Char},
    escSlashU cs = some (ch, rest) → rest.length ≤ cs.length := by
  intro cs ch rest h
  unfold escSlashU at h
  split at h
  · exact absurd h (by simp)
  · rename_i v rest3 heq
    have hl3 := hex4_len heq
    by_cases hs1 : 55296 ≤ v ∧ v < 56320
    · rw [if_pos hs1] at h
      split at h
      · rename_i b u rest3x
        by_cases hbu : b = '\\' ∧ u = 'u'
        · rw [if_pos hbu] at h
          split at h
          · rename_i w rest4 heq2
            have hl4 := hex4_len heq2
            by_cases hs2 : 56320 ≤ w ∧ w < 57344
            · rw [if_pos hs2] at h
              injection h with h
              injection h with h1 h2
              subst h2
              simp only [List.length_cons] at hl3
              omega
            · rw [if_neg hs2] at h
              exact absurd h (by simp)
          · exact absurd h (by simp)
        · rw [if_neg hbu] at h
          exact absurd h (by simp)
      · exact absurd h (by simp)
    · rw [if_neg hs1] at h
      by_cases hs2 : 56320 ≤ v ∧ v < 57344
      · rw [if_pos hs2] at h
        exact absurd h (by simp)
      · rw [if_neg hs2] at h
        injection h with h
        injection h with h1 h2
        subst h2
        omega

/-- `py_scanstring` after the opening quote: returns the string contents and
the input after the closing quote.  Raw control characters are rejected
(`strict=True`); escapes are the standard eight plus `\\uXXXX`. -/
def parseStringBody (acc : List Char) : List Char → Option (List Char × List Char)
  | [] => none
  | c :: rest =>
      if c = '"' then some (acc.reverse, rest)
      else if c = '\\' then
        match rest with
        | [] => none
        | e :: rest2 =>
            if e = 'u' then
              match h : escSlashU rest2 with
              | some (ch, rest3) => parseStringBody (ch :: acc) rest3
              | none => none
            else
              match escChar e with
              | some ch => parseStringBody (ch :: acc) rest2
              | none => none
      else if c.toNat < 32 then none
      else parseStringBody (c :: acc) rest
termination_by cs => cs.length
decreasing_by
  · simp only [List.length_cons]
    have := escSlashU_len h
    omega
  · simp only [List.length_cons]
    omega
  · simp only [List.length_cons]
    omega

/-- The integer part of `NUMBER_RE`: `0` or a nonzero digit followed by
digits (after `0` nothing more is consumed). -/
def numIntPart : List Char → Option (List Char × List Char)
  | [] => none
  | c :: r =>
      if c = '0' then some (['0'], r)
      else if '1' ≤ c ∧ c ≤ '9' then
        some (c :: r.takeWhile isDigit, r.dropWhile isDigit)
      else none

/-- The optional fraction group `(\.\d+)?`. -/
def numFrac : List Char → List Char × List Char
  | [] => ([], [])
  | c :: r =>
      if c = '.' then
        match r.takeWhile isDigit with
        | [] => ([], c :: r)
        | ds => ('.' :: ds, r.dropWhile isDigit)
      else ([], c :: r)

/-- The optional exponent group `([eE][-+]?\d+)?`. -/
def numExp : List Char → List Char × List Char
  | [] => ([], [])
  | e :: r =>
      if e = 'e' ∨ e = 'E' then
        let sgn : List Char × List Char :=
          match r with
          | [] => ([], [])
          | s1 :: rr =>
              if s1 = '+' then (['+'], rr)
              else if s1 = '-' then (['-'], rr)
              else ([], s1 :: rr)
        match sgn.2.takeWhile isDigit with
        | [] => ([], e :: r)
        | ds => (e :: (sgn.1 ++ ds), sgn.2.dropWhile isDigit)
      else ([], e :: r)

/-- `NUMBER_RE.match`: returns the matched lexeme and the rest. -/
def parseNumLex (cs : List Char) : Option (List Char × List Char) :=
  let negSplit : List Char × List Char :=
    match cs with
    | [] => ([], [])
    | c :: r => if c = '-' then (['-'], r) else ([], c :: r)
  match numIntPart negSplit.2 with
  | none => none
  | some (ip, cs2) =>
      let fr := numFrac cs2
      let ex := numExp fr.2
      some (negSplit.1 ++ ip ++ fr.1 ++ ex.1, ex.2)

mutual
  /-- `scan_once`: dispatch on the first character.  The fuel decreases on
  every recursive call; any fuel of at least the input length is enough. -/
def parseValue : Nat → List Char → Option (Json × List Char)
    | 0, _ => none
    | fuel + 1, cs =>
        match cs with
        | [] => none
        | c :: rest =>
            if c = '"' then
              match parseStringBody [] rest with
              | some (s, r) => some (Json.str s, r)
              | none => none
            else if c = '{' then
              match skipWs rest with
              | [] => parseMembers fuel [] []
              | c1 :: r1 =>
                  if c1 = '}' then some (Json.obj [], r1)
                  else parseMembers fuel (c1 :: r1) []
            else if c = '[' then
              match skipWs rest with
              | [] => parseElems fuel [] []
              | c1 :: r1 =>
                  if c1 = ']' then some (Json.arr [], r1)
                  else parseElems fuel (c1 :: r1) []
            else if c = 't' then
              match rest with
              | r1 :: r2 :: r3 :: rr =>
                  if r1 = 'r' ∧ r2 = 'u' ∧ r3 = 'e' then some (Json.bool true, rr)
                  else none
              | _ => none
            else if c = 'f' then
              match rest with
              | r1 :: r2 :: r3 :: r4 :: rr =>
                  if r1 = 'a' ∧ r2 = 'l' ∧ r3 = 's' ∧ r4 = 'e' then
                    some (Json.bool false, rr)
                  else none
              | _ => none
            else if c = 'n' then
              match rest with
              | r1 :: r2 :: r3 :: rr =>
                  if r1 = 'u' ∧ r2 = 'l' ∧ r3 = 'l' then some (Json.null, rr)
                  else none
              | _ => none
            else
              match parseNumLex (c :: rest) with
              | some (lex, r) => some (Json.num lex, r)
              | none => none

  /-- `JSONObject`'s member loop, positioned at a property name. -/
def parseMembers : Nat → List Char → List (List Char × Json) →
      Option (Json × List Char)
    | 0, _, _ => none
    | fuel + 1, cs, acc =>
        match cs with
        | [] => none
        | c :: rest =>
            if c = '"' then
              match parseStringBody [] rest with
              | none => none
              | some (key, r1) =>
                  match skipWs r1 with
                  | [] => none
                  | c2 :: r2 =>
                      if c2 = ':' then
                        match parseValue fuel (skipWs r2) with
                        | none => none
                        | some (v, r3) =>
                            match skipWs r3 with
                            | [] => none
                            | c3 :: r4 =>
                                if c3 = ',' then
                                  parseMembers fuel (skipWs r4) ((key, v) :: acc)
                                else if c3 = '}' then
                                  some (Json.obj ((key, v) :: acc).reverse, r4)
                                else none
                      else none
            else none

  /-- `JSONArray`'s element loop, positioned at a value. -/
def parseElems : Nat → List Char → List Json → Option (Json × List Char)
    | 0, _, _ => none
    | fuel + 1, cs, acc =>
        match parseValue fuel cs with
        | none => none
        | some (v, r1) =>
            match skipWs r1 with
            | [] => none
            | c2 :: r2 =>
                if c2 = ',' then parseElems fuel (skipWs r2) (v :: acc)
                else if c2 = ']' then some (Json.arr (v :: acc).reverse, r2)
                else none
end

/-- `json.JSONDecoder.raw_decode` (no leading-whitespace skipping). -/
def rawDecode (cs : List Char) : Option (Json × List Char) :=
  parseValue (cs.length + 1) cs

/-- The `while True` loop of `JSONStreamParser.decode`: strip whitespace,
skip one `[` or `,`, stop on an empty buffer, otherwise try `raw_decode` —
emitting the object and continuing on success, stopping and keeping the
buffer on failure. -/
def drain : Nat → List Char → List Json × List Char
  | 0, buf => ([], buf)
  | fuel + 1, buf =>
      match skipWs buf with
      | [] => ([], [])
      | c :: rest =>
          if c = '[' ∨ c = ',' then drain fuel rest
          else
            match rawDecode (c :: rest) with
            | some (obj, r2) =>
                let r := drain fuel r2
                (obj :: r.1, r.2)
            | none => ([], c :: rest)

/-- `JSONStreamParser.decode(chunk)` on a parser whose buffer is `buf`:
returns the decoded objects and the new buffer. -/
def streamDecode (buf chunk : List Char) : List Json × List Char :=
  drain ((buf ++ chunk).length + 1) (buf ++ chunk)

/-- Feeding a list of chunks one `decode` call at a time, concatenating the
returned object lists. -/
def feedAll (chunks : List (List Char)) : List Json × List Char :=
  chunks.foldl (fun st c =>
    let r := streamDecode st.2 c
    (st.1 ++ r.1, r.2)) ([], [])

lemma json_sizeOf_pos (v : Json) : 0 < sizeOf v := by
  cases v <;> simp_arith

lemma list_sizeOf_pos {a : Type} [SizeOf a] (l : List a) : 0 < sizeOf l := by
  cases l <;> simp_arith

/-! ### JSON text rendering (the payload-description side of claim C8)

`renderJson` produces one canonical JSON text for a value: strings escape
the quote, the backslash and control characters, and objects/arrays carry no
internal whitespace.  The stream payloads of claim C8 are whitespace-,
comma- and bracket-separated sequences of such object texts. -/

/-- Canonical escape of one string character. -/
def jstrEscChar (c : Char) : List Char :=
  if c = '"' then ['\\', '"']
  else if c = '\\' then ['\\', '\\']
  else if c.toNat < 32 then uEsc c.toNat
  else [c]

/-- A rendered JSON string literal. -/
def renderJStr (s : List Char) : List Char :=
  '"' :: (s.flatMap jstrEscChar ++ ['"'])

mutual
  /-- Canonical JSON text of a value. -/
def renderJson : Json → List Char
    | .null => ('n' :: 'u' :: 'l' :: 'l' :: [])
    | .bool true => ('t' :: 'r' :: 'u' :: 'e' :: [])
    | .bool false => ('f' :: 'a' :: 'l' :: 's' :: 'e' :: [])
    | .num lex => lex
    | .str s => renderJStr s
    | .arr [] => ('[' :: ']' :: [])
    | .arr (v :: vs) => '[' :: renderArrBody v vs
    | .obj [] => ('{' :: '}' :: [])
    | .obj (m :: ms) => '{' :: renderObjBody m ms
  termination_by v => sizeOf v

  /-- Members of a non-empty object, up to and including the closing `}`. -/
def renderObjBody : (List Char × Json) → List (List Char × Json) → List Char
    | (k, v), ms =>
        renderJStr k ++ ':' :: (renderJson v ++
          match ms with
          | [] => ['}']
          | m2 :: ms2 => ',' :: renderObjBody m2 ms2)
  termination_by m ms => sizeOf m + sizeOf ms

  /-- Elements of a non-empty array, up to and including the closing `]`. -/
def renderArrBody : Json → List Json → List Char
    | v, vs =>
        renderJson v ++
          match vs with
          | [] => [']']
          | w :: ws => ',' :: renderArrBody w ws
  termination_by v vs => sizeOf v + sizeOf vs
  decreasing_by
  all_goals simp_wf
  all_goals try omega
  all_goals exact list_sizeOf_pos _
end

/-- Well-formedness of a number lexeme: exactly the `NUMBER_RE` language. -/
def NumLexWF (lex : List Char) : Prop :=
  ∃ (neg ip fr ex : List Char),
    lex = neg ++ ip ++ fr ++ ex
    ∧ (neg = [] ∨ neg = ['-'])
    ∧ (ip = ['0'] ∨ ∃ c ds, ('1' ≤ c ∧ c ≤ '9') ∧ (∀ d ∈ ds, isDigit d = true)
        ∧ ip = c :: ds)
    ∧ (fr = [] ∨ ∃ ds, ds ≠ [] ∧ (∀ d ∈ ds, isDigit d = true) ∧ fr = '.' :: ds)
    ∧ (ex = [] ∨ ∃ e sgn ds, (e = 'e' ∨ e = 'E')
        ∧ (sgn = [] ∨ sgn = ['+'] ∨ sgn = ['-'])
        ∧ ds ≠ [] ∧ (∀ d ∈ ds, isDigit d = true) ∧ ex = e :: (sgn ++ ds))

mutual
  /-- Well-formed values: number lexemes are in the number language. -/
def JsonWF : Json → Prop
    | .null => True
    | .bool _ => True
    | .num lex => NumLexWF lex
    | .str _ => True
    | .arr es => ElemsWF es
    | .obj ms => MembersWF ms
  termination_by v => sizeOf v

def ElemsWF : List Json → Prop
    | [] => True
    | v :: vs => JsonWF v ∧ ElemsWF vs
  termination_by l => sizeOf l

def MembersWF : List (List Char × Json) → Prop
    | [] => True
    | (_, v) :: ms => JsonWF v ∧ MembersWF ms
  termination_by l => sizeOf l
  decreasing_by
  all_goals simp_wf
  all_goals try omega
  all_goals exact list_sizeOf_pos _
end

mutual
  /-- Fuel sufficient for `parseValue` on this value's rendering. -/
def jsonFuel : Json → Nat
    | .obj [] => 1
    | .obj (m :: ms) => 1 + membersFuel m ms
    | .arr [] => 1
    | .arr (v :: vs) => 1 + elemsFuel v vs
    | _ => 1
  termination_by v => sizeOf v

def membersFuel : (List Char × Json) → List (List Char × Json) → Nat
    | (_, v), ms =>
        1 + max (jsonFuel v)
          (match ms with
           | [] => 0
           | m2 :: ms2 => membersFuel m2 ms2)
  termination_by m ms => sizeOf m + sizeOf ms

def elemsFuel : Json → List Json → Nat
    | v, vs =>
        1 + max (jsonFuel v)
          (match vs with
           | [] => 0
           | w :: ws => elemsFuel w ws)
  termination_by v vs => sizeOf v + sizeOf vs
  decreasing_by
  all_goals simp_wf
  all_goals try omega
  all_goals exact list_sizeOf_pos _
end

/-! ### Helper lemmas for the parser proofs -/

/-- Head-condition: the first character (if any) falsifies `p`. -/
def HeadNot (p : Char → Bool) : List Char → Prop
  | [] => True
  | c :: _ => p c = false

lemma takeWhile_append_of_all {p : Char → Bool} :
    ∀ (xs ys : List Char), (∀ x ∈ xs, p x = true) → HeadNot p ys →
      (xs ++ ys).takeWhile p = xs ∧ (xs ++ ys).dropWhile p = ys
  | [], ys, _, hys => by
      cases ys with
      | nil => simp [List.takeWhile, List.dropWhile]
      | cons y ys' =>
          simp only [HeadNot] at hys
          simp [List.takeWhile_cons, List.dropWhile_cons, hys]
  | x :: xs, ys, hxs, hys => by
      have hx : p x = true := hxs x (by simp)
      have ih := takeWhile_append_of_all xs ys (fun a ha => hxs a (by simp [ha])) hys
      simp only [List.cons_append, List.takeWhile_cons, List.dropWhile_cons, hx]
      simp [ih.1, ih.2]

lemma skipWs_not_ws {cs : List Char} (h : HeadNot isWs cs) : skipWs cs = cs := by
  cases cs with
  | nil => rfl
  | cons c r =>
      simp only [HeadNot] at h
      simp [skipWs, List.dropWhile_cons, h]

lemma skipWs_ws_append {w cs : List Char} (hw : ∀ c ∈ w, isWs c = true) :
    skipWs (w ++ cs) = skipWs cs := by
  induction w with
  | nil => rfl
  | cons c w' ih =>
      have hc : isWs c = true := hw c (by simp)
      simp only [List.cons_append, skipWs, List.dropWhile_cons, hc]
      exact ih (fun a ha => hw a (by simp [ha]))

lemma hexVal_hexDigit (n : Nat) (h : n < 16) : hexVal (hexDigit n) = some n := by
  revert n
  decide

/-- Reassembling a 16-bit value from its hex digits. -/
lemma hex_reassemble (t : Nat) (h : t < 65536) :
    (t / 4096 % 16) * 4096 + (t / 256 % 16) * 256 + (t / 16 % 16) * 16 + t % 16 = t := by
  omega

/-- Step lemmas for `parseStringBody`. -/
lemma psb_quote (acc r : List Char) :
    parseStringBody acc ('"' :: r) = some (acc.reverse, r) := by
  rw [parseStringBody.eq_def]
  simp

lemma psb_esc_quote (acc rest2 : List Char) :
    parseStringBody acc ('\\' :: '"' :: rest2) = parseStringBody ('"' :: acc) rest2 := by
  rw [parseStringBody.eq_def]
  simp [escChar]

lemma psb_esc_back (acc rest2 : List Char) :
    parseStringBody acc ('\\' :: '\\' :: rest2) = parseStringBody ('\\' :: acc) rest2 := by
  rw [parseStringBody.eq_def]
  simp [escChar]

lemma escSlashU_uEsc (v : Nat) (hv : v < 55296) (rest3 : List Char) :
    escSlashU (hexDigit (v / 4096 % 16) :: hexDigit (v / 256 % 16)
        :: hexDigit (v / 16 % 16) :: hexDigit (v % 16) :: rest3)
      = some (Char.ofNat v, rest3) := by
  unfold escSlashU hex4
  dsimp only
  rw [hexVal_hexDigit _ (by omega), hexVal_hexDigit _ (by omega),
    hexVal_hexDigit _ (by omega), hexVal_hexDigit _ (by omega)]
  simp only []
  rw [hex_reassemble v (by omega)]
  rw [if_neg (by omega), if_neg (by omega)]

lemma psb_esc_u (acc : List Char) (v : Nat) (hv : v < 32) (rest3 : List Char) :
    parseStringBody acc ('\\' :: 'u' :: hexDigit (v / 4096 % 16) :: hexDigit (v / 256 % 16)
        :: hexDigit (v / 16 % 16) :: hexDigit (v % 16) :: rest3)
      = parseStringBody (Char.ofNat v :: acc) rest3 := by
  have he := escSlashU_uEsc v (by omega) rest3
  rw [parseStringBody.eq_def]
  dsimp only
  rw [if_neg (by decide : ¬('\\' : Char) = '"'), if_pos (rfl : ('\\' : Char) = '\\')]
  rw [if_pos (rfl : ('u' : Char) = 'u')]
  split
  · rename_i ch rest3x heq
    rw [he] at heq
    injection heq with heq
    injection heq with e1 e2
    rw [e1, e2]
  · rename_i heq
    rw [he] at heq
    exact absurd heq (by simp)

lemma psb_raw (acc : List Char) (c : Char) (rest : List Char)
    (h1 : ¬ c = '"') (h2 : ¬ c = '\\') (h3 : ¬ c.toNat < 32) :
    parseStringBody acc (c :: rest) = parseStringBody (c :: acc) rest := by
  rw [parseStringBody.eq_def]
  simp only [if_neg h1, if_neg h2, if_neg h3]

/-- String roundtrip: parsing the rendered body of `s` followed by the
closing quote consumes exactly the rendering and yields `s`. -/
lemma parseStringBody_render :
    ∀ (s : List Char) (acc : List Char) (r : List Char),
      parseStringBody acc (s.flatMap jstrEscChar ++ '"' :: r)
        = some (acc.reverse ++ s, r)
  | [], acc, r => by
      simp only [List.flatMap_nil, List.nil_append, psb_quote, List.append_nil]
  | c :: s', acc, r => by
      by_cases h1 : c = '"'
      · subst h1
        have ih := parseStringBody_render s' ('"' :: acc) r
        have hesc : jstrEscChar '"' = ['\\', '"'] := rfl
        simp only [List.flatMap_cons, hesc, List.cons_append, List.nil_append,
          List.append_assoc]
        rw [psb_esc_quote, ih, List.reverse_cons]
        simp
      · by_cases h2 : c = '\\'
        · subst h2
          have ih := parseStringBody_render s' ('\\' :: acc) r
          have hesc : jstrEscChar '\\' = ['\\', '\\'] := rfl
          simp only [List.flatMap_cons, hesc, List.cons_append, List.nil_append,
            List.append_assoc]
          rw [psb_esc_back, ih, List.reverse_cons]
          simp
        · by_cases h3 : c.toNat < 32
          · have ih := parseStringBody_render s' (c :: acc) r
            have hesc : jstrEscChar c = uEsc c.toNat := by
              unfold jstrEscChar
              rw [if_neg h1, if_neg h2, if_pos h3]
            simp only [List.flatMap_cons, hesc, uEsc, List.cons_append, List.nil_append,
              List.append_assoc]
            rw [psb_esc_u acc c.toNat h3, Char.ofNat_toNat, ih, List.reverse_cons]
            simp
          · have ih := parseStringBody_render s' (c :: acc) r
            have hesc : jstrEscChar c = [c] := by
              unfold jstrEscChar
              rw [if_neg h1, if_neg h2, if_neg h3]
            simp only [List.flatMap_cons, hesc, List.cons_append, List.nil_append,
              List.append_assoc]
            rw [psb_raw acc c _ h1 h2 h3, ih, List.reverse_cons]
            simp


/-! ### Separator characters and `drain` unfolding -/

/-- Characters the stream loop silently consumes between objects:
whitespace plus the skipped `[` and `,`. -/
def isSep (c : Char) : Bool := isWs c || c = '[' || c = ','

lemma isWs_false_of_isSep_false {c : Char} (h : isSep c = false) : isWs c = false := by
  unfold isSep at h
  simp only [Bool.or_eq_false_iff, decide_eq_false_iff_not] at h
  exact h.1.1

lemma skipWs_cons_of_neg {c : Char} {r : List Char} (h : isWs c = false) :
    skipWs (c :: r) = c :: r := by
  unfold skipWs
  rw [List.dropWhile_cons_of_neg (by simp [h])]

lemma skipWs_idem (cs : List Char) : skipWs (skipWs cs) = skipWs cs := by
  induction cs with
  | nil => rfl
  | cons c t ih =>
      by_cases h : isWs c = true
      · unfold skipWs
        rw [List.dropWhile_cons_of_pos (by simp [h])]
        exact ih
      · rw [skipWs_cons_of_neg (by simpa using h),
          skipWs_cons_of_neg (by simpa using h)]

lemma dropWhile_head_not (p : Char → Bool) :
    ∀ l : List Char, HeadNot p (l.dropWhile p)
  | [] => by simp [HeadNot]
  | c :: t => by
      by_cases h : p c = true
      · rw [List.dropWhile_cons_of_pos h]
        exact dropWhile_head_not p t
      · rw [List.dropWhile_cons_of_neg h]
        simpa [HeadNot] using h

lemma dropWhile_append_nil {p : Char → Bool} :
    ∀ {l₁ : List Char} (l₂ : List Char), l₁.dropWhile p = [] →
      (l₁ ++ l₂).dropWhile p = l₂.dropWhile p
  | [], l₂, _ => by simp
  | a :: l, l₂, h => by
      by_cases ha : p a = true
      · rw [List.dropWhile_cons_of_pos ha] at h
        rw [List.cons_append, List.dropWhile_cons_of_pos ha]
        exact dropWhile_append_nil l₂ h
      · rw [List.dropWhile_cons_of_neg ha] at h
        exact absurd h (by simp)

lemma dropWhile_append_pos {p : Char → Bool} :
    ∀ {l₁ : List Char} (l₂ : List Char) {c : Char} {t : List Char},
      l₁.dropWhile p = c :: t → (l₁ ++ l₂).dropWhile p = c :: (t ++ l₂)
  | [], l₂, c, t, h => by simp at h
  | a :: l, l₂, c, t, h => by
      by_cases ha : p a = true
      · rw [List.dropWhile_cons_of_pos ha] at h
        rw [List.cons_append, List.dropWhile_cons_of_pos ha]
        exact dropWhile_append_pos l₂ h
      · rw [List.dropWhile_cons_of_neg ha] at h
        injection h with h1 h2
        subst h1; subst h2
        rw [List.cons_append, List.dropWhile_cons_of_neg ha]

/-! Unfolding lemmas for the parsing functions. -/

lemma pv_zero (cs : List Char) : parseValue 0 cs = none := by
  simp [parseValue]

lemma pv_nil (f : Nat) : parseValue f [] = none := by
  cases f <;> simp [parseValue]

lemma pm_nil (f : Nat) (acc : List (List Char × Json)) :
    parseMembers f [] acc = none := by
  cases f <;> simp [parseMembers]

lemma pe_nil (f : Nat) (acc : List Json) : parseElems f [] acc = none := by
  cases f with
  | zero => simp [parseElems]
  | succ f => simp [parseElems, pv_nil]

lemma pv_quote (f : Nat) (rest : List Char) :
    parseValue (f + 1) ('"' :: rest) =
      match parseStringBody [] rest with
      | some (s, r) => some (Json.str s, r)
      | none => none := by
  simp [parseValue]

lemma pv_obj (f : Nat) (rest : List Char) :
    parseValue (f + 1) ('{' :: rest) =
      match skipWs rest with
      | [] => parseMembers f [] []
      | c1 :: r1 =>
          if c1 = '}' then some (Json.obj [], r1) else parseMembers f (c1 :: r1) [] := by
  simp [parseValue]

lemma pv_arr (f : Nat) (rest : List Char) :
    parseValue (f + 1) ('[' :: rest) =
      match skipWs rest with
      | [] => parseElems f [] []
      | c1 :: r1 =>
          if c1 = ']' then some (Json.arr [], r1) else parseElems f (c1 :: r1) [] := by
  simp [parseValue]

lemma pv_true (f : Nat) (rr : List Char) :
    parseValue (f + 1) ('t' :: 'r' :: 'u' :: 'e' :: rr) = some (Json.bool true, rr) := by
  simp [parseValue]

lemma pv_false (f : Nat) (rr : List Char) :
    parseValue (f + 1) ('f' :: 'a' :: 'l' :: 's' :: 'e' :: rr) =
      some (Json.bool false, rr) := by
  simp [parseValue]

lemma pv_null (f : Nat) (rr : List Char) :
    parseValue (f + 1) ('n' :: 'u' :: 'l' :: 'l' :: rr) = some (Json.null, rr) := by
  simp [parseValue]

lemma pv_default (f : Nat) (c : Char) (rest : List Char)
    (h1 : c ≠ '"') (h2 : c ≠ '{') (h3 : c ≠ '[') (h4 : c ≠ 't') (h5 : c ≠ 'f')
    (h6 : c ≠ 'n') :
    parseValue (f + 1) (c :: rest) =
      match parseNumLex (c :: rest) with
      | some (lex, r) => some (Json.num lex, r)
      | none => none := by
  simp [parseValue, h1, h2, h3, h4, h5, h6]

lemma drain_succ (f : Nat) (buf : List Char) :
    drain (f + 1) buf =
      match skipWs buf with
      | [] => ([], [])
      | c :: rest =>
          if c = '[' ∨ c = ',' then drain f rest
          else
            match rawDecode (c :: rest) with
            | some (o, r2) => (o :: (drain f r2).1, (drain f r2).2)
            | none => ([], c :: rest) := by
  simp [drain]

lemma drain_empty (f : Nat) (buf : List Char) (h : skipWs buf = []) :
    drain (f + 1) buf = ([], []) := by
  rw [drain_succ, h]

lemma drain_skip (f : Nat) (buf : List Char) {c : Char} {rest : List Char}
    (h : skipWs buf = c :: rest) (hc : c = '[' ∨ c = ',') :
    drain (f + 1) buf = drain f rest := by
  rw [drain_succ, h]
  simp [if_pos hc]

lemma drain_emit (f : Nat) (buf : List Char) {c : Char} {rest : List Char}
    {o : Json} {r2 : List Char}
    (h : skipWs buf = c :: rest) (hc : ¬(c = '[' ∨ c = ','))
    (hrd : rawDecode (c :: rest) = some (o, r2)) :
    drain (f + 1) buf = (o :: (drain f r2).1, (drain f r2).2) := by
  rw [drain_succ, h]
  simp [if_neg hc, hrd]

lemma drain_stuck (f : Nat) (buf : List Char) {c : Char} {rest : List Char}
    (h : skipWs buf = c :: rest) (hc : ¬(c = '[' ∨ c = ','))
    (hrd : rawDecode (c :: rest) = none) :
    drain (f + 1) buf = ([], c :: rest) := by
  rw [drain_succ, h]
  simp [if_neg hc, hrd]

lemma drain_skipWs (f : Nat) (buf : List Char) :
    drain (f + 1) buf = drain (f + 1) (skipWs buf) := by
  rw [drain_succ, drain_succ, skipWs_idem]


lemma dropWhile_subset_self {p : Char → Bool} (l : List Char) :
    ∀ x ∈ l.dropWhile p, x ∈ l :=
  fun x hx => (List.dropWhile_sublist (p := p) (l := l)).subset hx

lemma headNot_isWs_of_isSep {X : List Char} (hX : HeadNot isSep X) : HeadNot isWs X := by
  cases X with
  | nil => trivial
  | cons x xs =>
      simp only [HeadNot] at hX ⊢
      exact isWs_false_of_isSep_false hX

/-- A buffer of pure separator characters is fully consumed: the loop ends
with an empty buffer and no objects. -/
lemma drain_all_sep :
    ∀ (f : Nat) (P : List Char), (∀ c ∈ P, isSep c = true) → P.length + 1 ≤ f →
      drain f P = ([], [])
  | 0, _, _, hf => by omega
  | f + 1, P, hsep, hf => by
      rcases hd : P.dropWhile isWs with _ | ⟨c, t⟩
      · exact drain_empty f P hd
      · have hcP : c ∈ P := dropWhile_subset_self P c (by rw [hd]; exact List.mem_cons_self _ _)
        have hcw : isWs c = false := by
          have h := dropWhile_head_not isWs P
          rw [hd] at h
          exact h
        have hcsep := hsep c hcP
        have hc : c = '[' ∨ c = ',' := by
          unfold isSep at hcsep
          simp only [hcw, Bool.false_or, Bool.or_eq_true, decide_eq_true_eq] at hcsep
          exact hcsep
        rw [drain_skip f P hd hc]
        have hlen : (c :: t).length ≤ P.length := by
          rw [← hd]
          exact (List.dropWhile_sublist _).length_le
        refine drain_all_sep f t ?_ ?_
        · intro x hx
          exact hsep x (dropWhile_subset_self P x (by rw [hd]; exact List.mem_cons_of_mem _ hx))
        · simp only [List.length_cons] at hlen
          omega

/-- Peeling a separator run off the front of the buffer: the loop reaches the
rest of the buffer with enough fuel left. -/
lemma drain_sep_peel :
    ∀ (f : Nat) (sep X : List Char), (∀ c ∈ sep, isSep c = true) → HeadNot isSep X →
      sep.length + X.length + 1 ≤ f →
      ∃ fx, X.length + 1 ≤ fx ∧ fx ≤ f ∧ drain f (sep ++ X) = drain fx X
  | 0, _, _, _, _, hf => by omega
  | f + 1, sep, X, hsep, hX, hf => by
      rcases hd : sep.dropWhile isWs with _ | ⟨c, t⟩
      · refine ⟨f + 1, by omega, le_refl _, ?_⟩
        have hskip : skipWs (sep ++ X) = X := by
          unfold skipWs
          rw [dropWhile_append_nil X hd]
          exact skipWs_not_ws (headNot_isWs_of_isSep hX)
        rw [drain_skipWs f (sep ++ X), hskip]
      · have hcsep : c ∈ sep := dropWhile_subset_self sep c (by rw [hd]; exact List.mem_cons_self _ _)
        have hcw : isWs c = false := by
          have h := dropWhile_head_not isWs sep
          rw [hd] at h
          exact h
        have hc : c = '[' ∨ c = ',' := by
          have hs := hsep c hcsep
          unfold isSep at hs
          simp only [hcw, Bool.false_or, Bool.or_eq_true, decide_eq_true_eq] at hs
          exact hs
        have hskip : skipWs (sep ++ X) = c :: (t ++ X) := by
          unfold skipWs
          exact dropWhile_append_pos X hd
        rw [drain_skip f (sep ++ X) hskip hc]
        have hlen : (c :: t).length ≤ sep.length := by
          rw [← hd]
          exact (List.dropWhile_sublist _).length_le
        simp only [List.length_cons] at hlen
        obtain ⟨fx, h1, h2, h3⟩ := drain_sep_peel f t X
          (fun x hx => hsep x (dropWhile_subset_self sep x
            (by rw [hd]; exact List.mem_cons_of_mem _ hx)))
          hX (by omega)
        exact ⟨fx, h1, by omega, h3⟩

/-- `NUMBER_RE` fails when the head is neither `-` nor a digit. -/
lemma parseNumLex_fail {c : Char} (rest : List Char) (hneg : c ≠ '-')
    (hd : isDigit c = false) : parseNumLex (c :: rest) = none := by
  have h0 : c ≠ '0' := by
    intro h; subst h; simp [isDigit] at hd
  have h19 : ¬('1' ≤ c ∧ c ≤ '9') := by
    intro h
    unfold isDigit at hd
    simp only [Bool.and_eq_false_iff, decide_eq_false_iff_not] at hd
    rcases hd with h' | h'
    · exact h' (le_trans (by decide) h.1)
    · exact h' h.2
  simp only [parseNumLex, if_neg hneg]
  simp [numIntPart, if_neg h0, if_neg h19]

/-- `raw_decode` rejects a buffer headed by the closing `]`. -/
lemma rawDecode_close (rest : List Char) : rawDecode (']' :: rest) = none := by
  unfold rawDecode
  simp only [List.length_cons]
  rw [pv_default (rest.length + 1) ']' rest (by decide) (by decide) (by decide) (by decide)
    (by decide) (by decide)]
  rw [parseNumLex_fail rest (by decide) (by decide)]

/-! ### Number-lexeme lemmas -/

/-- Characters that could extend a number lexeme to the right. -/
def isNumCont (c : Char) : Bool := isDigit c || c = '.' || c = 'e' || c = 'E'

lemma numIntPart_zero (X : List Char) : numIntPart ('0' :: X) = some (['0'], X) := by
  simp [numIntPart]

lemma numIntPart_pos {c : Char} (ds X : List Char) (hc : '1' ≤ c ∧ c ≤ '9')
    (hds : ∀ d ∈ ds, isDigit d = true) (hX : HeadNot isDigit X) :
    numIntPart (c :: (ds ++ X)) = some (c :: ds, X) := by
  have hc0 : c ≠ '0' := by
    intro h; subst h; exact absurd hc.1 (by decide)
  obtain ⟨ht, hd⟩ := takeWhile_append_of_all ds X hds hX
  unfold numIntPart
  dsimp only
  rw [if_neg hc0, if_pos hc, ht, hd]

lemma numFrac_none (X : List Char) (hX : HeadNot (fun c => c = '.') X) :
    numFrac X = ([], X) := by
  cases X with
  | nil => rfl
  | cons c r =>
      simp only [HeadNot, decide_eq_false_iff_not] at hX
      unfold numFrac
      dsimp only
      rw [if_neg hX]

lemma numFrac_some (ds X : List Char) (hne : ds ≠ [])
    (hds : ∀ d ∈ ds, isDigit d = true) (hX : HeadNot isDigit X) :
    numFrac ('.' :: (ds ++ X)) = ('.' :: ds, X) := by
  obtain ⟨ht, hd⟩ := takeWhile_append_of_all ds X hds hX
  unfold numFrac
  dsimp only
  rw [if_pos rfl, ht, hd]
  cases ds with
  | nil => exact absurd rfl hne
  | cons d t => rfl

lemma numExp_none (X : List Char) (hX : HeadNot (fun c => c = 'e' || c = 'E') X) :
    numExp X = ([], X) := by
  cases X with
  | nil => rfl
  | cons e r =>
      simp only [HeadNot, Bool.or_eq_false_iff, decide_eq_false_iff_not] at hX
      unfold numExp
      dsimp only
      rw [if_neg (by tauto)]

lemma numExp_some (e : Char) (sgn ds X : List Char) (he : e = 'e' ∨ e = 'E')
    (hsgn : sgn = [] ∨ sgn = ['+'] ∨ sgn = ['-']) (hne : ds ≠ [])
    (hds : ∀ d ∈ ds, isDigit d = true) (hX : HeadNot isDigit X) :
    numExp (e :: (sgn ++ (ds ++ X))) = (e :: (sgn ++ ds), X) := by
  obtain ⟨ht, hd⟩ := takeWhile_append_of_all ds X hds hX
  obtain ⟨d, t, rfl⟩ : ∃ d t, ds = d :: t := by
    cases ds with
    | nil => exact absurd rfl hne
    | cons d t => exact ⟨d, t, rfl⟩
  have hdig := hds d (List.mem_cons_self _ _)
  have hdp : d ≠ '+' := by intro h; subst h; exact absurd hdig (by decide)
  have hdm : d ≠ '-' := by intro h; subst h; exact absurd hdig (by decide)
  unfold numExp
  dsimp only
  rw [if_pos he]
  rcases hsgn with h | h | h <;> subst h
  · simp only [List.nil_append, List.cons_append]
    rw [if_neg hdp, if_neg hdm]
    rw [show (d :: (t ++ X) : List Char) = (d :: t) ++ X from rfl, ht, hd]
    simp
  · simp only [List.singleton_append, if_true]
    rw [ht, hd]
  · simp only [List.singleton_append, if_true]
    rw [if_neg (show ¬('-' : Char) = '+' by decide)]
    rw [ht, hd]
    simp

lemma headNot_isDigit_of_isNumCont {X : List Char} (hX : HeadNot isNumCont X) :
    HeadNot isDigit X := by
  cases X with
  | nil => trivial
  | cons c r =>
      simp only [HeadNot] at hX ⊢
      unfold isNumCont at hX
      simp only [Bool.or_eq_false_iff] at hX
      exact hX.1.1.1

lemma headNot_dot_of_isNumCont {X : List Char} (hX : HeadNot isNumCont X) :
    HeadNot (fun c => c = '.') X := by
  cases X with
  | nil => trivial
  | cons c r =>
      simp only [HeadNot] at hX ⊢
      unfold isNumCont at hX
      simp only [Bool.or_eq_false_iff] at hX
      exact hX.1.1.2

lemma headNot_exp_of_isNumCont {X : List Char} (hX : HeadNot isNumCont X) :
    HeadNot (fun c => c = 'e' || c = 'E') X := by
  cases X with
  | nil => trivial
  | cons c r =>
      simp only [HeadNot] at hX ⊢
      unfold isNumCont at hX
      simp only [Bool.or_eq_false_iff] at hX
      simp only [Bool.or_eq_false_iff]
      exact ⟨hX.1.2, hX.2⟩

/-- `NUMBER_RE` recovers a well-formed lexeme exactly when the continuation
cannot extend the number. -/
lemma parseNumLex_render (lex X : List Char) (hWF : NumLexWF lex)
    (hX : HeadNot isNumCont X) : parseNumLex (lex ++ X) = some (lex, X) := by
  obtain ⟨neg, ip, fr, ex, rfl, hneg, hip, hfr, hex⟩ := hWF
  have hXdig := headNot_isDigit_of_isNumCont hX
  have hXdot := headNot_dot_of_isNumCont hX
  have hXexp := headNot_exp_of_isNumCont hX
  have hexT : numExp (ex ++ X) = (ex, X) := by
    rcases hex with rfl | ⟨e, sgn, ds, he, hsgn, hne, hds, rfl⟩
    · rw [List.nil_append]
      exact numExp_none X hXexp
    · rw [show (e :: (sgn ++ ds)) ++ X = e :: (sgn ++ (ds ++ X)) from by simp]
      exact numExp_some e sgn ds X he hsgn hne hds hXdig
  have hT1dig : HeadNot isDigit (ex ++ X) := by
    rcases hex with rfl | ⟨e, sgn, ds, he, hsgn, hne, hds, rfl⟩
    · rwa [List.nil_append]
    · simp only [List.cons_append, HeadNot]
      rcases he with rfl | rfl <;> decide
  have hT1dot : HeadNot (fun c => c = '.') (ex ++ X) := by
    rcases hex with rfl | ⟨e, sgn, ds, he, hsgn, hne, hds, rfl⟩
    · rwa [List.nil_append]
    · simp only [List.cons_append, HeadNot]
      rcases he with rfl | rfl <;> decide
  have hfrT : numFrac (fr ++ (ex ++ X)) = (fr, ex ++ X) := by
    rcases hfr with rfl | ⟨ds, hne, hds, rfl⟩
    · rw [List.nil_append]
      exact numFrac_none _ hT1dot
    · rw [show ('.' :: ds) ++ (ex ++ X) = '.' :: (ds ++ (ex ++ X)) from by simp]
      exact numFrac_some ds (ex ++ X) hne hds hT1dig
  have hT2dig : HeadNot isDigit (fr ++ (ex ++ X)) := by
    rcases hfr with rfl | ⟨ds, hne, hds, rfl⟩
    · rwa [List.nil_append]
    · simp only [List.cons_append, HeadNot]
      decide
  have hipT : numIntPart (ip ++ (fr ++ (ex ++ X))) = some (ip, fr ++ (ex ++ X)) := by
    rcases hip with rfl | ⟨c, ds, hc, hds, rfl⟩
    · rw [List.singleton_append]
      exact numIntPart_zero _
    · rw [show (c :: ds) ++ (fr ++ (ex ++ X)) = c :: (ds ++ (fr ++ (ex ++ X))) from by simp]
      exact numIntPart_pos ds _ hc hds hT2dig
  obtain ⟨c0, r0, he0, hc0⟩ :
      ∃ c0 r0, ip ++ (fr ++ (ex ++ X)) = c0 :: r0 ∧ c0 ≠ '-' := by
    rcases hip with rfl | ⟨c, ds, hc, hds, rfl⟩
    · exact ⟨'0', _, rfl, by decide⟩
    · refine ⟨c, ds ++ (fr ++ (ex ++ X)), by simp, ?_⟩
      intro h; subst h; exact absurd hc.1 (by decide)
  rcases hneg with rfl | rfl
  · simp only [List.nil_append, List.append_assoc]
    unfold parseNumLex
    rw [he0]
    dsimp only
    rw [if_neg hc0, ← he0, hipT]
    dsimp only
    rw [hfrT, hexT]
    simp
  · simp only [List.singleton_append, List.cons_append, List.append_assoc]
    unfold parseNumLex
    dsimp only
    rw [if_pos rfl]
    dsimp only
    simp only [List.nil_append]
    rw [hipT]
    dsimp only
    rw [hfrT, hexT]
    simp

/-- Remainders the member/element loops always reject: empty, or headed by a
character that can only occur inside a number. -/
def SmallRem (r : List Char) : Prop :=
  r = [] ∨ ∃ c r2, r = c :: r2 ∧ (c = '.' ∨ c = 'e' ∨ c = 'E')

lemma numExp_cut (ex W Q : List Char)
    (hex : ex = [] ∨ ∃ e sgn ds, (e = 'e' ∨ e = 'E')
      ∧ (sgn = [] ∨ sgn = ['+'] ∨ sgn = ['-'])
      ∧ ds ≠ [] ∧ (∀ d ∈ ds, isDigit d = true) ∧ ex = e :: (sgn ++ ds))
    (hsplit : W ++ Q = ex) : SmallRem ((numExp W).2) := by
  rcases hex with rfl | ⟨e, sgn, ds, he, hsgn, hne, hds, rfl⟩
  · obtain ⟨rfl, rfl⟩ := List.append_eq_nil.mp hsplit
    left; rfl
  · cases W with
    | nil => left; rfl
    | cons w W2 =>
        rw [List.cons_append] at hsplit
        injection hsplit with hw hsplit2
        subst hw
        unfold numExp
        dsimp only
        rw [if_pos he]
        have hWmem : ∀ x, x ∈ W2 → x ∈ sgn ++ ds := by
          intro x hx
          rw [← hsplit2]
          exact List.mem_append_left _ hx
        rcases hsgn with rfl | rfl | rfl
        · rw [List.nil_append] at hWmem hsplit2
          cases W2 with
          | nil =>
              right
              exact ⟨w, [], rfl, Or.inr he⟩
          | cons d t =>
              have hdig := hds d (hWmem d (List.mem_cons_self _ _))
              have hdp : d ≠ '+' := by intro h; subst h; exact absurd hdig (by decide)
              have hdm : d ≠ '-' := by intro h; subst h; exact absurd hdig (by decide)
              dsimp only
              rw [if_neg hdp, if_neg hdm]
              have hall : ∀ x ∈ (d :: t), isDigit x = true := fun x hx => hds x (hWmem x hx)
              have htk := takeWhile_append_of_all (d :: t) [] hall trivial
              rw [List.append_nil] at htk
              rw [htk.1, htk.2]
              left; rfl
        · cases W2 with
          | nil =>
              right
              exact ⟨w, [], rfl, Or.inr he⟩
          | cons w2 W3 =>
              rw [List.singleton_append, List.cons_append] at hsplit2
              injection hsplit2 with hw2 hsplit3
              subst hw2
              dsimp only
              rw [if_pos rfl]
              have hall : ∀ x ∈ W3, isDigit x = true := by
                intro x hx
                refine hds x ?_
                rw [← hsplit3]
                exact List.mem_append_left _ hx
              cases W3 with
              | nil =>
                  right
                  exact ⟨w, '+' :: [], rfl, Or.inr he⟩
              | cons d t =>
                  have htk := takeWhile_append_of_all (d :: t) [] hall trivial
                  rw [List.append_nil] at htk
                  rw [htk.1, htk.2]
                  left; rfl
        · cases W2 with
          | nil =>
              right
              exact ⟨w, [], rfl, Or.inr he⟩
          | cons w2 W3 =>
              rw [List.singleton_append, List.cons_append] at hsplit2
              injection hsplit2 with hw2 hsplit3
              subst hw2
              dsimp only
              rw [if_neg (show ¬('-' : Char) = '+' by decide), if_pos rfl]
              have hall : ∀ x ∈ W3, isDigit x = true := by
                intro x hx
                refine hds x ?_
                rw [← hsplit3]
                exact List.mem_append_left _ hx
              cases W3 with
              | nil =>
                  right
                  exact ⟨w, '-' :: [], rfl, Or.inr he⟩
              | cons d t =>
                  have htk := takeWhile_append_of_all (d :: t) [] hall trivial
                  rw [List.append_nil] at htk
                  rw [htk.1, htk.2]
                  left; rfl

lemma numFracExp_cut (fr ex W Q : List Char)
    (hfr : fr = [] ∨ ∃ ds, ds ≠ [] ∧ (∀ d ∈ ds, isDigit d = true) ∧ fr = '.' :: ds)
    (hex : ex = [] ∨ ∃ e sgn ds, (e = 'e' ∨ e = 'E')
      ∧ (sgn = [] ∨ sgn = ['+'] ∨ sgn = ['-'])
      ∧ ds ≠ [] ∧ (∀ d ∈ ds, isDigit d = true) ∧ ex = e :: (sgn ++ ds))
    (hsplit : W ++ Q = fr ++ ex) : SmallRem ((numExp ((numFrac W).2)).2) := by
  rcases hfr with rfl | ⟨ds, hne, hds, rfl⟩
  · rw [List.nil_append] at hsplit
    have hnf : numFrac W = ([], W) := by
      cases W with
      | nil => rfl
      | cons w W2 =>
          refine numFrac_none _ ?_
          simp only [HeadNot, decide_eq_false_iff_not]
          rcases hex with rfl | ⟨e, sgn, ds, he, hsgn, hne, hds, rfl⟩
          · rw [List.cons_append] at hsplit
            exact absurd hsplit (by simp)
          · rw [List.cons_append] at hsplit
            injection hsplit with hw hrest
            subst hw
            rcases he with rfl | rfl <;> decide
    rw [hnf]
    exact numExp_cut ex W Q hex hsplit
  · cases W with
    | nil => left; rfl
    | cons w W2 =>
        rw [List.cons_append, List.cons_append] at hsplit
        injection hsplit with hw hsplit2
        subst hw
        unfold numFrac
        dsimp only
        rw [if_pos rfl]
        rcases List.append_eq_append_iff.mp hsplit2 with ⟨a, hds2, hQ⟩ | ⟨W3, hW2, hex2⟩
        · have hall : ∀ x ∈ W2, isDigit x = true := by
            intro x hx
            exact hds x (by rw [hds2]; exact List.mem_append_left _ hx)
          cases W2 with
          | nil =>
              right
              exact ⟨'.', [], rfl, Or.inl rfl⟩
          | cons d t =>
              have htk := takeWhile_append_of_all (d :: t) [] hall trivial
              rw [List.append_nil] at htk
              rw [htk.1, htk.2]
              dsimp only
              left; rfl
        · subst hW2
          have hW3 : HeadNot isDigit W3 := by
            cases W3 with
            | nil => trivial
            | cons w3 t3 =>
                simp only [HeadNot]
                rcases hex with rfl | ⟨e, sgn, ds2, he, hsgn, hne2, hds2, rfl⟩
                · exact absurd hex2.symm (by simp)
                · rw [List.cons_append] at hex2
                  injection hex2 with hw3 hrest
                  subst hw3
                  rcases he with rfl | rfl <;> decide
          have htk := takeWhile_append_of_all ds W3 hds hW3
          rw [htk.1, htk.2]
          obtain ⟨d, t, rfl⟩ : ∃ d t, ds = d :: t := by
            cases ds with
            | nil => exact absurd rfl hne
            | cons d t => exact ⟨d, t, rfl⟩
          dsimp only
          exact numExp_cut ex W3 Q hex hex2.symm

lemma numCore_cut (ip fr ex W Q : List Char)
    (hip : ip = ['0'] ∨ ∃ c ds, ('1' ≤ c ∧ c ≤ '9') ∧ (∀ d ∈ ds, isDigit d = true)
      ∧ ip = c :: ds)
    (hfr : fr = [] ∨ ∃ ds, ds ≠ [] ∧ (∀ d ∈ ds, isDigit d = true) ∧ fr = '.' :: ds)
    (hex : ex = [] ∨ ∃ e sgn ds, (e = 'e' ∨ e = 'E')
      ∧ (sgn = [] ∨ sgn = ['+'] ∨ sgn = ['-'])
      ∧ ds ≠ [] ∧ (∀ d ∈ ds, isDigit d = true) ∧ ex = e :: (sgn ++ ds))
    (hsplit : W ++ Q = ip ++ (fr ++ ex)) :
    numIntPart W = none ∨ ∃ ip2 r2, numIntPart W = some (ip2, r2)
      ∧ SmallRem ((numExp ((numFrac r2).2)).2) := by
  rcases hip with rfl | ⟨c, ds, hc, hds, rfl⟩
  · cases W with
    | nil => left; rfl
    | cons w W2 =>
        rw [List.singleton_append, List.cons_append] at hsplit
        injection hsplit with hw hsplit2
        subst hw
        right
        exact ⟨['0'], W2, numIntPart_zero W2,
          numFracExp_cut fr ex W2 Q hfr hex hsplit2⟩
  · cases W with
    | nil => left; rfl
    | cons w W2 =>
        rw [List.cons_append, List.cons_append] at hsplit
        injection hsplit with hw hsplit2
        subst hw
        have hc0 : w ≠ '0' := by
          intro h; subst h; exact absurd hc.1 (by decide)
        right
        unfold numIntPart
        dsimp only
        rw [if_neg hc0, if_pos hc]
        rcases List.append_eq_append_iff.mp hsplit2 with ⟨a, hds2, hQ⟩ | ⟨W3, hW2, hfe⟩
        · have hall : ∀ x ∈ W2, isDigit x = true := by
            intro x hx
            exact hds x (by rw [hds2]; exact List.mem_append_left _ hx)
          have htk := takeWhile_append_of_all W2 [] hall trivial
          rw [List.append_nil] at htk
          rw [htk.1, htk.2]
          exact ⟨w :: W2, [], rfl, by left; rfl⟩
        · subst hW2
          have hW3 : HeadNot isDigit W3 := by
            cases W3 with
            | nil => trivial
            | cons w3 t3 =>
                simp only [HeadNot]
                rcases hfr with rfl | ⟨ds2, hne2, hds2, rfl⟩
                · rcases hex with rfl | ⟨e, sgn, ds3, he, hsgn, hne3, hds3, rfl⟩
                  · exact absurd hfe.symm (by simp)
                  · rw [List.nil_append, List.cons_append] at hfe
                    injection hfe with hw3 hrest
                    subst hw3
                    rcases he with rfl | rfl <;> decide
                · rw [List.cons_append, List.cons_append] at hfe
                  injection hfe with hw3 hrest
                  subst hw3
                  decide
          have htk := takeWhile_append_of_all ds W3 hds hW3
          rw [htk.1, htk.2]
          exact ⟨w :: ds, W3, rfl, numFracExp_cut fr ex W3 Q hfr hex hfe.symm⟩

/-- A proper prefix of a well-formed number lexeme either fails `NUMBER_RE`
or leaves only a remainder the object/array loops reject. -/
lemma parseNumLex_cut (lex W Q : List Char) (hWF : NumLexWF lex)
    (hsplit : W ++ Q = lex) :
    parseNumLex W = none ∨ ∃ u r, parseNumLex W = some (u, r) ∧ SmallRem r := by
  obtain ⟨neg, ip, fr, ex, rfl, hneg, hip, hfr, hex⟩ := hWF
  rcases hneg with rfl | rfl
  · rw [List.nil_append, List.append_assoc] at hsplit
    cases W with
    | nil => left; rfl
    | cons w W2 =>
        have hwneg : w ≠ '-' := by
          rcases hip with rfl | ⟨c, ds, hc, hds, rfl⟩
          · rw [List.singleton_append, List.cons_append] at hsplit
            injection hsplit with hw hrest
            subst hw; decide
          · rw [List.cons_append, List.cons_append] at hsplit
            injection hsplit with hw hrest
            subst hw
            intro h; subst h; exact absurd hc.1 (by decide)
        unfold parseNumLex
        dsimp only
        rw [if_neg hwneg]
        dsimp only
        rcases numCore_cut ip fr ex (w :: W2) Q hip hfr hex hsplit with hnone |
          ⟨ip2, r2, hsome, hrem⟩
        · left; rw [hnone]
        · right
          rw [hsome]
          exact ⟨_, _, rfl, hrem⟩
  · cases W with
    | nil => left; rfl
    | cons w W2 =>
        rw [List.singleton_append, List.cons_append] at hsplit
        injection hsplit with hw hsplit2
        subst hw
        simp only [List.append_eq] at hsplit2
        rw [List.append_assoc] at hsplit2
        unfold parseNumLex
        dsimp only
        rw [if_pos rfl]
        dsimp only
        rcases numCore_cut ip fr ex W2 Q hip hfr hex hsplit2 with hnone |
          ⟨ip2, r2, hsome, hrem⟩
        · left; rw [hnone]
        · right
          rw [hsome]
          exact ⟨_, _, rfl, hrem⟩

/-! ### String prefix failure -/

lemma psb_nil (acc : List Char) : parseStringBody acc [] = none := by
  rw [parseStringBody.eq_def]

lemma psb_backslash (acc : List Char) : parseStringBody acc ['\\'] = none := by
  rw [parseStringBody.eq_def]
  simp

lemma hex4_short : ∀ (hs : List Char), hs.length < 4 → hex4 hs = none
  | [], _ => rfl
  | [_], _ => rfl
  | [_, _], _ => rfl
  | [_, _, _], _ => rfl
  | _ :: _ :: _ :: _ :: _, h => by
      exfalso
      simp only [List.length_cons] at h
      omega

lemma escSlashU_short (hs : List Char) (h : hs.length < 4) : escSlashU hs = none := by
  unfold escSlashU
  rw [hex4_short hs h]

lemma psb_u_fail (acc hs : List Char) (h : escSlashU hs = none) :
    parseStringBody acc ('\\' :: 'u' :: hs) = none := by
  rw [parseStringBody.eq_def]
  dsimp only
  rw [if_neg (by decide : ¬('\\' : Char) = '"'), if_pos (rfl : ('\\' : Char) = '\\')]
  rw [if_pos (rfl : ('u' : Char) = 'u')]
  split
  · rename_i ch rest3x heq
    rw [h] at heq
    exact absurd heq (by simp)
  · rfl

/-- A proper prefix of a rendered string body (closing quote not yet seen)
makes `py_scanstring` fail. -/
lemma parseStringBody_cut :
    ∀ (s : List Char) (acc W Q : List Char),
      W ++ Q = s.flatMap jstrEscChar ++ ['"'] → Q ≠ [] →
        parseStringBody acc W = none
  | [], acc, W, Q, h, hQ => by
      simp only [List.flatMap_nil, List.nil_append] at h
      cases W with
      | nil => exact psb_nil acc
      | cons w W2 =>
          rw [List.cons_append] at h
          injection h with hw h2
          exact absurd (List.append_eq_nil.mp h2).2 hQ
  | c :: s', acc, W, Q, h, hQ => by
      simp only [List.flatMap_cons, List.append_assoc] at h
      by_cases h1 : c = '"'
      · subst h1
        rw [show jstrEscChar '"' = ['\\', '"'] from rfl] at h
        rcases W with _ | ⟨w1, _ | ⟨w2, W3⟩⟩
        · exact psb_nil acc
        · simp only [List.cons_append, List.nil_append] at h
          injection h with hw1 h2
          subst hw1
          exact psb_backslash acc
        · simp only [List.cons_append, List.nil_append] at h
          injection h with hw1 h2
          injection h2 with hw2 h3
          subst hw1; subst hw2
          rw [psb_esc_quote]
          exact parseStringBody_cut s' ('"' :: acc) W3 Q (by simpa using h3) hQ
      · by_cases h2 : c = '\\'
        · subst h2
          rw [show jstrEscChar '\\' = ['\\', '\\'] from rfl] at h
          rcases W with _ | ⟨w1, _ | ⟨w2, W3⟩⟩
          · exact psb_nil acc
          · simp only [List.cons_append, List.nil_append] at h
            injection h with hw1 hx
            subst hw1
            exact psb_backslash acc
          · simp only [List.cons_append, List.nil_append] at h
            injection h with hw1 hx
            injection hx with hw2 h3
            subst hw1; subst hw2
            rw [psb_esc_back]
            exact parseStringBody_cut s' ('\\' :: acc) W3 Q (by simpa using h3) hQ
        · by_cases h3 : c.toNat < 32
          · have hesc : jstrEscChar c = uEsc c.toNat := by
              unfold jstrEscChar
              rw [if_neg h1, if_neg h2, if_pos h3]
            rw [hesc] at h
            unfold uEsc at h
            rcases W with _ | ⟨w1, _ | ⟨w2, hs⟩⟩
            · exact psb_nil acc
            · simp only [List.cons_append, List.nil_append] at h
              injection h with hw1 hx
              subst hw1
              exact psb_backslash acc
            · simp only [List.cons_append, List.nil_append] at h
              injection h with hw1 hx
              injection hx with hw2 h4
              subst hw1; subst hw2
              rw [show (hexDigit (c.toNat / 4096 % 16) :: hexDigit (c.toNat / 256 % 16)
                    :: hexDigit (c.toNat / 16 % 16) :: hexDigit (c.toNat % 16)
                    :: (s'.flatMap jstrEscChar ++ ['"']) : List Char)
                  = [hexDigit (c.toNat / 4096 % 16), hexDigit (c.toNat / 256 % 16),
                     hexDigit (c.toNat / 16 % 16), hexDigit (c.toNat % 16)]
                    ++ (s'.flatMap jstrEscChar ++ ['"']) from rfl] at h4
              rcases List.append_eq_append_iff.mp h4 with ⟨a, hD, hQ2⟩ | ⟨W3, hhs, hrest⟩
              · rcases a with _ | ⟨a1, arest⟩
                · rw [List.append_nil] at hD
                  subst hD
                  rw [psb_esc_u acc c.toNat h3 []]
                  refine parseStringBody_cut s' (Char.ofNat c.toNat :: acc) [] Q ?_ hQ
                  simpa using hQ2
                · refine psb_u_fail acc hs (escSlashU_short hs ?_)
                  have hlen := congrArg List.length hD
                  simp only [List.length_append, List.length_cons, List.length_nil] at hlen
                  omega
              · subst hhs
                simp only [List.cons_append, List.nil_append]
                rw [psb_esc_u acc c.toNat h3 W3]
                exact parseStringBody_cut s' (Char.ofNat c.toNat :: acc) W3 Q
                  hrest.symm hQ
          · have hesc : jstrEscChar c = [c] := by
              unfold jstrEscChar
              rw [if_neg h1, if_neg h2, if_neg h3]
            rw [hesc] at h
            cases W with
            | nil => exact psb_nil acc
            | cons w W2 =>
                simp only [List.cons_append, List.singleton_append] at h
                injection h with hw h4
                subst hw
                rw [psb_raw acc w W2 h1 h2 h3]
                exact parseStringBody_cut s' (w :: acc) W2 Q h4 hQ

/-! ### Rendering facts: head characters and fuel bounds -/

/-- The first character of a rendered value is never whitespace nor a
closing bracket. -/
lemma renderJson_head (v : Json) (hWF : JsonWF v) :
    ∃ c cs, renderJson v = c :: cs ∧ isWs c = false ∧ c ≠ ']' ∧ c ≠ '}' := by
  cases v with
  | null =>
      exact ⟨'n', ['u', 'l', 'l'], by simp [renderJson], by decide, by decide, by decide⟩
  | bool b =>
      cases b with
      | true =>
          exact ⟨'t', ['r', 'u', 'e'], by simp [renderJson], by decide, by decide, by decide⟩
      | false =>
          exact ⟨'f', ['a', 'l', 's', 'e'], by simp [renderJson], by decide, by decide,
            by decide⟩
  | str s =>
      exact ⟨'"', s.flatMap jstrEscChar ++ ['"'], by simp [renderJson, renderJStr],
        by decide, by decide, by decide⟩
  | num lex =>
      simp only [JsonWF] at hWF
      obtain ⟨neg, ip, fr, ex, rfl, hneg, hip, hfr, hex⟩ := hWF
      rcases hneg with rfl | rfl
      · rcases hip with rfl | ⟨c, ds, hc, hds, rfl⟩
        · exact ⟨'0', fr ++ ex, by simp [renderJson], by decide, by decide, by decide⟩
        · refine ⟨c, ds ++ (fr ++ ex), by simp [renderJson], ?_, ?_, ?_⟩
          · unfold isWs
            simp only [Bool.or_eq_false_iff, decide_eq_false_iff_not]
            refine ⟨⟨⟨?_, ?_⟩, ?_⟩, ?_⟩ <;>
              · intro h; subst h; exact absurd hc.1 (by decide)
          · intro h; subst h; exact absurd hc.2 (by decide)
          · intro h; subst h; exact absurd hc.2 (by decide)
      · exact ⟨'-', ip ++ (fr ++ ex), by simp [renderJson], by decide, by decide, by decide⟩
  | arr es =>
      cases es with
      | nil => exact ⟨'[', [']'], by simp [renderJson], by decide, by decide, by decide⟩
      | cons v vs =>
          exact ⟨'[', renderArrBody v vs, by simp [renderJson], by decide, by decide,
            by decide⟩
  | obj ms =>
      cases ms with
      | nil => exact ⟨'{', ['}'], by simp [renderJson], by decide, by decide, by decide⟩
      | cons m ms =>
          exact ⟨'{', renderObjBody m ms, by simp [renderJson], by decide, by decide,
            by decide⟩

mutual
theorem jsonFuel_le : ∀ v : Json, jsonFuel v ≤ (renderJson v).length + 1
  | .null => by simp [jsonFuel]
  | .bool b => by cases b <;> simp [jsonFuel]
  | .num lex => by simp [jsonFuel]
  | .str s => by simp [jsonFuel]
  | .arr [] => by simp [jsonFuel]
  | .arr (v :: vs) => by
      have h := elemsFuel_le v vs
      simp only [jsonFuel, renderJson, List.length_cons]
      omega
  | .obj [] => by simp [jsonFuel]
  | .obj (m :: ms) => by
      have h := membersFuel_le m ms
      simp only [jsonFuel, renderJson, List.length_cons]
      omega
termination_by v => sizeOf v

theorem membersFuel_le : ∀ (m : List Char × Json) (ms : List (List Char × Json)),
    membersFuel m ms ≤ (renderObjBody m ms).length + 1
  | (k, v), [] => by
      have h := jsonFuel_le v
      have hmax : max (jsonFuel v) 0 = jsonFuel v := Nat.max_eq_left (Nat.zero_le _)
      simp only [membersFuel, renderObjBody, List.length_append, List.length_cons, hmax]
      omega
  | (k, v), m2 :: ms2 => by
      have h1 := jsonFuel_le v
      have h2 := membersFuel_le m2 ms2
      have hmax : max (jsonFuel v) (membersFuel m2 ms2)
          ≤ max ((renderJson v).length + 1) ((renderObjBody m2 ms2).length + 1) :=
        max_le_max h1 h2
      have hm2 : max ((renderJson v).length + 1) ((renderObjBody m2 ms2).length + 1)
          ≤ (renderJson v).length + (renderObjBody m2 ms2).length + 1 := by
        refine Nat.max_le.mpr ⟨by omega, by omega⟩
      simp only [membersFuel, renderObjBody, List.length_append, List.length_cons]
      omega
termination_by m ms => sizeOf m + sizeOf ms

theorem elemsFuel_le : ∀ (v : Json) (vs : List Json),
    elemsFuel v vs ≤ (renderArrBody v vs).length + 1
  | v, [] => by
      have h := jsonFuel_le v
      have hmax : max (jsonFuel v) 0 = jsonFuel v := Nat.max_eq_left (Nat.zero_le _)
      simp only [elemsFuel, renderArrBody, List.length_append, List.length_cons, hmax]
      omega
  | v, w :: ws => by
      have h1 := jsonFuel_le v
      have h2 := elemsFuel_le w ws
      have hmax : max (jsonFuel v) (elemsFuel w ws)
          ≤ max ((renderJson v).length + 1) ((renderArrBody w ws).length + 1) :=
        max_le_max h1 h2
      have hm2 : max ((renderJson v).length + 1) ((renderArrBody w ws).length + 1)
          ≤ (renderJson v).length + (renderArrBody w ws).length + 1 := by
        refine Nat.max_le.mpr ⟨by omega, by omega⟩
      simp only [elemsFuel, renderArrBody, List.length_append, List.length_cons]
      omega
termination_by v vs => sizeOf v + sizeOf vs
decreasing_by
all_goals simp_wf
all_goals try omega
all_goals exact list_sizeOf_pos _
end

lemma pv_t (f : Nat) (rest : List Char) :
    parseValue (f + 1) ('t' :: rest) =
      match rest with
      | r1 :: r2 :: r3 :: rr =>
          if r1 = 'r' ∧ r2 = 'u' ∧ r3 = 'e' then some (Json.bool true, rr) else none
      | _ => none := by
  simp [parseValue]

lemma pv_f (f : Nat) (rest : List Char) :
    parseValue (f + 1) ('f' :: rest) =
      match rest with
      | r1 :: r2 :: r3 :: r4 :: rr =>
          if r1 = 'a' ∧ r2 = 'l' ∧ r3 = 's' ∧ r4 = 'e' then some (Json.bool false, rr)
          else none
      | _ => none := by
  simp [parseValue]

lemma pv_n (f : Nat) (rest : List Char) :
    parseValue (f + 1) ('n' :: rest) =
      match rest with
      | r1 :: r2 :: r3 :: rr =>
          if r1 = 'u' ∧ r2 = 'l' ∧ r3 = 'l' then some (Json.null, rr) else none
      | _ => none := by
  simp [parseValue]

lemma pm_succ (f : Nat) (c : Char) (rest : List Char) (acc : List (List Char × Json)) :
    parseMembers (f + 1) (c :: rest) acc =
      if c = '"' then
        match parseStringBody [] rest with
        | none => none
        | some (key, r1) =>
            match skipWs r1 with
            | [] => none
            | c2 :: r2 =>
                if c2 = ':' then
                  match parseValue f (skipWs r2) with
                  | none => none
                  | some (v, r3) =>
                      match skipWs r3 with
                      | [] => none
                      | c3 :: r4 =>
                          if c3 = ',' then parseMembers f (skipWs r4) ((key, v) :: acc)
                          else if c3 = '}' then
                            some (Json.obj ((key, v) :: acc).reverse, r4)
                          else none
                else none
      else none := by
  simp [parseMembers]

lemma pe_succ (f : Nat) (cs : List Char) (acc : List Json) :
    parseElems (f + 1) cs acc =
      match parseValue f cs with
      | none => none
      | some (v, r1) =>
          match skipWs r1 with
          | [] => none
          | c2 :: r2 =>
              if c2 = ',' then parseElems f (skipWs r2) (v :: acc)
              else if c2 = ']' then some (Json.arr (v :: acc).reverse, r2)
              else none := by
  simp [parseElems]

lemma pm_zero (cs : List Char) (acc : List (List Char × Json)) :
    parseMembers 0 cs acc = none := by
  simp [parseMembers]

lemma pe_zero (cs : List Char) (acc : List Json) : parseElems 0 cs acc = none := by
  simp [parseElems]

/-- Fuel monotonicity: a successful parse stays successful with more fuel. -/
theorem parse_mono : ∀ f : Nat,
    (∀ g cs x, f ≤ g → parseValue f cs = some x → parseValue g cs = some x)
    ∧ (∀ g cs acc x, f ≤ g → parseMembers f cs acc = some x →
        parseMembers g cs acc = some x)
    ∧ (∀ g cs acc x, f ≤ g → parseElems f cs acc = some x →
        parseElems g cs acc = some x) := by
  intro f
  induction f with
  | zero =>
      refine ⟨?_, ?_, ?_⟩
      · intro g cs x _ h; rw [pv_zero] at h; exact absurd h (by simp)
      · intro g cs acc x _ h; rw [pm_zero] at h; exact absurd h (by simp)
      · intro g cs acc x _ h; rw [pe_zero] at h; exact absurd h (by simp)
  | succ f ih =>
      obtain ⟨ihv, ihm, ihe⟩ := ih
      refine ⟨?_, ?_, ?_⟩
      · intro g cs x hfg h
        obtain ⟨g', rfl⟩ : ∃ g', g = g' + 1 := ⟨g - 1, by omega⟩
        have hfg' : f ≤ g' := by omega
        cases cs with
        | nil => rw [pv_nil] at h; exact absurd h (by simp)
        | cons c rest =>
            by_cases hq : c = '"'
            · subst hq; rw [pv_quote] at h ⊢; exact h
            · by_cases hob : c = '{'
              · subst hob
                rw [pv_obj] at h ⊢
                rcases hs : skipWs rest with _ | ⟨c1, r1⟩
                · rw [hs] at h
                  dsimp only at h
                  rw [pm_nil] at h
                  exact absurd h (by simp)
                · rw [hs] at h
                  dsimp only at h ⊢
                  by_cases hc1 : c1 = '}'
                  · rw [if_pos hc1] at h ⊢; exact h
                  · rw [if_neg hc1] at h ⊢
                    exact ihm g' _ _ _ hfg' h
              · by_cases har : c = '['
                · subst har
                  rw [pv_arr] at h ⊢
                  rcases hs : skipWs rest with _ | ⟨c1, r1⟩
                  · rw [hs] at h
                    dsimp only at h
                    rw [pe_nil] at h
                    exact absurd h (by simp)
                  · rw [hs] at h
                    dsimp only at h ⊢
                    by_cases hc1 : c1 = ']'
                    · rw [if_pos hc1] at h ⊢; exact h
                    · rw [if_neg hc1] at h ⊢
                      exact ihe g' _ _ _ hfg' h
                · by_cases ht : c = 't'
                  · subst ht; rw [pv_t] at h ⊢; exact h
                  · by_cases hf2 : c = 'f'
                    · subst hf2; rw [pv_f] at h ⊢; exact h
                    · by_cases hn : c = 'n'
                      · subst hn; rw [pv_n] at h ⊢; exact h
                      · rw [pv_default f c rest hq hob har ht hf2 hn] at h
                        rw [pv_default g' c rest hq hob har ht hf2 hn]
                        exact h
      · intro g cs acc x hfg h
        obtain ⟨g', rfl⟩ : ∃ g', g = g' + 1 := ⟨g - 1, by omega⟩
        have hfg' : f ≤ g' := by omega
        cases cs with
        | nil => rw [pm_nil] at h; exact absurd h (by simp)
        | cons c rest =>
            rw [pm_succ] at h ⊢
            by_cases hq : c = '"'
            · rw [if_pos hq] at h ⊢
              rcases hps : parseStringBody [] rest with _ | ⟨key, r1⟩
              · rw [hps] at h
                dsimp only at h
                exact absurd h (by simp)
              · rw [hps] at h
                dsimp only at h ⊢
                rcases hs1 : skipWs r1 with _ | ⟨c2, r2⟩
                · rw [hs1] at h
                  dsimp only at h
                  exact absurd h (by simp)
                · rw [hs1] at h
                  dsimp only at h ⊢
                  by_cases hc2 : c2 = ':'
                  · rw [if_pos hc2] at h ⊢
                    rcases hpv : parseValue f (skipWs r2) with _ | ⟨v, r3⟩
                    · rw [hpv] at h
                      dsimp only at h
                      exact absurd h (by simp)
                    · rw [hpv] at h
                      dsimp only at h
                      rw [ihv g' _ _ hfg' hpv]
                      dsimp only
                      rcases hs3 : skipWs r3 with _ | ⟨c3, r4⟩
                      · rw [hs3] at h
                        dsimp only at h
                        exact absurd h (by simp)
                      · rw [hs3] at h
                        dsimp only at h ⊢
                        by_cases hc3 : c3 = ','
                        · rw [if_pos hc3] at h ⊢
                          exact ihm g' _ _ _ hfg' h
                        · rw [if_neg hc3] at h ⊢
                          exact h
                  · rw [if_neg hc2] at h
                    exact absurd h (by simp)
            · rw [if_neg hq] at h
              exact absurd h (by simp)
      · intro g cs acc x hfg h
        obtain ⟨g', rfl⟩ : ∃ g', g = g' + 1 := ⟨g - 1, by omega⟩
        have hfg' : f ≤ g' := by omega
        rw [pe_succ] at h ⊢
        rcases hpv : parseValue f cs with _ | ⟨v, r1⟩
        · rw [hpv] at h
          dsimp only at h
          exact absurd h (by simp)
        · rw [hpv] at h
          dsimp only at h
          rw [ihv g' _ _ hfg' hpv]
          dsimp only
          rcases hs1 : skipWs r1 with _ | ⟨c2, r2⟩
          · rw [hs1] at h
            dsimp only at h
            exact absurd h (by simp)
          · rw [hs1] at h
            dsimp only at h ⊢
            by_cases hc2 : c2 = ','
            · rw [if_pos hc2] at h ⊢
              exact ihe g' _ _ _ hfg' h
            · rw [if_neg hc2] at h ⊢
              exact h

lemma jsonFuel_pos : ∀ v : Json, 1 ≤ jsonFuel v := by
  intro v
  cases v with
  | arr es => cases es <;> simp [jsonFuel]
  | obj ms => cases ms <;> simp [jsonFuel]
  | bool b => cases b <;> simp [jsonFuel]
  | null => simp [jsonFuel]
  | num lex => simp [jsonFuel]
  | str s => simp [jsonFuel]

lemma membersFuel_pos (m : List Char × Json) (ms : List (List Char × Json)) :
    1 ≤ membersFuel m ms := by
  obtain ⟨k, v⟩ := m
  rw [membersFuel.eq_def]
  dsimp only
  omega

lemma elemsFuel_pos (v : Json) (vs : List Json) : 1 ≤ elemsFuel v vs := by
  rw [elemsFuel.eq_def]
  dsimp only
  omega

lemma renderObjBody_shape (k : List Char) (v : Json) (ms : List (List Char × Json)) :
    renderObjBody (k, v) ms
      = '"' :: ((k.flatMap jstrEscChar ++ ['"'])
          ++ ':' :: (renderJson v ++
            match ms with
            | [] => ['}']
            | m2 :: ms2 => ',' :: renderObjBody m2 ms2)) := by
  rw [renderObjBody.eq_def]
  simp [renderJStr]

lemma renderArrBody_shape (v : Json) (vs : List Json) :
    renderArrBody v vs
      = renderJson v ++
          match vs with
          | [] => [']']
          | w :: ws => ',' :: renderArrBody w ws := by
  rw [renderArrBody.eq_def]

lemma membersFuel_eq (k : List Char) (v : Json) (ms : List (List Char × Json)) :
    membersFuel (k, v) ms = 1 + max (jsonFuel v)
      (match ms with
       | [] => 0
       | m2 :: ms2 => membersFuel m2 ms2) := by
  rw [membersFuel.eq_def]

lemma elemsFuel_eq (v : Json) (vs : List Json) :
    elemsFuel v vs = 1 + max (jsonFuel v)
      (match vs with
       | [] => 0
       | w :: ws => elemsFuel w ws) := by
  rw [elemsFuel.eq_def]

/-- Roundtrip: parsing the rendering of a well-formed value (with any
non-number-extending continuation) recovers the value exactly. -/
theorem parse_render : ∀ fuel : Nat,
    (∀ (v : Json) (X : List Char), JsonWF v → jsonFuel v ≤ fuel → HeadNot isNumCont X →
        parseValue fuel (renderJson v ++ X) = some (v, X))
    ∧ (∀ (k : List Char) (v : Json) (ms : List (List Char × Json))
        (acc : List (List Char × Json)) (X : List Char),
        MembersWF ((k, v) :: ms) → membersFuel (k, v) ms ≤ fuel →
        parseMembers fuel (renderObjBody (k, v) ms ++ X) acc
          = some (Json.obj (acc.reverse ++ (k, v) :: ms), X))
    ∧ (∀ (v : Json) (vs : List Json) (acc : List Json) (X : List Char),
        ElemsWF (v :: vs) → elemsFuel v vs ≤ fuel →
        parseElems fuel (renderArrBody v vs ++ X) acc
          = some (Json.arr (acc.reverse ++ v :: vs), X)) := by
  intro fuel
  induction fuel with
  | zero =>
      refine ⟨?_, ?_, ?_⟩
      · intro v X _ hf _
        exact absurd hf (by have := jsonFuel_pos v; omega)
      · intro k v ms acc X _ hf
        exact absurd hf (by have := membersFuel_pos (k, v) ms; omega)
      · intro v vs acc X _ hf
        exact absurd hf (by have := elemsFuel_pos v vs; omega)
  | succ f ih =>
      obtain ⟨ihv, ihm, ihe⟩ := ih
      refine ⟨?_, ?_, ?_⟩
      · intro v X hWF hf hX
        cases v with
        | null =>
            rw [show renderJson Json.null = ['n', 'u', 'l', 'l'] from by simp [renderJson]]
            simp only [List.cons_append, List.nil_append]
            exact pv_null f X
        | bool b =>
            cases b
            · rw [show renderJson (Json.bool false) = ['f', 'a', 'l', 's', 'e'] from by
                simp [renderJson]]
              simp only [List.cons_append, List.nil_append]
              exact pv_false f X
            · rw [show renderJson (Json.bool true) = ['t', 'r', 'u', 'e'] from by
                simp [renderJson]]
              simp only [List.cons_append, List.nil_append]
              exact pv_true f X
        | str s =>
            rw [show renderJson (Json.str s) = '"' :: (s.flatMap jstrEscChar ++ ['"'])
              from by simp [renderJson, renderJStr]]
            rw [List.cons_append, pv_quote]
            rw [show (s.flatMap jstrEscChar ++ ['"']) ++ X
              = s.flatMap jstrEscChar ++ '"' :: X from by simp]
            rw [parseStringBody_render s [] X]
            simp
        | num lex =>
            simp only [JsonWF] at hWF
            have hrn := parseNumLex_render lex X hWF hX
            obtain ⟨c0, r0, he0, h1, h2, h3, h4, h5, h6⟩ :
                ∃ c0 r0, lex = c0 :: r0 ∧ c0 ≠ '"' ∧ c0 ≠ '{' ∧ c0 ≠ '[' ∧ c0 ≠ 't'
                  ∧ c0 ≠ 'f' ∧ c0 ≠ 'n' := by
              obtain ⟨neg, ip, fr, ex, rfl, hneg, hip, hfr, hex⟩ := hWF
              rcases hneg with rfl | rfl
              · rcases hip with rfl | ⟨c, ds, hc, hds, rfl⟩
                · exact ⟨'0', fr ++ ex, by simp, by decide, by decide, by decide,
                    by decide, by decide, by decide⟩
                · refine ⟨c, ds ++ (fr ++ ex), by simp, ?_, ?_, ?_, ?_, ?_, ?_⟩ <;>
                    · intro h
                      subst h
                      first
                        | exact absurd hc.1 (by decide)
                        | exact absurd hc.2 (by decide)
              · exact ⟨'-', ip ++ (fr ++ ex), by simp, by decide, by decide, by decide,
                  by decide, by decide, by decide⟩
            rw [show renderJson (Json.num lex) = lex from by simp [renderJson], he0,
              List.cons_append, pv_default f c0 (r0 ++ X) h1 h2 h3 h4 h5 h6,
              ← List.cons_append, ← he0, hrn]
        | arr es =>
            cases es with
            | nil =>
                rw [show renderJson (Json.arr []) = ['[', ']'] from by simp [renderJson]]
                simp only [List.cons_append, List.nil_append]
                rw [pv_arr, skipWs_cons_of_neg (by decide)]
                simp
            | cons v vs =>
                simp only [JsonWF] at hWF
                have hWFe := hWF
                simp only [ElemsWF] at hWFe
                rw [show renderJson (Json.arr (v :: vs)) = '[' :: renderArrBody v vs
                  from by simp [renderJson]]
                rw [List.cons_append, pv_arr]
                obtain ⟨c, cs, hcons, hws, hbr, hbr2⟩ := renderJson_head v hWFe.1
                obtain ⟨M, hM⟩ : ∃ M, renderArrBody v vs = renderJson v ++ M :=
                  ⟨_, renderArrBody_shape v vs⟩
                have hshape : renderArrBody v vs ++ X = c :: (cs ++ (M ++ X)) := by
                  rw [hM, hcons]
                  simp
                rw [hshape, skipWs_cons_of_neg hws]
                dsimp only
                rw [if_neg hbr, ← hshape]
                have hfe : elemsFuel v vs ≤ f := by
                  have hj : jsonFuel (Json.arr (v :: vs)) = 1 + elemsFuel v vs := by
                    simp [jsonFuel]
                  omega
                have hres := ihe v vs [] X hWF hfe
                simpa using hres
        | obj ms =>
            cases ms with
            | nil =>
                rw [show renderJson (Json.obj []) = ['{', '}'] from by simp [renderJson]]
                simp only [List.cons_append, List.nil_append]
                rw [pv_obj, skipWs_cons_of_neg (by decide)]
                simp
            | cons m ms =>
                obtain ⟨k, v⟩ := m
                simp only [JsonWF] at hWF
                rw [show renderJson (Json.obj ((k, v) :: ms))
                  = '{' :: renderObjBody (k, v) ms from by simp [renderJson]]
                rw [List.cons_append, pv_obj]
                obtain ⟨B, hB⟩ : ∃ B, renderObjBody (k, v) ms = '"' :: B :=
                  ⟨_, renderObjBody_shape k v ms⟩
                have hshape : renderObjBody (k, v) ms ++ X = '"' :: (B ++ X) := by
                  rw [hB, List.cons_append]
                rw [hshape, skipWs_cons_of_neg (by decide)]
                dsimp only
                rw [if_neg (by decide : ¬('"' : Char) = '}'), ← hshape]
                have hfm : membersFuel (k, v) ms ≤ f := by
                  have hj : jsonFuel (Json.obj ((k, v) :: ms))
                      = 1 + membersFuel (k, v) ms := by
                    simp [jsonFuel]
                  omega
                have hres := ihm k v ms [] X hWF hfm
                simpa using hres
      · intro k v ms acc X hWF hfm
        simp only [MembersWF] at hWF
        obtain ⟨c, cs, hcons, hws, hbr, hbr2⟩ := renderJson_head v hWF.1
        cases ms with
        | nil =>
            rw [membersFuel_eq] at hfm
            dsimp only at hfm
            rw [Nat.max_zero] at hfm
            have hfv : jsonFuel v ≤ f := by omega
            rw [show renderObjBody (k, v) [] ++ X
                = '"' :: ((k.flatMap jstrEscChar)
                    ++ '"' :: ':' :: (renderJson v ++ ('}' :: X))) from by
              rw [renderObjBody_shape]
              simp]
            rw [pm_succ, if_pos rfl, parseStringBody_render k []]
            dsimp only
            rw [skipWs_cons_of_neg (by decide)]
            dsimp only
            rw [if_pos rfl]
            have hskip : skipWs (renderJson v ++ ('}' :: X))
                = renderJson v ++ ('}' :: X) := by
              rw [hcons, List.cons_append, skipWs_cons_of_neg hws, ← List.cons_append,
                ← hcons]
            rw [hskip, ihv v ('}' :: X) hWF.1 hfv (by simp only [HeadNot]; decide)]
            dsimp only
            rw [skipWs_cons_of_neg (by decide)]
            dsimp only
            rw [if_neg (by decide : ¬('}' : Char) = ','), if_pos rfl]
            simp
        | cons m2 ms2 =>
            obtain ⟨k2, v2⟩ := m2
            rw [membersFuel_eq] at hfm
            dsimp only at hfm
            have hle1 := le_max_left (jsonFuel v) (membersFuel (k2, v2) ms2)
            have hle2 := le_max_right (jsonFuel v) (membersFuel (k2, v2) ms2)
            have hfv : jsonFuel v ≤ f := by omega
            have hfm2 : membersFuel (k2, v2) ms2 ≤ f := by omega
            rw [show renderObjBody (k, v) ((k2, v2) :: ms2) ++ X
                = '"' :: ((k.flatMap jstrEscChar)
                    ++ '"' :: ':' :: (renderJson v
                      ++ (',' :: (renderObjBody (k2, v2) ms2 ++ X)))) from by
              rw [renderObjBody_shape]
              simp]
            rw [pm_succ, if_pos rfl, parseStringBody_render k []]
            dsimp only
            rw [skipWs_cons_of_neg (by decide)]
            dsimp only
            rw [if_pos rfl]
            have hskip : skipWs (renderJson v ++ (',' :: (renderObjBody (k2, v2) ms2 ++ X)))
                = renderJson v ++ (',' :: (renderObjBody (k2, v2) ms2 ++ X)) := by
              rw [hcons, List.cons_append, skipWs_cons_of_neg hws, ← List.cons_append,
                ← hcons]
            rw [hskip, ihv v _ hWF.1 hfv (by simp only [HeadNot]; decide)]
            dsimp only
            rw [skipWs_cons_of_neg (by decide)]
            dsimp only
            rw [if_pos rfl]
            have hskip2 : skipWs (renderObjBody (k2, v2) ms2 ++ X)
                = renderObjBody (k2, v2) ms2 ++ X := by
              obtain ⟨B2, hB2⟩ : ∃ B2, renderObjBody (k2, v2) ms2 = '"' :: B2 :=
                ⟨_, renderObjBody_shape k2 v2 ms2⟩
              have hsh2 : renderObjBody (k2, v2) ms2 ++ X = '"' :: (B2 ++ X) := by
                rw [hB2, List.cons_append]
              rw [hsh2, skipWs_cons_of_neg (by decide)]
            simp only [List.reverse_nil, List.nil_append]
            rw [hskip2, ihm k2 v2 ms2 ((k, v) :: acc) X hWF.2 hfm2]
            simp
      · intro v vs acc X hWF hfe
        simp only [ElemsWF] at hWF
        obtain ⟨c, cs, hcons, hws, hbr, hbr2⟩ := renderJson_head v hWF.1
        cases vs with
        | nil =>
            rw [elemsFuel_eq] at hfe
            dsimp only at hfe
            rw [Nat.max_zero] at hfe
            have hfv : jsonFuel v ≤ f := by omega
            rw [show renderArrBody v [] ++ X = renderJson v ++ (']' :: X) from by
              rw [renderArrBody_shape]
              simp]
            rw [pe_succ, ihv v (']' :: X) hWF.1 hfv (by simp only [HeadNot]; decide)]
            dsimp only
            rw [skipWs_cons_of_neg (by decide)]
            dsimp only
            rw [if_neg (by decide : ¬(']' : Char) = ','), if_pos rfl]
            simp
        | cons w ws =>
            rw [elemsFuel_eq] at hfe
            dsimp only at hfe
            have hle1 := le_max_left (jsonFuel v) (elemsFuel w ws)
            have hle2 := le_max_right (jsonFuel v) (elemsFuel w ws)
            have hfv : jsonFuel v ≤ f := by omega
            have hfe2 : elemsFuel w ws ≤ f := by omega
            have hWF2 := hWF.2
            simp only [ElemsWF] at hWF2
            rw [show renderArrBody v (w :: ws) ++ X
                = renderJson v ++ (',' :: (renderArrBody w ws ++ X)) from by
              rw [renderArrBody_shape]
              simp]
            rw [pe_succ, ihv v _ hWF.1 hfv (by simp only [HeadNot]; decide)]
            dsimp only
            rw [skipWs_cons_of_neg (by decide)]
            dsimp only
            rw [if_pos rfl]
            have hskip2 : skipWs (renderArrBody w ws ++ X) = renderArrBody w ws ++ X := by
              obtain ⟨c2, cs2, hcons2, hws2, hx1, hx2⟩ := renderJson_head w hWF2.1
              obtain ⟨M2, hM2⟩ : ∃ M2, renderArrBody w ws = renderJson w ++ M2 :=
                ⟨_, renderArrBody_shape w ws⟩
              have hsh2 : renderArrBody w ws ++ X = c2 :: (cs2 ++ (M2 ++ X)) := by
                rw [hM2, hcons2]
                simp
              rw [hsh2, skipWs_cons_of_neg hws2]
            rw [hskip2, ihe w ws (v :: acc) X hWF.2 hfe2]
            simp

/-! ### Prefix failure on incomplete buffers -/

/-- Values other than numbers (whose rendering prefix-parses differently). -/
def NonNum : Json → Prop
  | .num _ => False
  | _ => True

lemma numLex_head (lex : List Char) (hWF : NumLexWF lex) :
    ∃ c0 r0, lex = c0 :: r0 ∧ c0 ≠ '"' ∧ c0 ≠ '{' ∧ c0 ≠ '[' ∧ c0 ≠ 't'
      ∧ c0 ≠ 'f' ∧ c0 ≠ 'n' := by
  obtain ⟨neg, ip, fr, ex, rfl, hneg, hip, hfr, hex⟩ := hWF
  rcases hneg with rfl | rfl
  · rcases hip with rfl | ⟨c, ds, hc, hds, rfl⟩
    · exact ⟨'0', fr ++ ex, by simp, by decide, by decide, by decide,
        by decide, by decide, by decide⟩
    · refine ⟨c, ds ++ (fr ++ ex), by simp, ?_, ?_, ?_, ?_, ?_, ?_⟩ <;>
        · intro h
          subst h
          first
            | exact absurd hc.1 (by decide)
            | exact absurd hc.2 (by decide)
  · exact ⟨'-', ip ++ (fr ++ ex), by simp, by decide, by decide, by decide,
      by decide, by decide, by decide⟩

/-- Parsing a prefix of a number lexeme either fails or produces a number
value with a loop-rejected remainder. -/
lemma pv_num_cut (f : Nat) (W Q lex : List Char) (hWF : NumLexWF lex)
    (hsplit : W ++ Q = lex) :
    parseValue f W = none
      ∨ ∃ u r, parseValue f W = some (Json.num u, r) ∧ SmallRem r := by
  cases W with
  | nil => exact Or.inl (pv_nil f)
  | cons c W4 =>
      cases f with
      | zero => exact Or.inl (pv_zero _)
      | succ f2 =>
          obtain ⟨c0, r0, hlex, h1, h2, h3, h4, h5, h6⟩ := numLex_head lex hWF
          rw [hlex, List.cons_append] at hsplit
          have hc : c = c0 := by
            have := congrArg (fun l => l.headI) hsplit
            simpa using this
          subst hc
          rw [pv_default f2 c W4 h1 h2 h3 h4 h5 h6]
          rw [← List.cons_append] at hsplit
          rw [← hlex] at hsplit
          rcases parseNumLex_cut lex (c :: W4) Q hWF hsplit with hnone |
            ⟨u, r, hsome, hrem⟩
          · rw [hnone]
            exact Or.inl rfl
          · rw [hsome]
            exact Or.inr ⟨u, r, rfl, hrem⟩

/-- A successful parse of `renderJson v ++ W` must be `(v, W)` itself. -/
lemma pv_render_unique (f : Nat) (v : Json) (W : List Char) (hWF : JsonWF v)
    (hHN : HeadNot isNumCont W) (u : Json) (r : List Char)
    (h : parseValue f (renderJson v ++ W) = some (u, r)) : u = v ∧ r = W := by
  have hF : parseValue (max f (jsonFuel v)) (renderJson v ++ W) = some (u, r) :=
    (parse_mono f).1 _ _ _ (le_max_left _ _) h
  have hR := (parse_render (max f (jsonFuel v))).1 v W hWF (le_max_right _ _) hHN
  rw [hF] at hR
  injection hR with hR
  exact ⟨congrArg Prod.fst hR, congrArg Prod.snd hR⟩

/-- Prefix failure: a strict prefix of a rendered value (other than a bare
number) never parses; the member and element loops likewise fail on strict
prefixes of their renderings. -/
theorem parse_cut : ∀ fuel : Nat,
    (∀ (v : Json) (W Q : List Char), JsonWF v → NonNum v → W ++ Q = renderJson v →
        Q ≠ [] → parseValue fuel W = none)
    ∧ (∀ (k : List Char) (v : Json) (ms : List (List Char × Json))
        (acc : List (List Char × Json)) (W Q : List Char), MembersWF ((k, v) :: ms) →
        W ++ Q = renderObjBody (k, v) ms → Q ≠ [] → parseMembers fuel W acc = none)
    ∧ (∀ (v : Json) (vs : List Json) (acc : List Json) (W Q : List Char),
        ElemsWF (v :: vs) → W ++ Q = renderArrBody v vs → Q ≠ [] →
        parseElems fuel W acc = none) := by
  intro fuel
  induction fuel with
  | zero =>
      exact ⟨fun _ _ _ _ _ _ _ => pv_zero _,
        fun _ _ _ acc _ _ _ _ _ => pm_zero _ acc,
        fun _ _ acc _ _ _ _ _ => pe_zero _ acc⟩
  | succ f ih =>
      obtain ⟨ihv, ihm, ihe⟩ := ih
      refine ⟨?_, ?_, ?_⟩
      · intro v W Q hWF hNN hsplit hQne
        cases v with
        | num lex => simp [NonNum] at hNN
        | null =>
            rw [show renderJson Json.null = ['n', 'u', 'l', 'l'] from by
              simp [renderJson]] at hsplit
            rcases W with _ | ⟨w1, _ | ⟨w2, _ | ⟨w3, _ | ⟨w4, W5⟩⟩⟩⟩
            · exact pv_nil _
            · simp only [List.cons_append, List.nil_append] at hsplit
              injection hsplit with e1 e2
              subst e1
              rw [pv_n]
            · simp only [List.cons_append, List.nil_append] at hsplit
              injection hsplit with e1 e2
              injection e2 with e2 e3
              subst e1; subst e2
              rw [pv_n]
            · simp only [List.cons_append, List.nil_append] at hsplit
              injection hsplit with e1 e2
              injection e2 with e2 e3
              injection e3 with e3 e4
              subst e1; subst e2; subst e3
              rw [pv_n]
            · exfalso
              have hlen := congrArg List.length hsplit
              simp only [List.length_append, List.length_cons, List.length_nil] at hlen
              have hQpos : 0 < Q.length := List.length_pos.mpr hQne
              omega
        | bool b =>
            cases b
            · rw [show renderJson (Json.bool false) = ['f', 'a', 'l', 's', 'e'] from by
                simp [renderJson]] at hsplit
              rcases W with _ | ⟨w1, _ | ⟨w2, _ | ⟨w3, _ | ⟨w4, _ | ⟨w5, W6⟩⟩⟩⟩⟩
              · exact pv_nil _
              · simp only [List.cons_append, List.nil_append] at hsplit
                injection hsplit with e1 e2
                subst e1
                rw [pv_f]
              · simp only [List.cons_append, List.nil_append] at hsplit
                injection hsplit with e1 e2
                injection e2 with e2 e3
                subst e1; subst e2
                rw [pv_f]
              · simp only [List.cons_append, List.nil_append] at hsplit
                injection hsplit with e1 e2
                injection e2 with e2 e3
                injection e3 with e3 e4
                subst e1; subst e2; subst e3
                rw [pv_f]
              · simp only [List.cons_append, List.nil_append] at hsplit
                injection hsplit with e1 e2
                injection e2 with e2 e3
                injection e3 with e3 e4
                injection e4 with e4 e5
                subst e1; subst e2; subst e3; subst e4
                rw [pv_f]
              · exfalso
                have hlen := congrArg List.length hsplit
                simp only [List.length_append, List.length_cons, List.length_nil] at hlen
                have hQpos : 0 < Q.length := List.length_pos.mpr hQne
                omega
            · rw [show renderJson (Json.bool true) = ['t', 'r', 'u', 'e'] from by
                simp [renderJson]] at hsplit
              rcases W with _ | ⟨w1, _ | ⟨w2, _ | ⟨w3, _ | ⟨w4, W5⟩⟩⟩⟩
              · exact pv_nil _
              · simp only [List.cons_append, List.nil_append] at hsplit
                injection hsplit with e1 e2
                subst e1
                rw [pv_t]
              · simp only [List.cons_append, List.nil_append] at hsplit
                injection hsplit with e1 e2
                injection e2 with e2 e3
                subst e1; subst e2
                rw [pv_t]
              · simp only [List.cons_append, List.nil_append] at hsplit
                injection hsplit with e1 e2
                injection e2 with e2 e3
                injection e3 with e3 e4
                subst e1; subst e2; subst e3
                rw [pv_t]
              · exfalso
                have hlen := congrArg List.length hsplit
                simp only [List.length_append, List.length_cons, List.length_nil] at hlen
                have hQpos : 0 < Q.length := List.length_pos.mpr hQne
                omega
        | str s =>
            rw [show renderJson (Json.str s) = '"' :: (s.flatMap jstrEscChar ++ ['"'])
              from by simp [renderJson, renderJStr]] at hsplit
            cases W with
            | nil => exact pv_nil _
            | cons w W1 =>
                rw [List.cons_append] at hsplit
                injection hsplit with e1 e2
                subst e1
                rw [pv_quote, parseStringBody_cut s [] W1 Q e2 hQne]
        | arr es =>
            cases es with
            | nil =>
                rw [show renderJson (Json.arr []) = ['[', ']'] from by
                  simp [renderJson]] at hsplit
                rcases W with _ | ⟨w1, _ | ⟨w2, W3⟩⟩
                · exact pv_nil _
                · simp only [List.cons_append, List.nil_append] at hsplit
                  injection hsplit with e1 e2
                  subst e1
                  rw [pv_arr]
                  simp [skipWs, pe_nil]
                · exfalso
                  have hlen := congrArg List.length hsplit
                  simp only [List.length_append, List.length_cons, List.length_nil] at hlen
                  have hQpos : 0 < Q.length := List.length_pos.mpr hQne
                  omega
            | cons v vs =>
                simp only [JsonWF] at hWF
                have hWF2 := hWF
                simp only [ElemsWF] at hWF2
                rw [show renderJson (Json.arr (v :: vs)) = '[' :: renderArrBody v vs
                  from by simp [renderJson]] at hsplit
                cases W with
                | nil => exact pv_nil _
                | cons w W1 =>
                    rw [List.cons_append] at hsplit
                    injection hsplit with e1 e2
                    subst e1
                    rw [pv_arr]
                    cases W1 with
                    | nil => simp [skipWs, pe_nil]
                    | cons c1 W2 =>
                        obtain ⟨c, cs, hcons, hws, hbr, hbr2⟩ := renderJson_head v hWF2.1
                        obtain ⟨M, hM⟩ : ∃ M, renderArrBody v vs = renderJson v ++ M :=
                          ⟨_, renderArrBody_shape v vs⟩
                        have hc1 : c1 = c := by
                          rw [hM, hcons] at e2
                          have hh := congrArg List.headI e2
                          simpa using hh
                        subst hc1
                        rw [skipWs_cons_of_neg hws]
                        dsimp only
                        rw [if_neg hbr]
                        exact ihe v vs [] (c1 :: W2) Q hWF e2 hQne
        | obj ms =>
            cases ms with
            | nil =>
                rw [show renderJson (Json.obj []) = ['{', '}'] from by
                  simp [renderJson]] at hsplit
                rcases W with _ | ⟨w1, _ | ⟨w2, W3⟩⟩
                · exact pv_nil _
                · simp only [List.cons_append, List.nil_append] at hsplit
                  injection hsplit with e1 e2
                  subst e1
                  rw [pv_obj]
                  simp [skipWs, pm_nil]
                · exfalso
                  have hlen := congrArg List.length hsplit
                  simp only [List.length_append, List.length_cons, List.length_nil] at hlen
                  have hQpos : 0 < Q.length := List.length_pos.mpr hQne
                  omega
            | cons m ms2 =>
                obtain ⟨k, v⟩ := m
                simp only [JsonWF] at hWF
                rw [show renderJson (Json.obj ((k, v) :: ms2))
                  = '{' :: renderObjBody (k, v) ms2 from by simp [renderJson]] at hsplit
                cases W with
                | nil => exact pv_nil _
                | cons w W1 =>
                    rw [List.cons_append] at hsplit
                    injection hsplit with e1 e2
                    subst e1
                    rw [pv_obj]
                    cases W1 with
                    | nil => simp [skipWs, pm_nil]
                    | cons c1 W2 =>
                        have hc1 : c1 = '"' := by
                          rw [renderObjBody_shape] at e2
                          have hh := congrArg List.headI e2
                          simpa using hh
                        subst hc1
                        rw [skipWs_cons_of_neg (by decide)]
                        dsimp only
                        rw [if_neg (by decide : ¬('"' : Char) = '}')]
                        exact ihm k v ms2 [] ('"' :: W2) Q hWF e2 hQne
      · intro k v ms acc W Q hWF hsplit hQne
        simp only [MembersWF] at hWF
        obtain ⟨M, hMdef, hMcase⟩ :
            ∃ M, renderObjBody (k, v) ms
                = '"' :: ((k.flatMap jstrEscChar ++ ['"']) ++ ':' :: (renderJson v ++ M))
              ∧ ((ms = [] ∧ M = ['}'])
                ∨ ∃ k2 v2 ms2, ms = (k2, v2) :: ms2
                    ∧ M = ',' :: renderObjBody (k2, v2) ms2) := by
          cases ms with
          | nil =>
              refine ⟨['}'], ?_, Or.inl ⟨rfl, rfl⟩⟩
              rw [renderObjBody_shape]
          | cons m2 ms2 =>
              obtain ⟨k2, v2⟩ := m2
              refine ⟨',' :: renderObjBody (k2, v2) ms2, ?_,
                Or.inr ⟨k2, v2, ms2, rfl, rfl⟩⟩
              rw [renderObjBody_shape]
        rw [hMdef] at hsplit
        cases W with
        | nil => exact pm_nil _ acc
        | cons w W1 =>
            rw [List.cons_append] at hsplit
            injection hsplit with e1 e2
            subst e1
            rw [pm_succ, if_pos rfl]
            rcases List.append_eq_append_iff.mp e2 with ⟨a, hka, hQa⟩ | ⟨W2, hW1, hZ⟩
            · rcases a with _ | ⟨a1, a2⟩
              · rw [List.append_nil] at hka
                rw [← hka, parseStringBody_render k [] []]
                dsimp only
                simp [skipWs]
              · rw [parseStringBody_cut k [] W1 (a1 :: a2) hka.symm (by simp)]
            · subst hW1
              rw [show (k.flatMap jstrEscChar ++ ['"']) ++ W2
                  = k.flatMap jstrEscChar ++ '"' :: W2 from by simp]
              rw [parseStringBody_render k [] W2]
              dsimp only
              cases W2 with
              | nil => simp [skipWs]
              | cons w2 W3 =>
                  rw [List.cons_append] at hZ
                  have hZ2 := hZ.symm
                  injection hZ2 with x1 x2
                  subst x1
                  rw [skipWs_cons_of_neg (by decide)]
                  dsimp only
                  rw [if_pos rfl]
                  cases W3 with
                  | nil => simp [skipWs, pv_nil]
                  | cons c3 W4 =>
                      obtain ⟨c, cs, hcons, hws, hbr, hbr2⟩ := renderJson_head v hWF.1
                      have hc3 : c3 = c := by
                        have hx := x2
                        rw [hcons, List.cons_append] at hx
                        have hh := congrArg List.headI hx
                        simpa using hh
                      subst hc3
                      rw [skipWs_cons_of_neg hws]
                      rcases List.append_eq_append_iff.mp x2 with
                        ⟨a2, hra, hQa2⟩ | ⟨W5, hW3x, hM5⟩
                      · rcases a2 with _ | ⟨b1, b2⟩
                        · rw [List.append_nil] at hra
                          rcases hpv : parseValue f (c3 :: W4) with _ | ⟨u, r⟩
                          · rfl
                          · have hpv2 : parseValue f (renderJson v ++ []) = some (u, r) := by
                              rw [List.append_nil, hra]
                              exact hpv
                            obtain ⟨rfl, rfl⟩ :=
                              pv_render_unique f v [] hWF.1 trivial u r hpv2
                            dsimp only
                            simp [skipWs]
                        · have hspl : (c3 :: W4) ++ (b1 :: b2) = renderJson v := hra.symm
                          by_cases hnum : ∃ lex, v = Json.num lex
                          · obtain ⟨lex, rfl⟩ := hnum
                            have hnl : NumLexWF lex := by
                              have hh := hWF.1
                              simpa [JsonWF] using hh
                            have hrl : renderJson (Json.num lex) = lex := by
                              simp [renderJson]
                            rw [hrl] at hspl
                            rcases pv_num_cut f (c3 :: W4) (b1 :: b2) lex hnl hspl with
                              hnone | ⟨u, r, hsome, hrem⟩
                            · rw [hnone]
                            · rw [hsome]
                              dsimp only
                              rcases hrem with rfl | ⟨cr, r2, rfl, hcr⟩
                              · simp [skipWs]
                              · have hwsr : isWs cr = false := by
                                  rcases hcr with rfl | rfl | rfl <;> decide
                                rw [skipWs_cons_of_neg hwsr]
                                dsimp only
                                rw [if_neg (by rcases hcr with rfl | rfl | rfl <;> decide),
                                  if_neg (by rcases hcr with rfl | rfl | rfl <;> decide)]
                          · have hNN : NonNum v := by
                              cases v with
                              | num lex => exact absurd ⟨lex, rfl⟩ hnum
                              | null => trivial
                              | bool b => trivial
                              | str s => trivial
                              | arr es => trivial
                              | obj ms3 => trivial
                            rw [ihv v (c3 :: W4) (b1 :: b2) hWF.1 hNN hspl (by simp)]
                      · rcases hpv : parseValue f (c3 :: W4) with _ | ⟨u, r⟩
                        · rfl
                        · have hHN : HeadNot isNumCont W5 := by
                            cases W5 with
                            | nil => trivial
                            | cons w5 W6 =>
                                rcases hMcase with ⟨hms, rfl⟩ | ⟨k2, v2, ms2, hms, rfl⟩
                                · rw [List.cons_append] at hM5
                                  injection hM5 with y1 y2
                                  subst y1
                                  simp only [HeadNot]
                                  decide
                                · rw [List.cons_append] at hM5
                                  injection hM5 with y1 y2
                                  subst y1
                                  simp only [HeadNot]
                                  decide
                          have hpv2 : parseValue f (renderJson v ++ W5) = some (u, r) := by
                            rw [← hW3x]
                            exact hpv
                          obtain ⟨rfl, rfl⟩ :=
                            pv_render_unique f v W5 hWF.1 hHN u r hpv2
                          dsimp only
                          rcases hMcase with ⟨hms, rfl⟩ | ⟨k2, v2, ms2, hms, rfl⟩
                          · cases r with
                            | nil => simp [skipWs]
                            | cons w5 W6 =>
                                rw [List.cons_append] at hM5
                                injection hM5 with y1 y2
                                exact absurd (List.append_eq_nil.mp y2.symm).2 hQne
                          · subst hms
                            cases r with
                            | nil => simp [skipWs]
                            | cons w5 W6 =>
                                rw [List.cons_append] at hM5
                                injection hM5 with y1 y2
                                have hw5 : w5 = ',' := y1.symm
                                subst hw5
                                rw [skipWs_cons_of_neg (by decide)]
                                dsimp only
                                rw [if_pos rfl]
                                cases W6 with
                                | nil => simp [skipWs, pm_nil]
                                | cons w6 W7 =>
                                    have hw6 : w6 = '"' := by
                                      rw [renderObjBody_shape] at y2
                                      have hh := congrArg List.headI y2
                                      simpa using hh.symm
                                    subst hw6
                                    rw [skipWs_cons_of_neg (by decide)]
                                    exact ihm k2 v2 ms2 _ ('"' :: W7) Q hWF.2 y2.symm hQne
      · intro v vs acc W Q hWF hsplit hQne
        simp only [ElemsWF] at hWF
        obtain ⟨M, hMdef, hMcase⟩ :
            ∃ M, renderArrBody v vs = renderJson v ++ M
              ∧ ((vs = [] ∧ M = [']'])
                ∨ ∃ w ws, vs = w :: ws ∧ M = ',' :: renderArrBody w ws) := by
          cases vs with
          | nil => exact ⟨[']'], renderArrBody_shape v [], Or.inl ⟨rfl, rfl⟩⟩
          | cons w ws =>
              exact ⟨',' :: renderArrBody w ws, renderArrBody_shape v (w :: ws),
                Or.inr ⟨w, ws, rfl, rfl⟩⟩
        rw [hMdef] at hsplit
        rw [pe_succ]
        rcases List.append_eq_append_iff.mp hsplit with ⟨a2, hra, hQa2⟩ | ⟨W5, hWx, hM5⟩
        · rcases a2 with _ | ⟨b1, b2⟩
          · rw [List.append_nil] at hra
            rcases hpv : parseValue f W with _ | ⟨u, r⟩
            · rfl
            · have hpv2 : parseValue f (renderJson v ++ []) = some (u, r) := by
                rw [List.append_nil, hra]
                exact hpv
              obtain ⟨rfl, rfl⟩ := pv_render_unique f v [] hWF.1 trivial u r hpv2
              dsimp only
              simp [skipWs]
          · have hspl : W ++ (b1 :: b2) = renderJson v := hra.symm
            by_cases hnum : ∃ lex, v = Json.num lex
            · obtain ⟨lex, rfl⟩ := hnum
              have hnl : NumLexWF lex := by
                have hh := hWF.1
                simpa [JsonWF] using hh
              have hrl : renderJson (Json.num lex) = lex := by simp [renderJson]
              rw [hrl] at hspl
              rcases pv_num_cut f W (b1 :: b2) lex hnl hspl with
                hnone | ⟨u, r, hsome, hrem⟩
              · rw [hnone]
              · rw [hsome]
                dsimp only
                rcases hrem with rfl | ⟨cr, r2, rfl, hcr⟩
                · simp [skipWs]
                · have hwsr : isWs cr = false := by
                    rcases hcr with rfl | rfl | rfl <;> decide
                  rw [skipWs_cons_of_neg hwsr]
                  dsimp only
                  rw [if_neg (by rcases hcr with rfl | rfl | rfl <;> decide),
                    if_neg (by rcases hcr with rfl | rfl | rfl <;> decide)]
            · have hNN : NonNum v := by
                cases v with
                | num lex => exact absurd ⟨lex, rfl⟩ hnum
                | null => trivial
                | bool b => trivial
                | str s => trivial
                | arr es => trivial
                | obj ms3 => trivial
              rw [ihv v W (b1 :: b2) hWF.1 hNN hspl (by simp)]
        · rcases hpv : parseValue f W with _ | ⟨u, r⟩
          · rfl
          · have hHN : HeadNot isNumCont W5 := by
              cases W5 with
              | nil => trivial
              | cons w5 W6 =>
                  rcases hMcase with ⟨hvs, rfl⟩ | ⟨w, ws, hvs, rfl⟩
                  · rw [List.cons_append] at hM5
                    injection hM5 with y1 y2
                    subst y1
                    simp only [HeadNot]
                    decide
                  · rw [List.cons_append] at hM5
                    injection hM5 with y1 y2
                    subst y1
                    simp only [HeadNot]
                    decide
            have hpv2 : parseValue f (renderJson v ++ W5) = some (u, r) := by
              rw [← hWx]
              exact hpv
            obtain ⟨rfl, rfl⟩ := pv_render_unique f v W5 hWF.1 hHN u r hpv2
            dsimp only
            rcases hMcase with ⟨hvs, rfl⟩ | ⟨w, ws, hvs, rfl⟩
            · cases r with
              | nil => simp [skipWs]
              | cons w5 W6 =>
                  rw [List.cons_append] at hM5
                  injection hM5 with y1 y2
                  exact absurd (List.append_eq_nil.mp y2.symm).2 hQne
            · subst hvs
              have hWFe := hWF.2
              simp only [ElemsWF] at hWFe
              cases r with
              | nil => simp [skipWs]
              | cons w5 W6 =>
                  rw [List.cons_append] at hM5
                  injection hM5 with y1 y2
                  have hw5 : w5 = ',' := y1.symm
                  subst hw5
                  rw [skipWs_cons_of_neg (by decide)]
                  dsimp only
                  rw [if_pos rfl]
                  cases W6 with
                  | nil => simp [skipWs, pe_nil]
                  | cons w6 W7 =>
                      obtain ⟨c2, cs2, hcons2, hws2, hz1, hz2⟩ :=
                        renderJson_head w hWFe.1
                      have hw6 : w6 = c2 := by
                        obtain ⟨M2, hM2⟩ : ∃ M2, renderArrBody w ws = renderJson w ++ M2 :=
                          ⟨_, renderArrBody_shape w ws⟩
                        have hy := y2
                        rw [hM2, hcons2] at hy
                        have hh := congrArg List.headI hy
                        simpa using hh.symm
                      subst hw6
                      rw [skipWs_cons_of_neg hws2]
                      exact ihe w ws _ (w6 :: W7) Q hWF.2 y2.symm hQne

/-! ### Well-formed stream payloads -/

/-- A separator run: whitespace, `[` and `,` only. -/
def SepOk (sep : List Char) : Prop := ∀ c ∈ sep, isSep c = true

/-- The stream's trailing text: whitespace, optionally with one closing `]`. -/
def TailWF (tail : List Char) : Prop :=
  (∀ c ∈ tail, isWs c = true)
    ∨ ∃ w r, tail = w ++ ']' :: r ∧ (∀ c ∈ w, isWs c = true) ∧ (∀ c ∈ r, isWs c = true)

/-- A complete payload: separator-prefixed object texts followed by the tail. -/
def renderStream : List (List Char × Json) → List Char → List Char
  | [], tail => tail
  | (sep, o) :: rest, tail => sep ++ (renderJson o ++ renderStream rest tail)

/-- Well-formed stream: every item is a separator run plus a well-formed
JSON object, and the tail is whitespace with an optional `]`. -/
def StreamWF (items : List (List Char × Json)) (tail : List Char) : Prop :=
  (∀ it ∈ items, SepOk it.1 ∧ (∃ ms, it.2 = Json.obj ms) ∧ JsonWF it.2) ∧ TailWF tail

lemma skipWs_all {l : List Char} (h : ∀ c ∈ l, isWs c = true) : skipWs l = [] := by
  unfold skipWs
  induction l with
  | nil => rfl
  | cons c t ihl =>
      rw [List.dropWhile_cons_of_pos (h c (List.mem_cons_self _ _))]
      exact ihl (fun x hx => h x (List.mem_cons_of_mem _ hx))

lemma isSep_of_isWs {c : Char} (h : isWs c = true) : isSep c = true := by
  unfold isSep
  simp [h]

lemma isSep_not_numCont {c : Char} (h : isSep c = true) : isNumCont c = false := by
  unfold isSep at h
  unfold isWs at h
  simp only [Bool.or_eq_true, decide_eq_true_eq] at h
  rcases h with ((((h | h) | h) | h) | h) | h <;> subst h <;> decide

lemma renderJson_obj_head (ms : List (List Char × Json)) :
    ∃ B, renderJson (Json.obj ms) = '{' :: B := by
  cases ms with
  | nil => exact ⟨['}'], by simp [renderJson]⟩
  | cons m ms2 => exact ⟨renderObjBody m ms2, by simp [renderJson]⟩

lemma tailWF_skipWs {tail : List Char} (h : TailWF tail) :
    skipWs tail = [] ∨ ∃ r, skipWs tail = ']' :: r ∧ (∀ c ∈ r, isWs c = true) := by
  rcases h with hws | ⟨w, r, rfl, hw, hr⟩
  · exact Or.inl (skipWs_all hws)
  · right
    refine ⟨r, ?_, hr⟩
    rw [show skipWs (w ++ ']' :: r) = skipWs (']' :: r) from skipWs_ws_append hw,
      skipWs_cons_of_neg (by decide)]

lemma tailWF_headNot {tail : List Char} (h : TailWF tail) :
    HeadNot isNumCont tail := by
  rcases h with hws | ⟨w, r, rfl, hw, hr⟩
  · cases tail with
    | nil => trivial
    | cons c t =>
        simp only [HeadNot]
        exact isSep_not_numCont (isSep_of_isWs (hws c (List.mem_cons_self _ _)))
  · cases w with
    | nil =>
        simp only [List.nil_append, HeadNot]
        decide
    | cons c t =>
        simp only [List.cons_append, HeadNot]
        exact isSep_not_numCont (isSep_of_isWs (hw c (List.mem_cons_self _ _)))

lemma renderStream_headNot (items : List (List Char × Json)) (tail : List Char)
    (hWF : StreamWF items tail) : HeadNot isNumCont (renderStream items tail) := by
  cases items with
  | nil => exact tailWF_headNot hWF.2
  | cons it rest =>
      obtain ⟨sep, o⟩ := it
      have hit := hWF.1 (sep, o) (List.mem_cons_self _ _)
      obtain ⟨hsep, ⟨ms, ho⟩, hwfo⟩ := hit
      rw [show renderStream ((sep, o) :: rest) tail
          = sep ++ (renderJson o ++ renderStream rest tail) from rfl]
      cases sep with
      | cons c t =>
          simp only [List.cons_append, HeadNot]
          exact isSep_not_numCont (hsep c (List.mem_cons_self _ _))
      | nil =>
          simp only [List.nil_append]
          subst ho
          obtain ⟨B, hB⟩ := renderJson_obj_head ms
          rw [hB]
          simp only [List.cons_append, HeadNot]
          decide

lemma renderStream_ne_nil_of_cons (sep : List Char) (o : Json)
    (rest : List (List Char × Json)) (tail : List Char) (ms : List (List Char × Json))
    (ho : o = Json.obj ms) : renderStream ((sep, o) :: rest) tail ≠ [] := by
  rw [show renderStream ((sep, o) :: rest) tail
      = sep ++ (renderJson o ++ renderStream rest tail) from rfl]
  subst ho
  obtain ⟨B, hB⟩ := renderJson_obj_head ms
  rw [hB]
  simp

lemma rawDecode_render (o : Json) (P4 : List Char) (hWF : JsonWF o)
    (hHN : HeadNot isNumCont P4) : rawDecode (renderJson o ++ P4) = some (o, P4) := by
  unfold rawDecode
  refine (parse_render _).1 o P4 hWF ?_ hHN
  have h1 := jsonFuel_le o
  simp only [List.length_append]
  omega

lemma rawDecode_cut (o : Json) (W Q : List Char) (hWF : JsonWF o) (hNN : NonNum o)
    (hsplit : W ++ Q = renderJson o) (hQne : Q ≠ []) : rawDecode W = none :=
  (parse_cut _).1 o W Q hWF hNN hsplit hQne

lemma streamWF_nil {tail : List Char} (h : TailWF tail) : StreamWF [] tail :=
  ⟨fun it hit => absurd hit (List.not_mem_nil it), h⟩

/-- The drain invariant: running the loop on any prefix `P` of a well-formed
stream emits exactly the objects whose full text lies inside `P` and leaves a
buffer that, with the unread remainder `R`, is again a well-formed stream.
When nothing remains unread, everything has been emitted. -/
theorem drain_stream :
    ∀ (fuel : Nat) (P R : List Char) (items : List (List Char × Json)) (tail : List Char),
      StreamWF items tail → P ++ R = renderStream items tail → P.length + 1 ≤ fuel →
      ∃ todo tail2,
        StreamWF todo tail2
        ∧ items.map (fun it => it.2) = (drain fuel P).1 ++ todo.map (fun it => it.2)
        ∧ (drain fuel P).2 ++ R = renderStream todo tail2
        ∧ skipWs tail2 = skipWs tail
        ∧ (R = [] → todo = [] ∧ (drain fuel P).2 = skipWs tail) := by
  intro fuel
  induction fuel using Nat.strong_induction_on with
  | _ fuel IH =>
  intro P R items tail hWF hsplit hfuel
  cases items with
  | nil =>
      simp only [renderStream] at hsplit
      rcases hWF.2 with hws | ⟨w, r, htl, hw, hr⟩
      · -- pure-whitespace tail
        have hPws : ∀ c ∈ P, isWs c = true := by
          intro c hc
          exact hws c (by rw [← hsplit]; exact List.mem_append_left _ hc)
        have hdr : drain fuel P = ([], []) :=
          drain_all_sep fuel P (fun c hc => isSep_of_isWs (hPws c hc)) hfuel
        refine ⟨[], R, streamWF_nil (Or.inl ?_), by simp [hdr], by simp [hdr, renderStream],
          ?_, ?_⟩
        · intro c hc
          exact hws c (by rw [← hsplit]; exact List.mem_append_right _ hc)
        · rw [skipWs_all hws, skipWs_all]
          intro c hc
          exact hws c (by rw [← hsplit]; exact List.mem_append_right _ hc)
        · intro hR0
          refine ⟨rfl, ?_⟩
          rw [hdr, skipWs_all hws]
      · -- tail with a closing bracket
        subst htl
        have hskt : skipWs (w ++ ']' :: r) = ']' :: r := by
          rw [show skipWs (w ++ ']' :: r) = skipWs (']' :: r) from skipWs_ws_append hw,
            skipWs_cons_of_neg (by decide)]
        rcases List.append_eq_append_iff.mp hsplit with ⟨a, hwa, hRa⟩ | ⟨P2, hP, hTa⟩
        · -- P ends inside the whitespace run
          have hPws : ∀ c ∈ P, isWs c = true := by
            intro c hc
            exact hw c (by rw [hwa]; exact List.mem_append_left _ hc)
          have hdr : drain fuel P = ([], []) :=
            drain_all_sep fuel P (fun c hc => isSep_of_isWs (hPws c hc)) hfuel
          have haws : ∀ c ∈ a, isWs c = true := by
            intro c hc
            exact hw c (by rw [hwa]; exact List.mem_append_right _ hc)
          refine ⟨[], R, streamWF_nil (Or.inr ⟨a, r, hRa, haws, hr⟩), by simp [hdr],
            by simp [hdr, renderStream], ?_, ?_⟩
          · rw [hskt, hRa, show skipWs (a ++ ']' :: r) = skipWs (']' :: r) from
              skipWs_ws_append haws, skipWs_cons_of_neg (by decide)]
          · intro hR0
            rw [hR0] at hRa
            exact absurd hRa.symm (by simp)
        · cases P2 with
          | nil =>
              rw [List.append_nil] at hP
              subst hP
              have hdr : drain fuel P = ([], []) :=
                drain_all_sep fuel P (fun c hc => isSep_of_isWs (hw c hc)) hfuel
              refine ⟨[], R, streamWF_nil ?_, by simp [hdr], by simp [hdr, renderStream],
                ?_, ?_⟩
              · rw [List.nil_append] at hTa
                exact Or.inr ⟨[], r, by simp [← hTa], by simp, hr⟩
              · rw [List.nil_append] at hTa
                rw [hskt, ← hTa, skipWs_cons_of_neg (by decide)]
              · intro hR0
                rw [List.nil_append, hR0] at hTa
                exact absurd hTa (by simp)
          | cons p2 P3 =>
              rw [List.cons_append] at hTa
              injection hTa with y1 y2
              subst hP
              have hy1 : p2 = ']' := y1.symm
              subst hy1
              have hb : Gateway.SepOk w := fun c hc => isSep_of_isWs (hw c hc)
              have hlen : w.length + (']' :: P3).length + 1 ≤ fuel := by
                simp only [List.length_append, List.length_cons] at hfuel ⊢
                omega
              obtain ⟨fx, hfx1, hfx2, heq⟩ := drain_sep_peel fuel w (']' :: P3) hb
                (by simp only [HeadNot]; decide) hlen
              obtain ⟨fx2, rfl⟩ : ∃ fx2, fx = fx2 + 1 := by
                refine ⟨fx - 1, ?_⟩
                simp only [List.length_cons] at hfx1
                omega
              have hst : drain (fx2 + 1) (']' :: P3) = ([], ']' :: P3) :=
                drain_stuck fx2 (']' :: P3) (skipWs_cons_of_neg (by decide))
                  (by decide) (rawDecode_close P3)
              refine ⟨[], ']' :: r, streamWF_nil (Or.inr ⟨[], r, by simp, by simp, hr⟩),
                by simp [heq, hst], ?_, ?_, ?_⟩
              · rw [heq, hst]
                simp only [renderStream]
                rw [show ((']' :: P3 : List Char)) ++ R = ']' :: (P3 ++ R) from rfl,
                  ← y2]
              · rw [hskt, skipWs_cons_of_neg (by decide)]
              · intro hR0
                subst hR0
                rw [List.append_nil] at y2
                refine ⟨rfl, ?_⟩
                rw [heq, hst, hskt, y2]
  | cons it rest =>
      obtain ⟨sep, o⟩ := it
      have hhd := hWF.1 (sep, o) (List.mem_cons_self _ _)
      obtain ⟨hsep, ⟨ms, ho⟩, hwfo⟩ := hhd
      have hWFrest : StreamWF rest tail :=
        ⟨fun x hx => hWF.1 x (List.mem_cons_of_mem _ hx), hWF.2⟩
      obtain ⟨OB, hOB⟩ : ∃ OB, renderJson o = '{' :: OB := by
        subst ho
        exact renderJson_obj_head ms
      rw [show renderStream ((sep, o) :: rest) tail
          = sep ++ (renderJson o ++ renderStream rest tail) from rfl] at hsplit
      rcases List.append_eq_append_iff.mp hsplit with ⟨a, hsa, hRa⟩ | ⟨P2, hP, hTa⟩
      · -- P ends inside the separator run
        have hPsep : ∀ c ∈ P, isSep c = true := by
          intro c hc
          exact hsep c (by rw [hsa]; exact List.mem_append_left _ hc)
        have hdr : drain fuel P = ([], []) := drain_all_sep fuel P hPsep hfuel
        refine ⟨(a, o) :: rest, tail, ?_, by simp [hdr], ?_, rfl, ?_⟩
        · refine ⟨?_, hWF.2⟩
          intro x hx
          rcases List.mem_cons.mp hx with rfl | hx2
          · exact ⟨fun c hc => hsep c (by rw [hsa]; exact List.mem_append_right _ hc),
              ⟨ms, ho⟩, hwfo⟩
          · exact hWF.1 x (List.mem_cons_of_mem _ hx2)
        · rw [hdr, hRa]
          simp [renderStream]
        · intro hR0
          rw [hR0] at hRa
          have h1 := (List.append_eq_nil.mp hRa.symm).2
          have h2 := (List.append_eq_nil.mp h1).1
          rw [hOB] at h2
          exact absurd h2 (by simp)
      · cases P2 with
        | nil =>
            rw [List.append_nil] at hP
            subst hP
            have hdr : drain fuel P = ([], []) := drain_all_sep fuel P hsep hfuel
            refine ⟨([], o) :: rest, tail, ?_, by simp [hdr], ?_, rfl, ?_⟩
            · refine ⟨?_, hWF.2⟩
              intro x hx
              rcases List.mem_cons.mp hx with rfl | hx2
              · exact ⟨fun c hc => absurd hc (by simp), ⟨ms, ho⟩, hwfo⟩
              · exact hWF.1 x (List.mem_cons_of_mem _ hx2)
            · rw [hdr, List.nil_append] at *
              rw [← hTa]
              simp [renderStream]
            · intro hR0
              rw [List.nil_append, hR0] at hTa
              have h2 := (List.append_eq_nil.mp hTa).1
              rw [hOB] at h2
              exact absurd h2 (by simp)
        | cons p2 P3 =>
            subst hP
            have hp2 : p2 = '{' := by
              have hx := hTa
              rw [hOB, List.cons_append, List.cons_append] at hx
              injection hx with z1 z2
              exact z1.symm
            subst hp2
            have hlen : sep.length + ('{' :: P3).length + 1 ≤ fuel := by
              simp only [List.length_append, List.length_cons] at hfuel ⊢
              omega
            obtain ⟨fx, hfx1, hfx2, heq⟩ := drain_sep_peel fuel sep ('{' :: P3) hsep
              (by simp only [HeadNot]; decide) hlen
            obtain ⟨fx2, rfl⟩ : ∃ fx2, fx = fx2 + 1 := by
              refine ⟨fx - 1, ?_⟩
              simp only [List.length_cons] at hfx1
              omega
            -- split the post-separator prefix against the object text
            rcases List.append_eq_append_iff.mp hTa.symm with ⟨b, hrb, hRb⟩ |
              ⟨P4, hP24, hR4⟩
            · rcases b with _ | ⟨b1, b2⟩
              · -- exactly the object text: emit it and recurse on the rest
                rw [List.append_nil] at hrb
                have hNEmp : HeadNot isNumCont ([] : List Char) := trivial
                have hrd : rawDecode ('{' :: P3) = some (o, []) := by
                  rw [show ('{' :: P3 : List Char) = renderJson o ++ [] from by
                    rw [List.append_nil, hrb]]
                  exact rawDecode_render o [] hwfo hNEmp
                have hem : drain (fx2 + 1) ('{' :: P3)
                    = (o :: (drain fx2 []).1, (drain fx2 []).2) :=
                  drain_emit fx2 ('{' :: P3) (skipWs_cons_of_neg (by decide))
                    (by decide) hrd
                have hfx2b : (0 : Nat) + 1 ≤ fx2 := by
                  simp only [List.length_cons] at hfx1
                  omega
                obtain ⟨todo, tail2, hs1, hs2, hs3, hs4, hs5⟩ :=
                  IH fx2 (by omega) [] R rest tail hWFrest (by simpa using hRb)
                    (by simpa using hfx2b)
                refine ⟨todo, tail2, hs1, ?_, ?_, hs4, ?_⟩
                · rw [heq, hem]
                  simp only [List.map_cons, List.cons_append]
                  rw [hs2]
                · rw [heq, hem]
                  exact hs3
                · intro hR0
                  obtain ⟨ht1, ht2⟩ := hs5 hR0
                  refine ⟨ht1, ?_⟩
                  rw [heq, hem]
                  exact ht2
              · -- a strict prefix of the object text: the loop stalls here
                have hrd : rawDecode ('{' :: P3) = none := by
                  refine rawDecode_cut o ('{' :: P3) (b1 :: b2) hwfo ?_ hrb.symm
                    (by simp)
                  subst ho
                  trivial
                have hst : drain (fx2 + 1) ('{' :: P3) = ([], '{' :: P3) :=
                  drain_stuck fx2 ('{' :: P3) (skipWs_cons_of_neg (by decide))
                    (by decide) hrd
                refine ⟨([], o) :: rest, tail, ?_, by simp [heq, hst], ?_, rfl, ?_⟩
                · refine ⟨?_, hWF.2⟩
                  intro x hx
                  rcases List.mem_cons.mp hx with rfl | hx2
                  · exact ⟨fun c hc => absurd hc (by simp), ⟨ms, ho⟩, hwfo⟩
                  · exact hWF.1 x (List.mem_cons_of_mem _ hx2)
                · rw [heq, hst]
                  rw [show renderStream (([], o) :: rest) tail
                      = renderJson o ++ renderStream rest tail from by simp [renderStream]]
                  dsimp only
                  exact hTa.symm
                · intro hR0
                  rw [hR0] at hRb
                  exact absurd hRb (by simp)
            · -- the object text plus more: emit and recurse on the remainder
              have hHN : HeadNot isNumCont P4 := by
                cases P4 with
                | nil => trivial
                | cons q1 q2 =>
                    have hh := renderStream_headNot rest tail hWFrest
                    rw [hR4] at hh
                    simp only [List.cons_append, HeadNot] at hh ⊢
                    exact hh
              have hrd : rawDecode ('{' :: P3) = some (o, P4) := by
                rw [show ('{' :: P3 : List Char) = renderJson o ++ P4 from hP24]
                exact rawDecode_render o P4 hwfo hHN
              have hem : drain (fx2 + 1) ('{' :: P3)
                  = (o :: (drain fx2 P4).1, (drain fx2 P4).2) :=
                drain_emit fx2 ('{' :: P3) (skipWs_cons_of_neg (by decide))
                  (by decide) hrd
              have hlen4 : P4.length + 1 ≤ fx2 := by
                have hl := congrArg List.length hP24
                have hro : 1 ≤ (renderJson o).length := by
                  rw [hOB]
                  simp
                simp only [List.length_cons, List.length_append] at hl hfx1
                omega
              obtain ⟨todo, tail2, hs1, hs2, hs3, hs4, hs5⟩ :=
                IH fx2 (by omega) P4 R rest tail hWFrest (by rw [hR4]) hlen4
              refine ⟨todo, tail2, hs1, ?_, ?_, hs4, ?_⟩
              · rw [heq, hem]
                simp only [List.map_cons, List.cons_append]
                rw [hs2]
              · rw [heq, hem]
                exact hs3
              · intro hR0
                obtain ⟨ht1, ht2⟩ := hs5 hR0
                refine ⟨ht1, ?_⟩
                rw [heq, hem]
                exact ht2

lemma renderStream_empty (items : List (List Char × Json)) (tail : List Char)
    (hWF : StreamWF items tail) (h : renderStream items tail = []) :
    items = [] ∧ skipWs tail = [] := by
  cases items with
  | nil =>
      refine ⟨rfl, ?_⟩
      rw [show renderStream [] tail = tail from rfl] at h
      rw [h]
      rfl
  | cons it rest =>
      obtain ⟨sep, o⟩ := it
      obtain ⟨_, ⟨ms, ho⟩, _⟩ := hWF.1 (sep, o) (List.mem_cons_self _ _)
      exact absurd h (renderStream_ne_nil_of_cons sep o rest tail ms ho)

/-- Folding `decode` over a chunk list starting from a coherent parser state
ends with every remaining object emitted and the canonical final buffer. -/
lemma feed_loop (tail0 : List Char) :
    ∀ (cs : List (List Char)) (st : List Json × List Char)
      (todo : List (List Char × Json)) (tail2 : List Char),
      StreamWF todo tail2 →
      st.2 ++ cs.join = renderStream todo tail2 →
      skipWs tail2 = skipWs tail0 →
      (cs.join = [] → todo = [] ∧ st.2 = skipWs tail0) →
      cs.foldl (fun st c =>
        let r := streamDecode st.2 c
        (st.1 ++ r.1, r.2)) st
        = (st.1 ++ todo.map (fun it => it.2), skipWs tail0)
  | [], st, todo, tail2, hWF, hsp, hsk, hlast => by
      obtain ⟨rfl, h2⟩ := hlast (by simp)
      simp only [List.foldl_nil, List.map_nil, List.append_nil]
      cases st with
      | mk a b => simp only at h2 ⊢; rw [h2]
  | c :: cs2, st, todo, tail2, hWF, hsp, hsk, hlast => by
      simp only [List.foldl_cons]
      have hsp2 : (st.2 ++ c) ++ cs2.join = renderStream todo tail2 := by
        rw [List.append_assoc]
        rw [show c ++ cs2.join = (c :: cs2).join from by simp]
        exact hsp
      obtain ⟨todo2, tail3, g1, g2, g3, g4, g5⟩ :=
        drain_stream ((st.2 ++ c).length + 1) (st.2 ++ c) cs2.join todo tail2
          hWF hsp2 (le_refl _)
      have hrec := feed_loop tail0 cs2
        (st.1 ++ (streamDecode st.2 c).1, (streamDecode st.2 c).2) todo2 tail3 g1
        (by
          simp only [streamDecode]
          exact g3)
        (by rw [g4]; exact hsk)
        (by
          intro h0
          obtain ⟨ht1, ht2⟩ := g5 h0
          refine ⟨ht1, ?_⟩
          simp only [streamDecode]
          rw [ht2]
          exact hsk)
      rw [hrec]
      simp only [streamDecode]
      rw [g2]
      simp [List.append_assoc]

/-- Claim C8: chunking invariance of the streaming JSON parser.  For every
complete payload `renderStream items tail` — a sequence of well-formed JSON
object texts separated by whitespace, `[` and `,`, and ending in whitespace
with an optional closing `]` — and every way of splitting that payload into
chunks, feeding the chunks one `decode` call at a time produces exactly the
same result (the same ordered list of decoded objects — the payload's
objects in order — and the same final buffer) as feeding the whole payload
in a single call. -/
theorem stream_parser_chunk_invariance
    (items : List (List Char × Json)) (tail : List Char) (chunks : List (List Char))
    (hWF : StreamWF items tail)
    (hjoin : chunks.join = renderStream items tail) :
    feedAll chunks = feedAll [renderStream items tail]
      ∧ (feedAll chunks).1 = items.map (fun it => it.2) := by
  have hlast0 : ∀ (cs : List (List Char)), cs.join = renderStream items tail →
      cs.join = [] → items = [] ∧ (([], []) : List Json × List Char).2 = skipWs tail := by
    intro cs hj h0
    have hre : renderStream items tail = [] := by rw [← hj, h0]
    obtain ⟨h1, h2⟩ := renderStream_empty items tail hWF hre
    exact ⟨h1, h2.symm⟩
  have hmany : feedAll chunks = (items.map (fun it => it.2), skipWs tail) := by
    unfold feedAll
    have hfl := feed_loop tail chunks ([], []) items tail hWF (by simpa using hjoin) rfl
      (hlast0 chunks hjoin)
    simpa using hfl
  have hone : feedAll [renderStream items tail]
      = (items.map (fun it => it.2), skipWs tail) := by
    unfold feedAll
    have hj1 : ([renderStream items tail] : List (List Char)).join
        = renderStream items tail := by simp
    have hfl := feed_loop tail [renderStream items tail] ([], []) items tail hWF
      (by simpa using hj1) rfl (hlast0 _ hj1)
    simpa using hfl
  rw [hmany, hone]
  exact ⟨rfl, rfl⟩

/-- Concrete instance of the chunk-invariance theorem: the payload
`[{},{}]` split as `[{` / `},{}]` decodes to the same two objects as the
whole payload at once. -/
theorem stream_parser_chunk_invariance_witness :
    StreamWF [((['['] : List Char), Json.obj []), (([','] : List Char), Json.obj [])] [']']
    ∧ ([['[', '{'], ['}', ',', '{', '}', ']']] : List (List Char)).join
        = renderStream [(['['], Json.obj []), ([','], Json.obj [])] [']']
    ∧ feedAll [['[', '{'], ['}', ',', '{', '}', ']']]
        = feedAll [renderStream [(['['], Json.obj []), ([','], Json.obj [])] [']']]
    ∧ (feedAll [['[', '{'], ['}', ',', '{', '}', ']']]).1
        = [Json.obj [], Json.obj []] := by
  have hWF : StreamWF [(['['], Json.obj []), ([','], Json.obj [])] [']'] := by
    refine ⟨?_, Or.inr ⟨[], [], by simp, by simp, by simp⟩⟩
    intro it hit
    simp only [List.mem_cons, List.not_mem_nil, or_false] at hit
    rcases hit with rfl | rfl
    · exact ⟨by intro c hc; simp only [List.mem_singleton] at hc; subst hc; decide,
        ⟨[], rfl⟩, by simp [JsonWF, MembersWF]⟩
    · exact ⟨by intro c hc; simp only [List.mem_singleton] at hc; subst hc; decide,
        ⟨[], rfl⟩, by simp [JsonWF, MembersWF]⟩
  have hjoin : ([['[', '{'], ['}', ',', '{', '}', ']']] : List (List Char)).join
      = renderStream [(['['], Json.obj []), ([','], Json.obj [])] [']'] := by
    simp [renderStream, renderJson]
  have hmain := stream_parser_chunk_invariance
    [(['['], Json.obj []), ([','], Json.obj [])] [']']
    [['[', '{'], ['}', ',', '{', '}', ']']] hWF hjoin
  exact ⟨hWF, hjoin, hmain.1, hmain.2.trans (by simp)⟩
end Gateway